import Mathlib

/-!
# LivingRoom chess core: position parser and engine-response scanner

A shallow embedding of `FENParser.cpp` and `ChessAIHandler.cpp`, with the parts of
`ChessAI.cpp`, `Stockfish.cpp` and `ChessBoard.cpp` that the statements need.

Conventions of the embedding:

* a `std::string` is a `List Char` (`CppString`); one list element stands for one `char`;
* a `std::vector<T>` is a `List T`;
* `int` is `Int`; the only place where the 32-bit range matters is `std::stoi`, which
  reports values outside of it as `out_of_range`;
* a C++ exception or an access outside a container is a `Fault`, carried by `Except`;
* reference parameters that a function writes become part of its result;
* the file-level variable `whitesTurn` of `ChessAIHandler.cpp` is threaded explicitly;
* the engine process behind `Stockfish::requestStockfish` is a function parameter.
-/

namespace LivingRoom

/-- A `std::string`, one element per `char`. -/
abbrev CppString := List Char

/-- The ways in which the modelled code can fail to return. -/
inductive Fault where
  /-- Exception `std::invalid_argument`, thrown by `std::stoi` when no digits are found. -/
  | invalidArgument
  /-- Exception `std::out_of_range`, thrown by `std::stoi` and by `std::string::substr`. -/
  | outOfRange
  /-- An access outside a `std::vector` or `std::string` through `operator[]`. -/
  | undefinedBehaviour
  deriving DecidableEq, Repr

/-! ## Standard-library functions used by the source -/

/-- Source `std::string::operator[]` for reading: the character at `pos`, the terminating
null character when `pos` equals the size, undefined beyond. -/
def charAt (s : CppString) (pos : Nat) : Except Fault Char :=
  if pos < s.length then .ok (s.getD pos (Char.ofNat 0))
  else if pos = s.length then .ok (Char.ofNat 0)
  else .error .undefinedBehaviour

/-- Source `std::string::substr(pos, count)`: throws `std::out_of_range` when `pos` exceeds the
size, otherwise the at most `count` characters from `pos` on. -/
def substr (s : CppString) (pos count : Nat) : Except Fault CppString :=
  if pos > s.length then .error .outOfRange else .ok ((s.drop pos).take count)

/-- Source `std::string::find(needle)`: the first position at which `needle` occurs, `none` for
`std::string::npos`. -/
def find (needle : CppString) : CppString → Option Nat
  | [] => if needle = [] then some 0 else none
  | c :: cs =>
    if needle.isPrefixOf (c :: cs) then some 0
    else (find needle cs).map (· + 1)

/-- The test `s.find(needle) != std::string::npos`. -/
def contains (s needle : CppString) : Bool := (find needle s).isSome

/-- Source `isdigit` in the "C" locale. -/
def isdigit (c : Char) : Bool := 48 ≤ c.toNat && c.toNat ≤ 57

/-- Source `isspace` in the "C" locale: space, `\t`, `\n`, `\v`, `\f`, `\r`. -/
def isspace (c : Char) : Bool := c.toNat = 32 || (9 ≤ c.toNat && c.toNat ≤ 13)

/-- Value of a run of decimal digits, most significant first. -/
def digitsValue (ds : List Char) : Nat :=
  ds.foldl (fun acc d => 10 * acc + (d.toNat - 48)) 0

/-- Source `std::stoi(s)` in base 10: skips leading white space, reads an optional sign and the
longest run of digits, ignores what follows; `std::invalid_argument` without a digit,
`std::out_of_range` when the value does not fit an `int`. -/
def stoi (s : CppString) : Except Fault Int :=
  let body := s.dropWhile isspace
  let signed : Bool × CppString :=
    match body with
    | '-' :: rest => (true, rest)
    | '+' :: rest => (false, rest)
    | _ => (false, body)
  let ds := signed.2.takeWhile isdigit
  if ds = [] then .error .invalidArgument
  else
    let v : Int := if signed.1 then -(digitsValue ds : Int) else (digitsValue ds : Int)
    if v < -2147483648 ∨ 2147483647 < v then .error .outOfRange else .ok v

/-- Source `std::to_string(int)`. -/
def to_string (i : Int) : CppString :=
  if i < 0 then '-' :: Nat.toDigits 10 i.natAbs else Nat.toDigits 10 i.natAbs

/-- Access `vec[i]` with an `int` index: outside `0 ..< size` the access is undefined. -/
def at_ {α : Type} (vec : List α) (i : Int) : Except Fault α :=
  if i < 0 then .error .undefinedBehaviour
  else match vec.get? i.toNat with
    | some x => .ok x
    | none => .error .undefinedBehaviour

/-! ## FENParser.cpp -/

/-- Source `COLUMN_LETTERS`. -/
def COLUMN_LETTERS : CppString := "abcdefgh".toList

/-- Source `splitStringIntoParts`: the `std::getline` loop. Every delimiter closes a part; the
characters after the last delimiter form a final part unless there are none, so an empty
input gives no part and a trailing delimiter adds none. -/
def splitStringIntoParts : CppString → Char → List CppString
  | [], _ => []
  | c :: cs, delimiter =>
    if c = delimiter then [] :: splitStringIntoParts cs delimiter
    else
      match splitStringIntoParts cs delimiter with
      | [] => [[c]]
      | part :: parts => (c :: part) :: parts

/-- Source `getCastlingAvailability`. -/
def getCastlingAvailability (castlingRights : CppString) : List Bool :=
  [ contains castlingRights ['K'],
    contains castlingRights ['Q'],
    contains castlingRights ['k'],
    contains castlingRights ['q'] ]

/-- The values `parseFEN` leaves in its reference parameters. -/
structure Position where
  board : List CppString
  whitesTurn : Bool
  castlingRights : List Bool
  enPassantTarget : CppString
  halfMoveClock : Int
  fullMoveNumber : Int
  deriving DecidableEq, Repr

/-- The inner loop of `parseFEN` over the characters of one row. -/
def expandRow (board : List CppString) : CppString → List CppString
  | [] => board
  | currentFENChar :: row =>
    if isdigit currentFENChar then
      expandRow (board ++ List.replicate (currentFENChar.toNat - 48) ['.']) row
    else
      expandRow (board ++ [[currentFENChar]]) row

/-- The outer loop of `parseFEN` over the rows. -/
def expandRows (board : List CppString) : List CppString → List CppString
  | [] => board
  | row :: rows => expandRows (expandRow board row) rows

/-- The fallback position string of `parseFEN`. -/
def defaultFEN : CppString :=
  "rnbqkbnr/pppppppp/8/8/8/8/PPPPPPPP/RNBQKBNR w KQkq - 0 1".toList

/-- Source `FENParser::parseFEN`. `board` is the content of the board container on entry; the
other reference parameters are only written. When `std::stoi` throws, what the function has
already written is not part of the result. -/
def parseFEN (fen : CppString) (board : List CppString) : Except Fault Position :=
  let parts := splitStringIntoParts fen ' '
  let parts := if parts.length ≠ 6 then splitStringIntoParts defaultFEN ' ' else parts
  match parts with
  | [p0, p1, p2, p3, p4, p5] =>
    let rows := splitStringIntoParts p0 '/'
    let board := expandRows board rows
    let whitesTurn := decide (p1 = ['w'])
    let castlingRights := getCastlingAvailability p2
    let enPassantTarget := p3
    match stoi p4 with
    | .error e => .error e
    | .ok halfMoveClock =>
      match stoi p5 with
      | .error e => .error e
      | .ok fullMoveNumber =>
        .ok { board, whitesTurn, castlingRights, enPassantTarget, halfMoveClock, fullMoveNumber }
  | _ => .error .undefinedBehaviour

/-- Source `removeStringFromVector`: `std::remove` followed by `erase`. -/
def removeStringFromVector (vec : List CppString) (toRemove : CppString) : List CppString :=
  vec.filter (fun entry => entry ≠ toRemove)

/-- Source `isSquareUnderAttack`: whether some move has `COLUMN_LETTERS[col] + to_string(row + 1)`
as its characters 2 and 3. `substr(2, 2)` throws on a move shorter than two characters. -/
def isSquareUnderAttack : List CppString → Nat → Nat → Except Fault Bool
  | [], _, _ => .ok false
  | move :: moves, row, col => do
    let destination ← substr move 2 2
    let letter ← charAt COLUMN_LETTERS col
    if destination = letter :: to_string ((row : Int) + 1) then .ok true
    else isSquareUnderAttack moves row col

/-- The loop of `addCastlingOptionIfPossible` over the columns between king and rook:
`true` when it runs to its end, `false` when it leaves through `break`. -/
def castlingPathClear (negativeLegalMoves : List CppString) (board : List CppString)
    (kingRow : Nat) : List Nat → Except Fault Bool
  | [] => .ok true
  | currentColumn :: columns => do
    let cell ← at_ board ((kingRow : Int) * 8 + currentColumn)
    if cell ≠ ['.'] then .ok false
    else
      let attacked ← isSquareUnderAttack negativeLegalMoves kingRow currentColumn
      if attacked then .ok false
      else castlingPathClear negativeLegalMoves board kingRow columns

/-- Source `FENParser::addCastlingOptionIfPossible`; the result is the legal-move list. -/
def addCastlingOptionIfPossible (legalMoves negativeLegalMoves board : List CppString)
    (whitesTurn castlingAllowed firstCastlingCheck : Bool) (castlingMove : CppString) :
    Except Fault (List CppString) :=
  let castlingStringIncluded := decide (castlingMove.take 4 ∈ legalMoves)
  if castlingAllowed && castlingStringIncluded then do
    let kingRow : Nat := if whitesTurn then 7 else 0
    let minColumn : Nat := if firstCastlingCheck then 5 else 1
    let maxColumn : Nat := if firstCastlingCheck then 7 else 4
    let kingAttacked ← isSquareUnderAttack negativeLegalMoves kingRow 4
    if kingAttacked then .ok legalMoves
    else
      let clear ← castlingPathClear negativeLegalMoves board kingRow
        (List.range' minColumn (maxColumn - minColumn))
      if clear then
        .ok (removeStringFromVector legalMoves (castlingMove.take 4) ++ [castlingMove])
      else .ok legalMoves
  else .ok legalMoves

/-- Source `FENParser::detectPossibleCastlingMoves`. The local `negativeLegalMoves` is created
empty and handed on as it is; `fen` is not used. -/
def detectPossibleCastlingMoves (_fen : CppString) (legalMoves board : List CppString)
    (whitesTurn : Bool) (castlingRights : List Bool) : Except Fault (List CppString) :=
  let negativeLegalMoves : List CppString := []
  if whitesTurn then do
    let right0 ← at_ castlingRights 0
    let legalMoves ← addCastlingOptionIfPossible legalMoves negativeLegalMoves board
      whitesTurn right0 true "e1g1|h1f1".toList
    let right1 ← at_ castlingRights 1
    addCastlingOptionIfPossible legalMoves negativeLegalMoves board
      whitesTurn right1 false "e1c1|a1d1".toList
  else do
    let right2 ← at_ castlingRights 2
    let legalMoves ← addCastlingOptionIfPossible legalMoves negativeLegalMoves board
      whitesTurn right2 true "e8g8|h8f8".toList
    let right3 ← at_ castlingRights 3
    addCastlingOptionIfPossible legalMoves negativeLegalMoves board
      whitesTurn right3 false "e8c8|a8d8".toList

/-- The conversion `int targetColumn = COLUMN_LETTERS.find(c)`: `npos` becomes `-1`. -/
def findColumn (c : Char) : Int :=
  match find [c] COLUMN_LETTERS with
  | some position => position
  | none => -1

/-- Source `FENParser::detectEnPassant`; the result is the legal-move list. -/
def detectEnPassant (legalMoves board : List CppString) (enPassantTarget : CppString)
    (whitesTurn : Bool) : Except Fault (List CppString) :=
  let enPassantPossible := decide (enPassantTarget ≠ ['-']) && decide (enPassantTarget.length = 2)
  if enPassantPossible then do
    let targetColumn : Int := findColumn (enPassantTarget.getD 0 (Char.ofNat 0))
    let rankText ← substr enPassantTarget 1 1
    let rank ← stoi rankText
    let targetRow : Int := 8 - rank
    let targetCell ← at_ board (targetRow * 8 + targetColumn)
    if targetCell ≠ ['.'] then .ok legalMoves
    else
      let pawnRowDirection : Int := if whitesTurn then 1 else -1
      let adjacentRow : Int := targetRow + pawnRowDirection
      let pawn : CppString := if whitesTurn then ['P'] else ['p']
      let enPassantMoveAddon : CppString :=
        enPassantTarget ++ ['-'] ++ enPassantTarget.take 1 ++ to_string (8 - adjacentRow)
      let leftPawn ←
        if targetColumn > 0 then do
          let cell ← at_ board (adjacentRow * 8 + (targetColumn - 1))
          pure (decide (cell = pawn))
        else pure false
      if leftPawn then do
        let letter ← charAt COLUMN_LETTERS (targetColumn - 1).toNat
        let startingField : CppString := letter :: to_string (8 - adjacentRow)
        .ok (removeStringFromVector legalMoves (startingField ++ enPassantTarget)
              ++ [startingField ++ enPassantMoveAddon])
      else
        let rightPawn ←
          if targetColumn < 7 then do
            let cell ← at_ board (adjacentRow * 8 + (targetColumn + 1))
            pure (decide (cell = pawn))
          else pure false
        if rightPawn then do
          let letter ← charAt COLUMN_LETTERS (targetColumn + 1).toNat
          let startingField : CppString := letter :: to_string (8 - adjacentRow)
          .ok (removeStringFromVector legalMoves (startingField ++ enPassantTarget)
                ++ [startingField ++ enPassantMoveAddon])
        else .ok legalMoves
  else .ok legalMoves

/-- Source `FENParser::extractFENDetails`; the result is the legal-move list and
`drawOfferable`. -/
def extractFENDetails (fen : CppString) (legalMoves : List CppString) :
    Except Fault (List CppString × Bool) := do
  let position ← parseFEN fen []
  let legalMoves ← detectPossibleCastlingMoves fen legalMoves position.board
    position.whitesTurn position.castlingRights
  let legalMoves ← detectEnPassant legalMoves position.board position.enPassantTarget
    position.whitesTurn
  let drawOfferable := decide (position.halfMoveClock ≥ 100)
  .ok (legalMoves, drawOfferable)

/-! ## ChessAIHandler.cpp -/

/-- Source `StockfishResponse`, with the default member initialisers as default values. -/
structure StockfishResponse where
  bestMove : CppString := []
  legalMoves : List CppString := []
  board : List CppString := []
  fen : CppString := []
  isCheckmate : Bool := false
  drawOfferable : Bool := false
  deriving DecidableEq, Repr

/-- Source `ChessAIHandler::checkForFen`; the result is `fen` and the file-level `whitesTurn`. -/
def checkForFen (line : CppString) (fen : CppString) (whitesTurn : Bool) :
    Except Fault (CppString × Bool) :=
  if contains line "Fen: ".toList then do
    let fen ← substr line 5 line.length
    .ok (fen, !(contains fen ['w']))
  else .ok (fen, whitesTurn)

/-- Source `ChessAIHandler::checkForBestMove`; the result is `bestMove`. -/
def checkForBestMove (line : CppString) (bestMove : CppString) : Except Fault CppString :=
  if contains line "bestmove".toList then do
    let c ← charAt line 13
    if c = ' ' then substr line 9 4
    else substr line 9 5
  else .ok bestMove

/-- Source `checkForPromotionPiece`. -/
def checkForPromotionPiece (line : CppString) : Bool :=
  if line.length ≥ 5 then
    ['q', 'r', 'b', 'n'].any (fun promotionPiece => promotionPiece == line.getD 4 (Char.ofNat 0))
  else false

/-- The macro `_toupper` on a lower-case letter. -/
def _toupper (c : Char) : Char := Char.ofNat (c.toNat - 32)

/-- Source `ChessAIHandler::checkForLegalMoves`; `whitesTurn` is the file-level variable, the
result is `legalMoves`. -/
def checkForLegalMoves (whitesTurn : Bool) (line : CppString) (legalMoves : List CppString) :
    Except Fault (List CppString) :=
  if contains line ": 1".toList && !(contains line "Node".toList) then do
    let move ← substr line 0 4
    if checkForPromotionPiece line then do
      let promotionPiece ← charAt line 4
      let promotionPiece := if whitesTurn then _toupper promotionPiece else promotionPiece
      .ok (legalMoves ++ [move ++ "->".toList ++ [promotionPiece]])
    else if move ≠ "Key:".toList ∧ move ≠ "Fen:".toList then
      .ok (legalMoves ++ [move])
    else .ok legalMoves
  else .ok legalMoves

/-- Source `ChessAIHandler::checkForBoardPart`; the result is `board`. -/
def checkForBoardPart (line : CppString) (board : List CppString) : List CppString :=
  if contains line " +---+".toList || contains line " | ".toList
      || contains line "   a".toList then
    board ++ [line]
  else board

/-- The loop of `extractResponse` over the response lines; the state is `result` and the
file-level `whitesTurn`. -/
def scanLines : List CppString → StockfishResponse → Bool →
    Except Fault (StockfishResponse × Bool)
  | [], result, whitesTurn => .ok (result, whitesTurn)
  | line :: response, result, whitesTurn => do
    let bestMove ← checkForBestMove line result.bestMove
    let legalMoves ← checkForLegalMoves whitesTurn line result.legalMoves
    let board := checkForBoardPart line result.board
    let (fen, whitesTurn) ← checkForFen line result.fen whitesTurn
    scanLines response { result with bestMove, legalMoves, board, fen } whitesTurn

/-- Source `ChessAIHandler::extractResponse`. `whitesTurn` is the value of the file-level variable
on entry; its value on exit is the second component of the result. -/
def extractResponse (whitesTurn : Bool) (response : List CppString) :
    Except Fault (StockfishResponse × Bool) := do
  let (result, whitesTurn) ← scanLines response {} whitesTurn
  let result := { result with isCheckmate := result.legalMoves.isEmpty }
  let (legalMoves, _drawOfferable) ← extractFENDetails result.fen result.legalMoves
  let result := { result with legalMoves }
  let result :=
    if !result.fen.isEmpty && result.fen.getLast? == some '\r' then
      { result with fen := result.fen.dropLast }
    else result
  .ok (result, whitesTurn)

/-- Source `ChessAIHandler::getChessAIFeedback`; `engine` stands for
`Stockfish::requestStockfish`. -/
def getChessAIFeedback (engine : Int → CppString → List CppString) (whitesTurn : Bool)
    (skillLevel : Int) (fen : CppString) : Except Fault (StockfishResponse × Bool) :=
  extractResponse whitesTurn (engine skillLevel fen)

/-- Source `std::string::operator[]` for writing `c` at an `int` position. -/
def setAt (s : CppString) (i : Int) (c : Char) : Except Fault CppString :=
  if i < 0 ∨ (s.length : Int) ≤ i then .error .undefinedBehaviour
  else .ok (s.set i.toNat c)

/-- Source `buildNegativeLegalMoves` of FENParser.cpp (it follows `getChessAIFeedback` here
because it calls it). No function of the source calls it. -/
def buildNegativeLegalMoves (engine : Int → CppString → List CppString)
    (handlerWhitesTurn : Bool) (fen : CppString) (whitesTurn : Bool) :
    Except Fault (List CppString × Bool) := do
  let currentColor : CppString := if whitesTurn then ['w'] else ['b']
  let colorPosition : Int :=
    match find currentColor fen with
    | some position => position
    | none => -1
  let negativeFEN ← setAt fen colorPosition (if currentColor = ['w'] then 'b' else 'w')
  let (response, handlerWhitesTurn) ← getChessAIFeedback engine handlerWhitesTurn 1 negativeFEN
  .ok (response.legalMoves, handlerWhitesTurn)

/-! ## ChessAI.cpp -/

/-- The values `UChessAI::GetAIFeedback` leaves in its reference parameters. -/
structure AIFeedback where
  CorrectedFEN : CppString
  BestMove : CppString
  LegalMoves : List CppString
  IsCheckmate : Bool
  IsDrawOfferable : Bool
  deriving DecidableEq, Repr

/-- Source `UChessAI::ExtractFENDetails`; the string conversions are the identity. -/
def ExtractFENDetails (FEN : CppString) (LegalMoves : List CppString) :
    Except Fault (List CppString × Bool) :=
  extractFENDetails FEN LegalMoves

/-- Source `UChessAI::GetAIFeedback`. `LegalMoves` is the content of the array on entry, to
which the moves of the response are added. -/
def GetAIFeedback (engine : Int → CppString → List CppString) (whitesTurn : Bool)
    (SkillLevel : Int) (CurrentFEN : CppString) (LegalMoves : List CppString) :
    Except Fault (AIFeedback × Bool) := do
  let (Response, whitesTurn) ← getChessAIFeedback engine whitesTurn SkillLevel CurrentFEN
  let CorrectedFEN := Response.fen
  let BestMove := Response.bestMove
  let IsCheckmate := Response.isCheckmate
  let LegalMoves := LegalMoves ++ Response.legalMoves
  let (LegalMoves, IsDrawOfferable) ← ExtractFENDetails CorrectedFEN LegalMoves
  .ok ({ CorrectedFEN, BestMove, LegalMoves, IsCheckmate, IsDrawOfferable }, whitesTurn)

/-- Source `UChessAI::ParseFEN`. `Board` and `CastlingRights` are the contents of the arrays
on entry: both are copied into vectors that are handed to `parseFEN`, and the arrays are
emptied and refilled from the vectors afterwards. The string conversions are the identity;
`parseFEN` assigns the castling vector without reading it. -/
def ParseFEN (FEN : CppString) (Board : List CppString) (CastlingRights : List Bool) :
    Except Fault Position :=
  let BoardStringVector : List CppString := [] ++ Board
  let _CastlingRightsVector : List Bool := [] ++ CastlingRights
  parseFEN FEN BoardStringVector

/-! ## Stockfish.cpp

The session is modelled on an explicit state. What the operating system and the engine
do is given from outside: whether the lock file opens, the pipes are created and the
child is spawned (`Host`), and what each read of the engine's output returns (`pending`).
The delays after writes are not modelled. Of the two platform branches the POSIX one is
followed; the Windows branch differs from it only in that there is no lock file to
open. -/

/-- One operation on the pipes of the engine: a text handed to `write` on its standard
input, or a call of `readStockfishOutput` with the lines it returned. -/
inductive PipeEvent where
  | wrote (text : CppString)
  | read (lines : List CppString)
  deriving DecidableEq, Repr

/-- The state of the engine session: whether the advisory lock is taken (by this or
any other session on the host), the pipes created and children spawned so far, the
operations on the pipes so far, oldest first, and the line batches that the coming reads of
the engine's standard output will return. -/
structure Session where
  lockTaken : Bool
  pipes : Nat
  children : Nat
  log : List PipeEvent
  pending : List (List CppString)
  deriving DecidableEq, Repr

/-- The answers of the operating system during one start. -/
structure Host where
  lockFileOpens : Bool
  pipesCreated : Bool
  childSpawned : Bool
  deriving DecidableEq, Repr

/-- Source `Stockfish::isStockfishAlreadyRunning`: true when the lock file cannot be opened
or the lock cannot be obtained; otherwise the lock is taken and the answer is false. -/
def isStockfishAlreadyRunning (host : Host) (session : Session) : Bool × Session :=
  if !host.lockFileOpens then (true, session)
  else if session.lockTaken then (true, session)
  else (false, { session with lockTaken := true })

/-- Source `Stockfish::sendStockfishCommand`: writes the text and a newline. -/
def sendStockfishCommand (session : Session) (str : CppString) : Session :=
  let commandWithNewline := str ++ ['\n']
  { session with log := session.log ++ [.wrote commandWithNewline] }

/-- Source `Stockfish::readStockfishOutput`: the lines of the next batch; none when the
engine has nothing more to say. -/
def readStockfishOutput (session : Session) : List CppString × Session :=
  match session.pending with
  | [] => ([], { session with log := session.log ++ [.read []] })
  | lines :: later =>
    (lines, { session with log := session.log ++ [.read lines], pending := later })

/-- Source `Stockfish::startStockfish`. -/
def startStockfish (host : Host) (session : Session) (skillLevel : Int) : Session :=
  let (running, session) := isStockfishAlreadyRunning host session
  if running then session
  else if !host.pipesCreated then session
  else
    let session := { session with pipes := session.pipes + 3 }
    if !host.childSpawned then session
    else
      let session := { session with children := session.children + 1 }
      let session := sendStockfishCommand session "setoption name Threads value 2\n".toList
      sendStockfishCommand session
        ("setoption name Skill Level value ".toList ++ to_string skillLevel ++ ['\n'])

/-- Source `Stockfish::getStockfishResults`. -/
def getStockfishResults (session : Session) (command : CppString) :
    List CppString × Session :=
  let session := sendStockfishCommand session command
  let (response, session) := readStockfishOutput session
  let session := sendStockfishCommand session "uci\n".toList
  let (uciResponse, session) := readStockfishOutput session
  let response := response ++ uciResponse
  let session := sendStockfishCommand session "isready\n".toList
  let (isReadyResponse, session) := readStockfishOutput session
  let response := response ++ isReadyResponse
  let session := sendStockfishCommand session "d\n".toList
  let (dResponse, session) := readStockfishOutput session
  let response := response ++ dResponse
  (response, session)

/-- The conversion of a `float` value to `int`: the fraction is dropped. -/
def truncateToInt (value : ℚ) : Int := Int.tdiv value.num value.den

/-- The depth `requestStockfish` computes: `int depth = 0.5f * skillLevel`, then at least 1.
`roundToFloat` is the rounding of a real value to single precision, applied to the
converted skill level and to the product. -/
def searchDepth (roundToFloat : ℚ → ℚ) (skillLevel : Int) : Int :=
  let depth : Int := truncateToInt (roundToFloat ((1 / 2 : ℚ) * roundToFloat (skillLevel : ℚ)))
  if depth < 1 then 1 else depth

/-- Source `Stockfish::requestStockfish`. -/
def requestStockfish (host : Host) (roundToFloat : ℚ → ℚ) (session : Session)
    (skillLevel : Int) (fen : CppString) : List CppString × Session :=
  let session := startStockfish host session skillLevel
  let depth := searchDepth roundToFloat skillLevel
  let command := "position fen ".toList ++ fen ++ "\n".toList ++ "go perft 1".toList
    ++ "\n".toList ++ "go depth ".toList ++ to_string depth
  getStockfishResults session command

/-! ## ChessBoard.cpp -/

/-- Source `AChessBoard::FieldLetters` (ChessBoard.h), with its default value. -/
def FieldLetters : List CppString :=
  [['a'], ['b'], ['c'], ['d'], ['e'], ['f'], ['g'], ['h']]

/-- Source `AChessBoard::ConvertIndexToFieldName`. An `FString` is taken as a `CppString`
and `FString::FromInt` as the decimal numeral. `%` and `/` on `int` truncate towards zero;
an index outside `FieldLetters` and an overflow of `63 - Index` are undefined. -/
def ConvertIndexToFieldName (Index : Int) : Except Fault CppString := do
  let FieldLetter ← at_ FieldLetters (Int.tmod Index 8)
  if 63 - Index > 2147483647 then .error .undefinedBehaviour
  else
    let FieldNumber : Int := Int.tdiv (63 - Index) 8 + 1
    .ok (FieldLetter ++ to_string FieldNumber)

/-! ## Reference values used in the statements -/

/-- The 64 cells of `rnbqkbnr/pppppppp/8/8/8/8/PPPPPPPP/RNBQKBNR`, rank 8 first. -/
def initialBoard : List CppString :=
  [['r'], ['n'], ['b'], ['q'], ['k'], ['b'], ['n'], ['r'],
   ['p'], ['p'], ['p'], ['p'], ['p'], ['p'], ['p'], ['p'],
   ['.'], ['.'], ['.'], ['.'], ['.'], ['.'], ['.'], ['.'],
   ['.'], ['.'], ['.'], ['.'], ['.'], ['.'], ['.'], ['.'],
   ['.'], ['.'], ['.'], ['.'], ['.'], ['.'], ['.'], ['.'],
   ['.'], ['.'], ['.'], ['.'], ['.'], ['.'], ['.'], ['.'],
   ['P'], ['P'], ['P'], ['P'], ['P'], ['P'], ['P'], ['P'],
   ['R'], ['N'], ['B'], ['Q'], ['K'], ['B'], ['N'], ['R']]

/-- The standard initial position. -/
def initialPosition : Position :=
  { board := initialBoard
    whitesTurn := true
    castlingRights := [true, true, true, true]
    enPassantTarget := ['-']
    halfMoveClock := 0
    fullMoveNumber := 1 }

/-- Number of cells one character of a board field stands for: its value for a digit,
one otherwise. -/
def cellsOfChar (c : Char) : Nat := if isdigit c then c.toNat - 48 else 1

/-- Number of cells a board field describes: the sum over its characters other than
the row separator. -/
def cellCount (field : CppString) : Nat :=
  ((field.filter (fun c => c ≠ '/')).map cellsOfChar).sum

/-- Standard name of the square on file `file` (`a` is 0) and rank `rank`. -/
def squareName (file rank : Nat) : CppString := [Char.ofNat (97 + file), Char.ofNat (48 + rank)]

/-- The cell of `board` that holds the square on file `file` (`a` is 0) of rank `rank`:
index `(8 - rank) * 8 + file`, rank 8 first. -/
def cellAt (board : List CppString) (file rank : Nat) : CppString :=
  board.getD ((8 - rank) * 8 + file) []

/-- The plain king move of a castling wing. -/
def plainKingMove (white kingSide : Bool) : CppString :=
  match white, kingSide with
  | true, true => "e1g1".toList
  | true, false => "e1c1".toList
  | false, true => "e8g8".toList
  | false, false => "e8c8".toList

/-- The combined king and rook move of a castling wing. -/
def combinedCastlingMove (white kingSide : Bool) : CppString :=
  match white, kingSide with
  | true, true => "e1g1|h1f1".toList
  | true, false => "e1c1|a1d1".toList
  | false, true => "e8g8|h8f8".toList
  | false, false => "e8c8|a8d8".toList

/-- Position of a wing's flag in the castling rights: `K`, `Q`, `k`, `q`. -/
def castlingRightIndex (white kingSide : Bool) : Nat :=
  match white, kingSide with
  | true, true => 0
  | true, false => 1
  | false, true => 2
  | false, false => 3

/-- Files of the squares strictly between king and rook: f, g on the king side and
b, c, d on the queen side. -/
def filesBetween (kingSide : Bool) : List Nat := if kingSide then [5, 6] else [1, 2, 3]

/-- Rank on which a side castles. -/
def homeRank (white : Bool) : Nat := if white then 1 else 8

/-- An en-passant field as the notation allows it: `-` or a square on rank 3 or 6. -/
def EnPassantFieldOk (target : CppString) : Prop :=
  target = ['-'] ∨ ∃ file rank, file < 8 ∧ (rank = 3 ∨ rank = 6) ∧ target = squareName file rank

/-- What the en-passant pass does for an empty or occupied target square `file`, `rank`:
the first of the left and right neighbour squares (on the rank the mover's pawn stands on)
that holds a pawn of the mover has its plain capture removed and the annotated capture
appended. -/
def enPassantResult (legalMoves board : List CppString) (file rank : Nat) (white : Bool) :
    List CppString :=
  let originRank := if white then rank - 1 else rank + 1
  let pawn : CppString := if white then ['P'] else ['p']
  let target := squareName file rank
  let annotated (origin : Nat) : List CppString :=
    removeStringFromVector legalMoves (squareName origin originRank ++ target)
      ++ [squareName origin originRank ++ target ++ ['-'] ++ squareName file originRank]
  if cellAt board file rank ≠ ['.'] then legalMoves
  else if 0 < file ∧ cellAt board (file - 1) originRank = pawn then annotated (file - 1)
  else if file < 7 ∧ cellAt board (file + 1) originRank = pawn then annotated (file + 1)
  else legalMoves

/-- What the castling pass does for one wing: when the right is held, the plain king move
is listed and the squares between king and rook are empty, the plain move is removed and
the combined move appended. -/
def castlingStep (legalMoves board : List CppString) (right white kingSide : Bool) :
    List CppString :=
  if right = true ∧ plainKingMove white kingSide ∈ legalMoves ∧
      ∀ file ∈ filesBetween kingSide, cellAt board file (homeRank white) = ['.'] then
    removeStringFromVector legalMoves (plainKingMove white kingSide)
      ++ [combinedCastlingMove white kingSide]
  else legalMoves

/-- What the castling pass does for the side to move: the king side first, then the queen
side. -/
def castlingResult (legalMoves : List CppString) (position : Position) : List CppString :=
  let white := position.whitesTurn
  let right (kingSide : Bool) : Bool :=
    position.castlingRights.getD (castlingRightIndex white kingSide) false
  castlingStep (castlingStep legalMoves position.board (right true) white true)
    position.board (right false) white false

/-- The cells one character of a board field stands for: `d` empty cells for a digit `d`,
the one-character string itself otherwise. -/
def expandChar (c : Char) : List CppString :=
  if isdigit c then List.replicate (c.toNat - 48) ['.'] else [[c]]

/-- The cells a board field stands for: the cells of its characters other than the row
separator, in order. -/
def expandField (field : CppString) : List CppString :=
  (field.filter (fun c => c ≠ '/')).flatMap expandChar

/-- The piece letters of the notation. -/
def isPieceLetter (c : Char) : Bool := "pnbrqkPNBRQK".toList.contains c

/-- Parts joined by a separator character. -/
def joinWith (separator : Char) : List CppString → CppString
  | [] => []
  | [part] => part
  | part :: next :: parts => part ++ separator :: joinWith separator (next :: parts)

/-- Modelled from the spec: one rank in the standard notation, a run of empty cells
written as its length and every other cell as its letter. `run` is the number of empty
cells passed since the last letter. -/
def encodeRank : List CppString → Nat → CppString
  | [], run => if run = 0 then [] else [Char.ofNat (48 + run)]
  | cell :: cells, run =>
    if cell = ['.'] then encodeRank cells (run + 1)
    else (if run = 0 then [] else [Char.ofNat (48 + run)]) ++ cell ++ encodeRank cells 0

/-- The first `count` ranks of a board, eight cells each, top rank first. -/
def ranksOf : Nat → List CppString → List (List CppString)
  | 0, _ => []
  | count + 1, board => board.take 8 :: ranksOf count (board.drop 8)

/-- Modelled from the spec: the castling field of the standard notation, the letters of
the rights held in the order `KQkq`, or `-` when none is held. -/
def castlingField (rights : List Bool) : CppString :=
  let letters : CppString :=
    (if rights.getD 0 false then ['K'] else []) ++ (if rights.getD 1 false then ['Q'] else [])
      ++ (if rights.getD 2 false then ['k'] else []) ++ (if rights.getD 3 false then ['q'] else [])
  if letters = [] then ['-'] else letters

/-- Modelled from the spec: the standard six-field notation of a position (the repository
has no serializer): the ranks top to bottom joined by `/`, the side to move, the castling
field, the en-passant target and the two clocks in decimal, joined by single spaces. -/
def serialize (p : Position) : CppString :=
  joinWith ' '
    [ joinWith '/' ((ranksOf 8 p.board).map (fun rank => encodeRank rank 0)),
      if p.whitesTurn then ['w'] else ['b'],
      castlingField p.castlingRights,
      p.enPassantTarget,
      to_string p.halfMoveClock,
      to_string p.fullMoveNumber ]

/-- A well-formed position: 64 cells that are empty or hold a piece letter, four castling
flags, an en-passant target that is `-` or a square, a non-negative half-move clock and a
positive full-move number, both within the range of `int`. -/
structure WellFormed (p : Position) : Prop where
  cells : p.board.length = 64
  pieces : ∀ cell ∈ p.board, cell = ['.'] ∨ ∃ c, isPieceLetter c = true ∧ cell = [c]
  rights : p.castlingRights.length = 4
  enPassant : p.enPassantTarget = ['-'] ∨
    ∃ file rank, file < 8 ∧ 1 ≤ rank ∧ rank ≤ 8 ∧ p.enPassantTarget = squareName file rank
  halfMove : 0 ≤ p.halfMoveClock ∧ p.halfMoveClock ≤ 2147483647
  fullMove : 0 < p.fullMoveNumber ∧ p.fullMoveNumber ≤ 2147483647

/-- The position after `1. e4`. -/
def positionAfterE4 : Position :=
  { board :=
      [['r'], ['n'], ['b'], ['q'], ['k'], ['b'], ['n'], ['r']]
        ++ List.replicate 8 ['p'] ++ List.replicate 16 ['.']
        ++ List.replicate 4 ['.'] ++ [['P']] ++ List.replicate 3 ['.']
        ++ List.replicate 8 ['.']
        ++ List.replicate 4 ['P'] ++ [['.']] ++ List.replicate 3 ['P']
        ++ [['R'], ['N'], ['B'], ['Q'], ['K'], ['B'], ['N'], ['R']]
    whitesTurn := false
    castlingRights := [true, true, true, true]
    enPassantTarget := "e3".toList
    halfMoveClock := 0
    fullMoveNumber := 1 }

/-- A cell that is empty or holds one piece letter, as a test. -/
def isCell (cell : CppString) : Bool :=
  match cell with
  | [c] => c = '.' || isPieceLetter c
  | _ => false

/-- A file letter `a` to `h`. -/
def isFileChar (c : Char) : Bool := 97 ≤ c.toNat && c.toNat ≤ 104

/-- A rank digit `1` to `8`. -/
def isRankChar (c : Char) : Bool := 49 ≤ c.toNat && c.toNat ≤ 56

/-- A coordinate move of four characters: file, rank, file, rank. -/
def isCoordinateMove (m : CppString) : Bool :=
  match m with
  | [f1, r1, f2, r2] => isFileChar f1 && isRankChar r1 && isFileChar f2 && isRankChar r2
  | _ => false

/-- A promotion letter as the engine writes it. -/
def isPromotionLetter (c : Char) : Bool := c = 'q' || c = 'r' || c = 'b' || c = 'n'

/-- The text of the last line with the label `Fen: `, from its sixth character on; empty
when no line has the label. -/
def lastFenText (response : List CppString) : CppString :=
  match (response.filter (fun line => contains line "Fen: ".toList)).getLast? with
  | some line => line.drop 5
  | none => []

/-- The conditions of the castling pass for a wing of the side to move: the right is
held, the plain king move is in the list, and the squares strictly between king and rook
are empty on the board. -/
def CastlingConditions (legalMoves : List CppString) (p : Position) (kingSide : Bool) : Prop :=
  p.castlingRights.getD (castlingRightIndex p.whitesTurn kingSide) false = true ∧
  plainKingMove p.whitesTurn kingSide ∈ legalMoves ∧
  ∀ file ∈ filesBetween kingSide, cellAt p.board file (homeRank p.whitesTurn) = ['.']

/-- The position `8/8/8/8/8/8/8/RN2K2R w KQ - 0 1`: White holds both rights, and a knight
stands between king and queen-side rook. -/
def knightOnB1Position : Position :=
  { board := List.replicate 56 ['.']
      ++ [['R'], ['N'], ['.'], ['.'], ['K'], ['.'], ['.'], ['R']]
    whitesTurn := true
    castlingRights := [true, true, false, false]
    enPassantTarget := ['-']
    halfMoveClock := 0
    fullMoveNumber := 1 }

/-- The position string after a run of lines: every line with the label `Fen: ` replaces
it by its text from the sixth character on. -/
def lastFenFrom : List CppString → CppString → CppString
  | [], current => current
  | line :: lines, current =>
    lastFenFrom lines (if contains line "Fen: ".toList then line.drop 5 else current)

/-- A text without one trailing carriage return. -/
def stripCarriageReturn (text : CppString) : CppString :=
  if text.getLast? = some (Char.ofNat 13) then text.dropLast else text

/-- The list `out` is `input` with the move `m` replaced by `s`: no `m` is left, `s` is the
last entry, and before it stand the entries of `input` other than `m`, in their order. -/
def ReplacedBy (input : List CppString) (m s : CppString) (out : List CppString) : Prop :=
  m ∉ out ∧ out.getLast? = some s ∧ out.dropLast = input.filter (fun entry => entry ≠ m)

/-- The rounding to single precision leaves the single-precision numbers unchanged; those
needed here are an integer of magnitude up to `2 ^ 24` over a power of two up to
`2 ^ 149`. -/
def RoundsExactly (roundToFloat : ℚ → ℚ) : Prop :=
  ∀ (m : Int) (k : Nat), m.natAbs ≤ 2 ^ 24 → k ≤ 149 →
    roundToFloat ((m : ℚ) / 2 ^ k) = (m : ℚ) / 2 ^ k

/-- A board with the white king and rooks on their home squares and nothing else. -/
def whiteCastlingBoard : List CppString :=
  List.replicate 56 ['.'] ++ [['R'], ['.'], ['.'], ['.'], ['K'], ['.'], ['.'], ['R']]

/-- The board index of a field name: the cell of file letter `f` and rank digit `r` is
number `(8 - r) * 8 + f`, counted from `a8`. -/
def indexOfFieldName (name : CppString) : Nat :=
  match name with
  | [f, r] => (56 - r.toNat) * 8 + (f.toNat - 97)
  | _ => 0

/-- The position string `rnbqkbnr/pppppppp/8/8/4P3/8/PPPP1PPP/RNBQKBNR b KQkq e3 0 1`
(after `1. e4`, Black to move). -/
def fenAfterE4 : CppString :=
  "rnbqkbnr/pppppppp/8/8/4P3/8/PPPP1PPP/RNBQKBNR b KQkq e3 0 1".toList

/-- The position string `r7/r6K/8/5Pp1/6nn/8/8/1k6 w - g6 0 1`: Black has just played
`g7g5`, uncovering the rook on a7; the white king on h7 is checkmated (g8 and h8 are held
by the rook on a8, g7 by the rook on a7, g6 and h6 by the knights), and the capture
`f5g6` in passing does not close the seventh rank. -/
def fenMatedWithTarget : CppString :=
  "r7/r6K/8/5Pp1/6nn/8/8/1k6 w - g6 0 1".toList

/-! ## Basic facts -/

@[simp] theorem bind_ok {α β : Type} (a : α) (f : α → Except Fault β) :
    (Except.ok a >>= f) = f a := rfl

@[simp] theorem bind_error {α β : Type} (e : Fault) (f : α → Except Fault β) :
    ((Except.error e : Except Fault α) >>= f) = Except.error e := rfl

@[simp] theorem pure_eq_ok {α : Type} (a : α) : (pure a : Except Fault α) = Except.ok a := rfl

/-- One `std::getline` step: a part without the delimiter, followed by the delimiter, is
split off and the loop goes on with what follows. -/
theorem split_part_delimiter (part rest : CppString) (delimiter : Char)
    (h : delimiter ∉ part) :
    splitStringIntoParts (part ++ delimiter :: rest) delimiter
      = part :: splitStringIntoParts rest delimiter := by
  induction part with
  | nil => simp [splitStringIntoParts]
  | cons c cs ih =>
    have hc : c ≠ delimiter := fun hcd => h (by simp [hcd])
    have hcs : delimiter ∉ cs := fun hmem => h (by simp [hmem])
    simp [splitStringIntoParts, hc, ih hcs]

/-- The last `std::getline` step: a non-empty rest without the delimiter is one part. -/
theorem split_last_part (part : CppString) (delimiter : Char)
    (h : delimiter ∉ part) (hne : part ≠ []) :
    splitStringIntoParts part delimiter = [part] := by
  induction part with
  | nil => exact absurd rfl hne
  | cons c cs ih =>
    have hc : c ≠ delimiter := fun hcd => h (by simp [hcd])
    have hcs : delimiter ∉ cs := fun hmem => h (by simp [hmem])
    cases cs with
    | nil => simp [splitStringIntoParts, hc]
    | cons d ds =>
      have hrest := ih hcs (by simp)
      rw [splitStringIntoParts, if_neg hc, hrest]

theorem expandRow_length (board : List CppString) (row : CppString) :
    (expandRow board row).length = board.length + (row.map cellsOfChar).sum := by
  induction row generalizing board with
  | nil => simp [expandRow]
  | cons c row ih =>
    by_cases hc : isdigit c = true
    · simp [expandRow, hc, ih, cellsOfChar]; omega
    · simp [expandRow, hc, ih, cellsOfChar]; omega

theorem expandRows_length (board : List CppString) (rows : List CppString) :
    (expandRows board rows).length
      = board.length + (rows.map (fun row => (row.map cellsOfChar).sum)).sum := by
  induction rows generalizing board with
  | nil => simp [expandRows]
  | cons row rows ih => simp [expandRows, ih, expandRow_length]; omega

theorem split_slash_cells (field : CppString) :
    ((splitStringIntoParts field '/').map (fun row => (row.map cellsOfChar).sum)).sum
      = cellCount field := by
  induction field with
  | nil => simp [splitStringIntoParts, cellCount]
  | cons c cs ih =>
    by_cases hc : c = '/'
    · subst hc
      simpa [splitStringIntoParts, cellCount] using ih
    · have hrest : cellCount (c :: cs) = cellsOfChar c + cellCount cs := by
        simp [cellCount, hc]
      rw [hrest, ← ih]
      simp only [splitStringIntoParts, hc, if_false]
      cases splitStringIntoParts cs '/' with
      | nil => simp
      | cons part parts => simp; omega

theorem at_cast {α : Type} [Inhabited α] (vec : List α) (n : Nat) (h : n < vec.length) :
    at_ vec (n : Int) = .ok (vec.getD n default) := by
  unfold at_
  have h0 : ¬ ((n : Int) < 0) := by omega
  simp [h0, List.getD, List.getElem?_eq_getElem h]

theorem at_cell (board : List CppString) (i : Int) (n : Nat) (hi : i = (n : Int))
    (h : n < board.length) : at_ board i = .ok (board.getD n []) := by
  subst hi
  exact at_cast board n h

theorem findColumn_file (file : Nat) (h : file < 8) :
    findColumn (Char.ofNat (97 + file)) = (file : Int) := by
  interval_cases file <;> rfl

theorem charAt_column (file : Nat) (h : file < 8) :
    charAt COLUMN_LETTERS file = .ok (Char.ofNat (97 + file)) := by
  interval_cases file <;> rfl

theorem mem_remove_append (vec : List CppString) (m s x : CppString) :
    x ∈ removeStringFromVector vec m ++ [s] ↔ (x ∈ vec ∧ x ≠ m) ∨ x = s := by
  simp [removeStringFromVector]

/-- With an empty negative set the column loop only looks at the board. -/
theorem castlingPathClear_nil (board : List CppString) (kingRow : Nat) (columns : List Nat)
    (h : ∀ c ∈ columns, kingRow * 8 + c < board.length) :
    castlingPathClear [] board kingRow columns
      = .ok (columns.all (fun c => decide (board.getD (kingRow * 8 + c) [] = ['.']))) := by
  induction columns with
  | nil => rfl
  | cons c cs ih =>
    have hc : kingRow * 8 + c < board.length := h c (by simp)
    have hcs : ∀ c ∈ cs, kingRow * 8 + c < board.length := fun d hd => h d (by simp [hd])
    have hat : at_ board ((kingRow : Int) * 8 + (c : Int)) = .ok (board.getD (kingRow * 8 + c) []) :=
      at_cell board _ _ (by push_cast; ring) hc
    simp only [castlingPathClear, hat, bind_ok, isSquareUnderAttack, ih hcs, List.all_cons]
    by_cases hcell : board.getD (kingRow * 8 + c) [] = ['.'] <;> simp_all

/-- The castling step on a 64-cell board with the empty negative set of
`detectPossibleCastlingMoves`. -/
theorem addCastlingOption_nil (legalMoves board : List CppString)
    (whitesTurn castlingAllowed firstCastlingCheck : Bool) (castlingMove : CppString)
    (hlen : board.length = 64) :
    addCastlingOptionIfPossible legalMoves [] board whitesTurn castlingAllowed
        firstCastlingCheck castlingMove
      = .ok (if castlingAllowed = true ∧ castlingMove.take 4 ∈ legalMoves ∧
              ∀ file ∈ filesBetween firstCastlingCheck,
                cellAt board file (homeRank whitesTurn) = ['.']
            then removeStringFromVector legalMoves (castlingMove.take 4) ++ [castlingMove]
            else legalMoves) := by
  unfold addCastlingOptionIfPossible
  by_cases ha : castlingAllowed = true ∧ castlingMove.take 4 ∈ legalMoves
  · obtain ⟨ha1, ha2⟩ := ha
    have hclear := castlingPathClear_nil board (if whitesTurn then 7 else 0)
      (List.range' (if firstCastlingCheck then 5 else 1)
        ((if firstCastlingCheck then 7 else 4) - (if firstCastlingCheck then 5 else 1)))
      (by
        intro c hc
        cases whitesTurn <;> cases firstCastlingCheck <;>
          simp [List.mem_range'] at hc <;> simp <;> omega)
    simp only [ha1, ha2, decide_True, Bool.and_self, if_true, isSquareUnderAttack, bind_ok,
      hclear]
    cases whitesTurn <;> cases firstCastlingCheck <;>
      simp [filesBetween, homeRank, cellAt, List.range', List.all_cons] <;>
      split <;> rfl
  · have hb : (castlingAllowed && decide (castlingMove.take 4 ∈ legalMoves)) = false := by
      cases castlingAllowed
      · rfl
      · simpa using ha
    have hc : ¬ (castlingAllowed = true ∧ castlingMove.take 4 ∈ legalMoves ∧
              ∀ file ∈ filesBetween firstCastlingCheck,
                cellAt board file (homeRank whitesTurn) = ['.']) :=
      fun h => ha ⟨h.1, h.2.1⟩
    simp [hb, hc]

theorem stoi_rank (rank : Nat) (h : rank ≤ 9) :
    stoi [Char.ofNat (48 + rank)] = .ok (rank : Int) := by
  interval_cases rank <;> rfl

theorem to_string_rank (rank : Nat) (h : rank ≤ 9) :
    to_string (rank : Int) = [Char.ofNat (48 + rank)] := by
  interval_cases rank <;> rfl

theorem squareName_ne_dash (file rank : Nat) : squareName file rank ≠ ['-'] := by
  simp [squareName]

/-- The en-passant pass on a 64-cell board for a target square on ranks 2 to 7. -/
theorem detectEnPassant_square (legalMoves board : List CppString) (file rank : Nat)
    (whitesTurn : Bool) (hlen : board.length = 64) (hf : file < 8)
    (hr : 2 ≤ rank ∧ rank ≤ 7) :
    detectEnPassant legalMoves board (squareName file rank) whitesTurn
      = .ok (enPassantResult legalMoves board file rank whitesTurn) := by
  obtain ⟨hr2, hr7⟩ := hr
  have hsub : substr (squareName file rank) 1 1 = .ok [Char.ofNat (48 + rank)] := by
    simp [substr, squareName]
  have htarget : at_ board ((8 - (rank : Int)) * 8 + (file : Int))
      = .ok (cellAt board file rank) :=
    at_cell board _ ((8 - rank) * 8 + file) (by push_cast [Nat.cast_sub (by omega : rank ≤ 8)]; ring)
      (by omega)
  unfold detectEnPassant
  have hlen2 : (squareName file rank).length = 2 := rfl
  have hget : (squareName file rank).getD 0 (Char.ofNat 0) = Char.ofNat (97 + file) := rfl
  have htake : (squareName file rank).take 1 = [Char.ofNat (97 + file)] := rfl
  simp only [squareName_ne_dash file rank, ne_eq, not_false_eq_true, decide_True,
    Bool.true_and, if_true, hlen2, hget, htake, hsub, bind_ok, stoi_rank rank (by omega),
    findColumn_file file hf, htarget]
  have hrow : (8 - (rank : Int) + if whitesTurn = true then 1 else -1)
      = ((8 - (if whitesTurn then rank - 1 else rank + 1) : Nat) : Int) := by
    cases whitesTurn <;> simp <;> omega
  have hrank : (8 : Int) - ((8 - (if whitesTurn then rank - 1 else rank + 1) : Nat) : Int)
      = ((if whitesTurn then rank - 1 else rank + 1 : Nat) : Int) := by
    cases whitesTurn <;> simp <;> omega
  have hleft : 0 < file → at_ board
      (((8 - (if whitesTurn then rank - 1 else rank + 1) : Nat) : Int) * 8 + ((file : Int) - 1))
      = .ok (cellAt board (file - 1) (if whitesTurn then rank - 1 else rank + 1)) := fun h0 =>
    at_cell board _ ((8 - (if whitesTurn then rank - 1 else rank + 1)) * 8 + (file - 1))
      (by push_cast [Nat.cast_sub (by omega : 1 ≤ file)]; ring)
      (by cases whitesTurn <;> simp <;> omega)
  have hright : file < 7 → at_ board
      (((8 - (if whitesTurn then rank - 1 else rank + 1) : Nat) : Int) * 8 + ((file : Int) + 1))
      = .ok (cellAt board (file + 1) (if whitesTurn then rank - 1 else rank + 1)) := fun h7 =>
    at_cell board _ ((8 - (if whitesTurn then rank - 1 else rank + 1)) * 8 + (file + 1))
      (by push_cast; ring)
      (by cases whitesTurn <;> simp <;> omega)
  have hts : to_string ((if whitesTurn then rank - 1 else rank + 1 : Nat) : Int)
      = [Char.ofNat (48 + (if whitesTurn then rank - 1 else rank + 1))] :=
    to_string_rank _ (by cases whitesTurn <;> simp <;> omega)
  have hcl : 0 < file → charAt COLUMN_LETTERS ((file : Int) - 1).toNat
      = .ok (Char.ofNat (97 + (file - 1))) := fun h0 => by
    have : ((file : Int) - 1).toNat = file - 1 := by omega
    rw [this]; exact charAt_column _ (by omega)
  have hcr : file < 7 → charAt COLUMN_LETTERS ((file : Int) + 1).toNat
      = .ok (Char.ofNat (97 + (file + 1))) := fun h7 => by
    have : ((file : Int) + 1).toNat = file + 1 := by omega
    rw [this]; exact charAt_column _ (by omega)
  rw [hrow, hrank, hts]
  unfold enPassantResult
  by_cases hcell : cellAt board file rank = ['.']
  · simp only [hcell, not_true_eq_false, if_false, ne_eq]
    by_cases h0 : 0 < file
    · have h0i : (file : Int) > 0 := by omega
      simp only [h0i, if_true, hleft h0, bind_ok, pure_eq_ok, h0, true_and]
      by_cases hl : cellAt board (file - 1) (if whitesTurn then rank - 1 else rank + 1)
          = (if whitesTurn then ['P'] else ['p'])
      · simp [hl, hcl h0, charAt_column (file - 1) (by omega), squareName]
      · by_cases h7 : file < 7
        · have h7i : (file : Int) < 7 := by omega
          simp only [hl, decide_False, if_false, h7i, if_true, hright h7, bind_ok, pure_eq_ok,
            h7, true_and]
          by_cases hrt : cellAt board (file + 1) (if whitesTurn then rank - 1 else rank + 1)
              = (if whitesTurn then ['P'] else ['p'])
          · simp [hrt, hcr h7, charAt_column (file + 1) (by omega), squareName]
          · simp [hrt]
        · have h7i : ¬ (file : Int) < 7 := by omega
          simp [hl, h7i, h7]
    · have h0i : ¬ (file : Int) > 0 := by omega
      have h7 : file < 7 := by omega
      have h7i : (file : Int) < 7 := by omega
      simp only [h0i, if_false, h0, false_and, bind_ok, pure_eq_ok, h7i, if_true, hright h7,
        h7, true_and]
      by_cases hrt : cellAt board (file + 1) (if whitesTurn then rank - 1 else rank + 1)
          = (if whitesTurn then ['P'] else ['p'])
      · simp [hrt, hcr h7, charAt_column (file + 1) (by omega), squareName]
      · simp [hrt]
  · simp [hcell]

/-- Inversion of `parseFEN`: a returned position comes from six parts, of which the last
two are read by `stoi`. -/
theorem parseFEN_ok (fen : CppString) (board : List CppString) (p : Position)
    (h : parseFEN fen board = .ok p) :
    ∃ p0 p1 p2 p3 p4 p5,
      (if (splitStringIntoParts fen ' ').length ≠ 6 then splitStringIntoParts defaultFEN ' '
        else splitStringIntoParts fen ' ') = [p0, p1, p2, p3, p4, p5] ∧
      stoi p4 = .ok p.halfMoveClock ∧ stoi p5 = .ok p.fullMoveNumber ∧
      p.board = expandRows board (splitStringIntoParts p0 '/') ∧
      p.whitesTurn = decide (p1 = ['w']) ∧
      p.castlingRights = getCastlingAvailability p2 ∧
      p.enPassantTarget = p3 := by
  unfold parseFEN at h
  simp only [] at h
  split at h
  · rename_i p0 p1 p2 p3 p4 p5 hparts
    refine ⟨p0, p1, p2, p3, p4, p5, hparts, ?_⟩
    cases h4 : stoi p4 with
    | error e => simp [h4] at h
    | ok v4 =>
      cases h5 : stoi p5 with
      | error e => simp [h4, h5] at h
      | ok v5 =>
        simp only [h4, h5, Except.ok.injEq] at h
        subst h
        exact ⟨rfl, rfl, rfl, rfl, rfl, rfl⟩
  · simp at h

theorem parseFEN_castlingRights (fen : CppString) (board : List CppString) (p : Position)
    (h : parseFEN fen board = .ok p) :
    ∃ r0 r1 r2 r3, p.castlingRights = [r0, r1, r2, r3] := by
  obtain ⟨_, _, p2, _, _, _, _, _, _, _, _, hr, _⟩ := parseFEN_ok fen board p h
  exact ⟨_, _, _, _, hr⟩

/-- The castling pass on a 64-cell board with four castling flags. -/
theorem detectPossibleCastlingMoves_eq (fen : CppString) (legalMoves : List CppString)
    (p : Position) (hlen : p.board.length = 64)
    (hrights : ∃ r0 r1 r2 r3, p.castlingRights = [r0, r1, r2, r3]) :
    detectPossibleCastlingMoves fen legalMoves p.board p.whitesTurn p.castlingRights
      = .ok (castlingResult legalMoves p) := by
  obtain ⟨r0, r1, r2, r3, hr⟩ := hrights
  unfold detectPossibleCastlingMoves castlingResult castlingStep
  rw [hr]
  cases hw : p.whitesTurn
  · simp [at_, addCastlingOption_nil _ _ _ _ _ _ hlen, castlingRightIndex, plainKingMove,
      combinedCastlingMove]
  · simp [at_, addCastlingOption_nil _ _ _ _ _ _ hlen, castlingRightIndex, plainKingMove,
      combinedCastlingMove]

/-- On a 64-cell board `extractFENDetails` is the castling pass followed by the en-passant
pass, and the draw flag compares the half-move clock with 100. -/
theorem extractFENDetails_eq (fen : CppString) (legalMoves : List CppString) (p : Position)
    (hp : parseFEN fen [] = .ok p) (hlen : p.board.length = 64) :
    extractFENDetails fen legalMoves
      = (detectEnPassant (castlingResult legalMoves p) p.board p.enPassantTarget p.whitesTurn
          >>= fun out => .ok (out, decide (p.halfMoveClock ≥ 100))) := by
  unfold extractFENDetails
  rw [hp]
  simp only [bind_ok]
  rw [detectPossibleCastlingMoves_eq fen legalMoves p hlen (parseFEN_castlingRights _ _ _ hp)]
  rfl

theorem detectEnPassant_dash (legalMoves board : List CppString) (whitesTurn : Bool) :
    detectEnPassant legalMoves board ['-'] whitesTurn = .ok legalMoves := by
  simp [detectEnPassant]

theorem mem_castlingStep (legalMoves board : List CppString) (right white kingSide : Bool)
    (x : CppString) :
    x ∈ castlingStep legalMoves board right white kingSide ↔
      if right = true ∧ plainKingMove white kingSide ∈ legalMoves ∧
          ∀ file ∈ filesBetween kingSide, cellAt board file (homeRank white) = ['.'] then
        (x ∈ legalMoves ∧ x ≠ plainKingMove white kingSide) ∨ x = combinedCastlingMove white kingSide
      else x ∈ legalMoves := by
  unfold castlingStep
  split
  · exact mem_remove_append _ _ _ _
  · exact Iff.rfl

theorem enPassantResult_mem_of_mem (legalMoves board : List CppString) (file rank : Nat)
    (white : Bool) (x : CppString) (hx : x ∈ legalMoves) (hlen : x.length ≠ 4) :
    x ∈ enPassantResult legalMoves board file rank white := by
  have key : ∀ origin r, x ≠ squareName origin r ++ squareName file rank := by
    intro origin r h
    apply hlen
    rw [h]; rfl
  unfold enPassantResult
  simp only
  split_ifs <;>
    first
    | exact hx
    | exact (mem_remove_append _ _ _ _).2 (Or.inl ⟨hx, key _ _⟩)

theorem enPassantResult_mem (legalMoves board : List CppString) (file rank : Nat)
    (white : Bool) (x : CppString) (hx : x ∈ enPassantResult legalMoves board file rank white) :
    x ∈ legalMoves ∨ x.length = 7 := by
  unfold enPassantResult at hx
  simp only at hx
  split_ifs at hx <;>
    first
    | exact Or.inl hx
    | (rcases (mem_remove_append _ _ _ _).1 hx with h | h
       · exact Or.inl h.1
       · right; rw [h]; rfl)

theorem castlingStep_keeps (legalMoves board : List CppString) (right white kingSide : Bool)
    (x : CppString) (hx : x ∈ legalMoves) (hne : x ≠ plainKingMove white kingSide) :
    x ∈ castlingStep legalMoves board right white kingSide := by
  rw [mem_castlingStep]
  split
  · exact Or.inl ⟨hx, hne⟩
  · exact hx

theorem castlingStep_subset (legalMoves board : List CppString) (right white kingSide : Bool)
    (x : CppString) (hx : x ∈ castlingStep legalMoves board right white kingSide) :
    x ∈ legalMoves ∨ x = combinedCastlingMove white kingSide := by
  rw [mem_castlingStep] at hx
  split at hx
  · exact hx.imp And.left id
  · exact Or.inl hx

theorem plain_ne_combined (white kingSide kingSide' : Bool) :
    plainKingMove white kingSide ≠ combinedCastlingMove white kingSide' := by
  cases white <;> cases kingSide <;> cases kingSide' <;> decide

theorem castlingStep_replaces (legalMoves board : List CppString) (white kingSide : Bool)
    (hplain : plainKingMove white kingSide ∈ legalMoves)
    (hempty : ∀ file ∈ filesBetween kingSide, cellAt board file (homeRank white) = ['.']) :
    combinedCastlingMove white kingSide ∈ castlingStep legalMoves board true white kingSide ∧
    plainKingMove white kingSide ∉ castlingStep legalMoves board true white kingSide := by
  have hcond : (true = true ∧ plainKingMove white kingSide ∈ legalMoves ∧
      ∀ file ∈ filesBetween kingSide, cellAt board file (homeRank white) = ['.']) :=
    ⟨rfl, hplain, hempty⟩
  constructor
  · rw [mem_castlingStep, if_pos hcond]
    exact Or.inr rfl
  · rw [mem_castlingStep, if_pos hcond]
    rintro (⟨_, h⟩ | h)
    · exact h rfl
    · exact plain_ne_combined _ _ _ h

/-- After the castling pass a wing whose right is held, whose plain king move was listed
and whose squares between king and rook are empty has its combined move in the list and
its plain king move no longer. -/
theorem castlingResult_wing (legalMoves : List CppString) (p : Position) (kingSide : Bool)
    (hright : p.castlingRights.getD (castlingRightIndex p.whitesTurn kingSide) false = true)
    (hplain : plainKingMove p.whitesTurn kingSide ∈ legalMoves)
    (hempty : ∀ file ∈ filesBetween kingSide,
      cellAt p.board file (homeRank p.whitesTurn) = ['.']) :
    combinedCastlingMove p.whitesTurn kingSide ∈ castlingResult legalMoves p ∧
    plainKingMove p.whitesTurn kingSide ∉ castlingResult legalMoves p := by
  unfold castlingResult
  simp only
  cases kingSide
  · -- queen side: the plain move survives the king-side step and is replaced by the second
    rw [hright]
    exact castlingStep_replaces _ _ _ _
      (castlingStep_keeps _ _ _ _ _ _ hplain (by cases p.whitesTurn <;> decide)) hempty
  · -- king side: replaced by the first step, untouched by the second
    rw [hright]
    obtain ⟨hin, hout⟩ := castlingStep_replaces legalMoves p.board p.whitesTurn true hplain hempty
    constructor
    · exact castlingStep_keeps _ _ _ _ _ _ hin (by cases p.whitesTurn <;> decide)
    · intro h
      rcases castlingStep_subset _ _ _ _ _ _ h with h | h
      · exact hout h
      · exact plain_ne_combined _ _ _ h

/-- The fallback of `parseFEN`: any input that does not split into 6 parts is read as
the default position string. -/
theorem parseFEN_fallback (fen : CppString) (h : (splitStringIntoParts fen ' ').length ≠ 6) :
    parseFEN fen [] = .ok initialPosition := by
  unfold parseFEN
  simp only [h, ne_eq, not_false_eq_true, if_true]
  rfl

/-- The result of `parseFEN` on an input of six parts whose clocks are read by `stoi`. -/
theorem parseFEN_six (fen : CppString) (board : List CppString)
    (p0 p1 p2 p3 p4 p5 : CppString) (half full : Int)
    (hsplit : splitStringIntoParts fen ' ' = [p0, p1, p2, p3, p4, p5])
    (h4 : stoi p4 = .ok half) (h5 : stoi p5 = .ok full) :
    parseFEN fen board = .ok
      { board := expandRows board (splitStringIntoParts p0 '/')
        whitesTurn := decide (p1 = ['w'])
        castlingRights := getCastlingAvailability p2
        enPassantTarget := p3
        halfMoveClock := half
        fullMoveNumber := full } := by
  unfold parseFEN
  simp only [hsplit, List.length_cons, List.length_nil, ne_eq, not_true_eq_false, if_false,
    h4, h5]

theorem expandRows_cellCount (field : CppString) :
    (expandRows [] (splitStringIntoParts field '/')).length = cellCount field := by
  simp [expandRows_length, split_slash_cells]

/-- The scanning loop does not touch the `drawOfferable` field. -/
theorem scanLines_drawOfferable (response : List CppString) (result : StockfishResponse)
    (whitesTurn : Bool) (scanned : StockfishResponse) (whitesTurn' : Bool)
    (h : scanLines response result whitesTurn = .ok (scanned, whitesTurn')) :
    scanned.drawOfferable = result.drawOfferable := by
  induction response generalizing result whitesTurn with
  | nil =>
    simp only [scanLines, Except.ok.injEq, Prod.mk.injEq] at h
    rw [← h.1]
  | cons line rest ih =>
    unfold scanLines at h
    cases hb : checkForBestMove line result.bestMove with
    | error e => simp [hb] at h
    | ok bestMove =>
      cases hl : checkForLegalMoves whitesTurn line result.legalMoves with
      | error e => simp [hb, hl] at h
      | ok legalMoves =>
        cases hf : checkForFen line result.fen whitesTurn with
        | error e => simp [hb, hl, hf] at h
        | ok pair =>
          simp only [hb, hl, hf, bind_ok] at h
          exact (ih _ _ h).trans rfl

/-- The `drawOfferable` field of a result of `extractResponse` is never true. -/
theorem extractResponse_drawOfferable (whitesTurn : Bool) (response : List CppString)
    (result : StockfishResponse) (whitesTurn' : Bool)
    (h : extractResponse whitesTurn response = .ok (result, whitesTurn')) :
    result.drawOfferable = false := by
  unfold extractResponse at h
  cases hs : scanLines response {} whitesTurn with
  | error e => simp [hs] at h
  | ok val =>
    obtain ⟨scanned, flag⟩ := val
    have hd := scanLines_drawOfferable _ _ _ _ _ hs
    simp only [hs, bind_ok] at h
    cases hx : extractFENDetails scanned.fen scanned.legalMoves with
    | error e => simp [hx] at h
    | ok augmented =>
      obtain ⟨moves, draw⟩ := augmented
      simp only [hx, bind_ok, Except.ok.injEq, Prod.mk.injEq] at h
      rw [← h.1]
      split <;> exact hd

/-! ## Claims -/

/-- C1: when the space splitter does not break the input into exactly 6 fields (the empty
string included), `parseFEN` called with an empty board container returns the standard
initial position: the 64 cells of `rnbqkbnr/pppppppp/8/8/8/8/PPPPPPPP/RNBQKBNR`, White to
move, all four castling flags set, en-passant target `-`, half-move clock 0, full-move
number 1. -/
theorem parseFEN_wrong_field_count (fen : CppString)
    (h : (splitStringIntoParts fen ' ').length ≠ 6) :
    parseFEN fen [] = .ok initialPosition :=
  parseFEN_fallback fen h

/-- Witness of C1 at the empty string. -/
theorem parseFEN_wrong_field_count_witness :
    (splitStringIntoParts [] ' ').length ≠ 6 ∧ parseFEN [] [] = .ok initialPosition :=
  ⟨by decide, parseFEN_wrong_field_count [] (by decide)⟩

/-- C2, as stated, fails: the six-field input `8/8 w - - 0 1` is accepted and gives a
board of 16 cells. -/
theorem parseFEN_board_not_64 :
    (splitStringIntoParts "8/8 w - - 0 1".toList ' ').length = 6 ∧
    ∃ p, parseFEN "8/8 w - - 0 1".toList [] = .ok p ∧ p.board.length = 16 :=
  ⟨by decide, _, rfl, by decide⟩

/-- C2, amended: with an empty board container, an input of other than 6 fields gives a
board of exactly 64 cells, and a six-field input on which `parseFEN` returns gives a board
with as many cells as its first field describes (digit `d` for `d` cells, any other
character but `/` for one), hence 64 cells exactly when the first field describes 64. -/
theorem parseFEN_board_length (fen : CppString) :
    ((splitStringIntoParts fen ' ').length ≠ 6 →
      ∃ p, parseFEN fen [] = .ok p ∧ p.board.length = 64) ∧
    (∀ p0 p1 p2 p3 p4 p5 p, splitStringIntoParts fen ' ' = [p0, p1, p2, p3, p4, p5] →
      parseFEN fen [] = .ok p → p.board.length = cellCount p0) := by
  refine ⟨fun h => ⟨initialPosition, parseFEN_fallback fen h, by decide⟩, ?_⟩
  intro p0 p1 p2 p3 p4 p5 p hsplit hp
  obtain ⟨q0, q1, q2, q3, q4, q5, hparts, _, _, hboard, _⟩ := parseFEN_ok fen [] p hp
  simp only [hsplit, List.length_cons, List.length_nil, ne_eq, not_true_eq_false, if_false,
    List.cons.injEq] at hparts
  rw [hboard, ← hparts.1, expandRows_cellCount]

/-- Witness of C2, amended: the empty input and the empty board `8/8/8/8/8/8/8/8` both give
64 cells. -/
theorem parseFEN_board_length_witness :
    (∃ p, parseFEN [] [] = .ok p ∧ p.board.length = 64) ∧
    (∀ p, parseFEN "8/8/8/8/8/8/8/8 w - - 0 1".toList [] = .ok p → p.board.length = 64) :=
  ⟨(parseFEN_board_length []).1 (by decide),
   fun p hp => (parseFEN_board_length "8/8/8/8/8/8/8/8 w - - 0 1".toList).2
      "8/8/8/8/8/8/8/8".toList "w".toList "-".toList "-".toList "0".toList "1".toList p rfl hp⟩

/-- C3: in a well-formed position (64 cells, en-passant field `-` or a square on rank 3 or
6) in which the side to move holds the right of a wing, the plain king move of that wing
is in the legal-move list and the squares strictly between king and rook are empty,
`extractFENDetails` returns a list that contains the combined castling move and not the
plain king move. The result does not depend on any attack information, so the claim's
premise that the squares are not attacked is not needed. -/
theorem castling_move_synthesized (fen : CppString) (legalMoves : List CppString)
    (p : Position) (kingSide : Bool)
    (hp : parseFEN fen [] = .ok p) (hlen : p.board.length = 64)
    (hep : EnPassantFieldOk p.enPassantTarget)
    (hright : p.castlingRights.getD (castlingRightIndex p.whitesTurn kingSide) false = true)
    (hplain : plainKingMove p.whitesTurn kingSide ∈ legalMoves)
    (hempty : ∀ file ∈ filesBetween kingSide,
      cellAt p.board file (homeRank p.whitesTurn) = ['.']) :
    ∃ out draw, extractFENDetails fen legalMoves = .ok (out, draw) ∧
      combinedCastlingMove p.whitesTurn kingSide ∈ out ∧
      plainKingMove p.whitesTurn kingSide ∉ out := by
  obtain ⟨hin, hout⟩ := castlingResult_wing legalMoves p kingSide hright hplain hempty
  rw [extractFENDetails_eq fen legalMoves p hp hlen]
  rcases hep with hdash | ⟨file, rank, hf, hr, ht⟩
  · rw [hdash, detectEnPassant_dash]
    exact ⟨_, _, rfl, hin, hout⟩
  · rw [ht, detectEnPassant_square _ _ _ _ _ hlen hf (by omega)]
    refine ⟨_, _, rfl, enPassantResult_mem_of_mem _ _ _ _ _ _ hin ?_, ?_⟩
    · cases p.whitesTurn <;> cases kingSide <;> decide
    · intro h
      rcases enPassantResult_mem _ _ _ _ _ _ h with h | h
      · exact hout h
      · revert h
        cases p.whitesTurn <;> cases kingSide <;> decide

/-- Witness of C3: `8/8/8/8/8/8/8/R3K2R w KQ - 0 1` with `e1g1` in the list. -/
theorem castling_move_synthesized_witness :
    ∃ out draw,
      extractFENDetails "8/8/8/8/8/8/8/R3K2R w KQ - 0 1".toList ["e1g1".toList]
        = .ok (out, draw) ∧
      "e1g1|h1f1".toList ∈ out ∧ "e1g1".toList ∉ out :=
  castling_move_synthesized "8/8/8/8/8/8/8/R3K2R w KQ - 0 1".toList ["e1g1".toList]
    { board := List.replicate 56 ['.'] ++ [['R'], ['.'], ['.'], ['.'], ['K'], ['.'], ['.'], ['R']]
      whitesTurn := true
      castlingRights := [true, true, false, false]
      enPassantTarget := ['-']
      halfMoveClock := 0
      fullMoveNumber := 1 }
    true rfl (by decide) (Or.inl rfl) rfl (by decide) (by decide)

/-- C4, the code at the failing input: for `8/8/8/8/8/8/8/R3K2R w KQ - 0 1` with `e1g1`
in the list and an engine whose answer to the mirrored position (Black to move) reports
`h2g1`, the mirrored query as `buildNegativeLegalMoves` would make it yields a move with
destination `g1`, and `extractFENDetails` nevertheless removes `e1g1` and adds
`e1g1|h1f1`: the castling pass never obtains the opponent's moves. -/
theorem castling_ignores_mirrored_query :
    (buildNegativeLegalMoves
        (fun _ mirrored =>
          if mirrored = "8/8/8/8/8/8/8/R3K2R b KQ - 0 1".toList then ["h2g1: 1".toList] else [])
        false "8/8/8/8/8/8/8/R3K2R w KQ - 0 1".toList true).map Prod.fst
      = .ok ["h2g1".toList] ∧
    extractFENDetails "8/8/8/8/8/8/8/R3K2R w KQ - 0 1".toList ["e1g1".toList]
      = .ok (["e1g1|h1f1".toList], false) :=
  ⟨rfl, rfl⟩

/-- C5: in a position of 64 cells whose en-passant target is an empty square on file
`target` (rank 6 with White to move, rank 3 with Black to move) and in which, of the two
squares diagonally behind it, only the one on file `origin` holds a pawn of the mover,
`extractFENDetails` returns a list that contains the move origin square, target square,
`-`, square with the target's file and the origin's rank, and does not contain the move
origin square, target square. -/
theorem enPassant_move_synthesized (fen : CppString) (legalMoves : List CppString)
    (p : Position) (target origin : Nat)
    (hp : parseFEN fen [] = .ok p) (hlen : p.board.length = 64)
    (htf : target < 8) (hof : origin < 8) (hadj : origin + 1 = target ∨ origin = target + 1)
    (htarget : p.enPassantTarget = squareName target (if p.whitesTurn then 6 else 3))
    (hempty : cellAt p.board target (if p.whitesTurn then 6 else 3) = ['.'])
    (hpawn : cellAt p.board origin (if p.whitesTurn then 5 else 4)
      = (if p.whitesTurn then ['P'] else ['p']))
    (hother : ∀ other, other < 8 → (other + 1 = target ∨ other = target + 1) → other ≠ origin →
      cellAt p.board other (if p.whitesTurn then 5 else 4)
        ≠ (if p.whitesTurn then ['P'] else ['p'])) :
    ∃ out draw, extractFENDetails fen legalMoves = .ok (out, draw) ∧
      squareName origin (if p.whitesTurn then 5 else 4)
          ++ squareName target (if p.whitesTurn then 6 else 3) ++ ['-']
          ++ squareName target (if p.whitesTurn then 5 else 4) ∈ out ∧
      squareName origin (if p.whitesTurn then 5 else 4)
          ++ squareName target (if p.whitesTurn then 6 else 3) ∉ out := by
  rw [extractFENDetails_eq fen legalMoves p hp hlen, htarget,
    detectEnPassant_square _ _ _ _ _ hlen htf (by cases p.whitesTurn <;> simp)]
  refine ⟨_, _, rfl, ?_⟩
  have horank : (if p.whitesTurn = true then (if p.whitesTurn = true then 6 else 3) - 1
      else (if p.whitesTurn = true then 6 else 3) + 1) = (if p.whitesTurn = true then 5 else 4) := by
    cases p.whitesTurn <;> rfl
  have hresult : enPassantResult (castlingResult legalMoves p) p.board target
      (if p.whitesTurn then 6 else 3) p.whitesTurn
      = removeStringFromVector (castlingResult legalMoves p)
          (squareName origin (if p.whitesTurn then 5 else 4)
            ++ squareName target (if p.whitesTurn then 6 else 3))
        ++ [squareName origin (if p.whitesTurn then 5 else 4)
            ++ squareName target (if p.whitesTurn then 6 else 3) ++ ['-']
            ++ squareName target (if p.whitesTurn then 5 else 4)] := by
    unfold enPassantResult
    simp only [horank, hempty, ne_eq, not_true_eq_false, if_false]
    rcases hadj with hleft | hright
    · have h0 : 0 < target := by omega
      have ho : target - 1 = origin := by omega
      rw [if_pos ⟨h0, by rw [ho]; exact hpawn⟩, ho]
    · have h7 : target < 7 := by omega
      have hnl : ¬ (0 < target ∧ cellAt p.board (target - 1) (if p.whitesTurn then 5 else 4)
          = (if p.whitesTurn then ['P'] else ['p'])) := by
        rintro ⟨h0, hc⟩
        exact hother (target - 1) (by omega) (Or.inl (by omega)) (by omega) hc
      rw [if_neg hnl, if_pos ⟨h7, by rw [← hright]; exact hpawn⟩, ← hright]
  rw [hresult]
  constructor
  · exact (mem_remove_append _ _ _ _).2 (Or.inr rfl)
  · intro h
    rcases (mem_remove_append _ _ _ _).1 h with h | h
    · exact h.2 rfl
    · have := congrArg List.length h
      simp [squareName] at this

/-- Witness of C5: target `e6`, white pawn on `d5`, none on `f5` gives `d5e6-e5` and no
`d5e6`. -/
theorem enPassant_move_synthesized_witness :
    ∃ out draw,
      extractFENDetails "8/8/8/3Pp3/8/8/8/8 w - e6 0 1".toList
        ["d5e6".toList, "d5d6".toList] = .ok (out, draw) ∧
      "d5e6-e5".toList ∈ out ∧ "d5e6".toList ∉ out :=
  enPassant_move_synthesized "8/8/8/3Pp3/8/8/8/8 w - e6 0 1".toList
    ["d5e6".toList, "d5d6".toList]
    { board := List.replicate 27 ['.'] ++ [['P'], ['p']] ++ List.replicate 35 ['.']
      whitesTurn := true
      castlingRights := [false, false, false, false]
      enPassantTarget := "e6".toList
      halfMoveClock := 0
      fullMoveNumber := 1 }
    4 3 rfl (by decide) (by decide) (by decide) (Or.inl rfl) rfl (by decide) (by decide)
    (by
      intro other h1 h2 h3
      have h5 : other = 5 := by omega
      subst h5
      decide)

/-- C6, the code at the failing input: for `4k3/8/8/3Pp3/8/8/8/4K3 w - e6 0 1` one pass
of `extractFENDetails` over `d5d6`, `d5e6` gives `d5d6`, `d5e6-e5`, and a second pass over
that result appends `d5e6-e5` once more; so the list `GetAIFeedback` returns after its
second pass has the en-passant move twice, while `extractResponse` produced it once. -/
theorem enPassant_pass_not_idempotent :
    extractFENDetails "4k3/8/8/3Pp3/8/8/8/4K3 w - e6 0 1".toList
        ["d5d6".toList, "d5e6".toList]
      = .ok (["d5d6".toList, "d5e6-e5".toList], false) ∧
    extractFENDetails "4k3/8/8/3Pp3/8/8/8/4K3 w - e6 0 1".toList
        ["d5d6".toList, "d5e6-e5".toList]
      = .ok (["d5d6".toList, "d5e6-e5".toList, "d5e6-e5".toList], false) ∧
    (extractResponse false
        ["d5d6: 1".toList, "d5e6: 1".toList,
         "Fen: 4k3/8/8/3Pp3/8/8/8/4K3 w - e6 0 1".toList]).map (fun r => r.1.legalMoves)
      = .ok ["d5d6".toList, "d5e6-e5".toList] ∧
    (GetAIFeedback
        (fun _ _ => ["d5d6: 1".toList, "d5e6: 1".toList,
          "Fen: 4k3/8/8/3Pp3/8/8/8/4K3 w - e6 0 1".toList])
        false 1 "4k3/8/8/3Pp3/8/8/8/4K3 w - e6 0 1".toList []).map (fun r => r.1.LegalMoves)
      = .ok ["d5d6".toList, "d5e6-e5".toList, "d5e6-e5".toList] :=
  ⟨rfl, rfl, rfl, rfl⟩

/-- C7: for a line made of `bestmove `, a move token of 4 or 5 characters without a space,
and then either nothing or a space and further text, `checkForBestMove` sets the best move
to exactly that token. -/
theorem checkForBestMove_token (token rest bestMove : CppString)
    (hlen : token.length = 4 ∨ token.length = 5) (hns : ' ' ∉ token)
    (hrest : rest = [] ∨ ∃ text, rest = ' ' :: text) :
    checkForBestMove ("bestmove ".toList ++ token ++ rest) bestMove = .ok token := by
  have hhead : "bestmove ".toList = ['b', 'e', 's', 't', 'm', 'o', 'v', 'e', ' '] := rfl
  have hneedle : "bestmove".toList = ['b', 'e', 's', 't', 'm', 'o', 'v', 'e'] := rfl
  rw [hhead]
  rcases hlen with hlen | hlen
  · obtain ⟨a, b, c, d, rfl⟩ : ∃ a b c d, token = [a, b, c, d] := by
      rcases token with _ | ⟨a, _ | ⟨b, _ | ⟨c, _ | ⟨d, _ | ⟨e, t⟩⟩⟩⟩⟩ <;> simp at hlen
      exact ⟨a, b, c, d, rfl⟩
    rcases hrest with rfl | ⟨text, rfl⟩
    · simp [checkForBestMove, contains, find, hneedle, List.isPrefixOf, charAt, substr]
    · simp [checkForBestMove, contains, find, hneedle, List.isPrefixOf, charAt, substr]
  · obtain ⟨a, b, c, d, e, rfl⟩ : ∃ a b c d e, token = [a, b, c, d, e] := by
      rcases token with _ | ⟨a, _ | ⟨b, _ | ⟨c, _ | ⟨d, _ | ⟨e, _ | ⟨f, t⟩⟩⟩⟩⟩⟩ <;> simp at hlen
      exact ⟨a, b, c, d, e, rfl⟩
    have he : e ≠ ' ' := by
      intro h
      apply hns
      simp [h]
    simp [checkForBestMove, contains, find, hneedle, List.isPrefixOf, charAt, substr, he]

/-- Witness of C7: `bestmove e7e8q ponder e1e2` yields the five characters `e7e8q`, and
`bestmove e2e4 ponder e7e5` yields `e2e4`. -/
theorem checkForBestMove_token_witness :
    checkForBestMove "bestmove e7e8q ponder e1e2".toList [] = .ok "e7e8q".toList ∧
    checkForBestMove "bestmove e2e4 ponder e7e5".toList [] = .ok "e2e4".toList :=
  ⟨checkForBestMove_token "e7e8q".toList " ponder e1e2".toList [] (Or.inr rfl) (by decide)
      (Or.inr ⟨_, rfl⟩),
   checkForBestMove_token "e2e4".toList " ponder e7e5".toList [] (Or.inl rfl) (by decide)
      (Or.inr ⟨_, rfl⟩)⟩

/-- C8: whenever `extractResponse` returns, the scanning pass has returned, and
`isCheckmate` is true if and only if the scanning pass recorded no legal move, that is,
the legal-move list is empty before the castling and en-passant passes. -/
theorem isCheckmate_iff_no_scanned_move (whitesTurn : Bool) (response : List CppString)
    (result : StockfishResponse) (whitesTurn' : Bool)
    (h : extractResponse whitesTurn response = .ok (result, whitesTurn')) :
    ∃ scanned, scanLines response {} whitesTurn = .ok (scanned, whitesTurn') ∧
      (result.isCheckmate = true ↔ scanned.legalMoves = []) := by
  unfold extractResponse at h
  cases hs : scanLines response {} whitesTurn with
  | error e => simp [hs] at h
  | ok val =>
    obtain ⟨scanned, flag⟩ := val
    simp only [hs, bind_ok] at h
    cases hx : extractFENDetails scanned.fen scanned.legalMoves with
    | error e => simp [hx] at h
    | ok augmented =>
      obtain ⟨moves, draw⟩ := augmented
      simp only [hx, bind_ok, Except.ok.injEq, Prod.mk.injEq] at h
      obtain ⟨hresult, hflag⟩ := h
      subst hflag
      refine ⟨scanned, rfl, ?_⟩
      rw [← hresult]
      split <;> simp [List.isEmpty_iff]

/-- Witness of C8: a response with the echoed position of a mate and no move line. -/
theorem isCheckmate_iff_no_scanned_move_witness :
    ∃ scanned,
      scanLines ["Fen: 7k/5Q2/6K1/8/8/8/8/8 b - - 0 1".toList] {} false = .ok (scanned, true) ∧
      (true = true ↔ scanned.legalMoves = []) :=
  isCheckmate_iff_no_scanned_move false ["Fen: 7k/5Q2/6K1/8/8/8/8/8 b - - 0 1".toList]
    { bestMove := []
      legalMoves := []
      board := []
      fen := "7k/5Q2/6K1/8/8/8/8/8 b - - 0 1".toList
      isCheckmate := true
      drawOfferable := false }
    true rfl

/-- C9, as stated, fails: `8/8/8/8/8/8/8/8 w - ex 100 1` has six fields and integer
clocks, the half-move clock is 100, and `extractFENDetails` ends with `invalid_argument` in
the en-passant pass before `drawOfferable` is set. -/
theorem drawOfferable_not_set_on_fault :
    splitStringIntoParts "8/8/8/8/8/8/8/8 w - ex 100 1".toList ' '
      = ["8/8/8/8/8/8/8/8".toList, "w".toList, "-".toList, "ex".toList, "100".toList,
          "1".toList] ∧
    stoi "100".toList = .ok 100 ∧ stoi "1".toList = .ok 1 ∧
    extractFENDetails "8/8/8/8/8/8/8/8 w - ex 100 1".toList [] = .error .invalidArgument :=
  ⟨rfl, rfl, rfl, rfl⟩

/-- C9, amended: for a position string of six fields with integer clocks, whenever
`extractFENDetails` returns, `drawOfferable` is true if and only if the half-move clock
(field 5) is at least 100; and it returns whenever the board field describes 64 cells and
the en-passant field is `-` or a square on rank 3 or 6. -/
theorem drawOfferable_iff (fen : CppString) (legalMoves : List CppString)
    (p0 p1 p2 p3 p4 p5 : CppString) (half full : Int)
    (hsplit : splitStringIntoParts fen ' ' = [p0, p1, p2, p3, p4, p5])
    (h4 : stoi p4 = .ok half) (h5 : stoi p5 = .ok full) :
    (∀ out draw, extractFENDetails fen legalMoves = .ok (out, draw) →
      (draw = true ↔ 100 ≤ half)) ∧
    (cellCount p0 = 64 → EnPassantFieldOk p3 →
      ∃ out draw, extractFENDetails fen legalMoves = .ok (out, draw)) := by
  have hp := parseFEN_six fen [] p0 p1 p2 p3 p4 p5 half full hsplit h4 h5
  constructor
  · intro out draw h
    unfold extractFENDetails at h
    simp only [hp, bind_ok] at h
    cases hc : detectPossibleCastlingMoves fen legalMoves
        (expandRows [] (splitStringIntoParts p0 '/')) (decide (p1 = ['w']))
        (getCastlingAvailability p2) with
    | error e => simp [hc] at h
    | ok castled =>
      simp only [hc, bind_ok] at h
      cases he : detectEnPassant castled (expandRows [] (splitStringIntoParts p0 '/')) p3
          (decide (p1 = ['w'])) with
      | error e => simp [he] at h
      | ok moves =>
        simp only [he, bind_ok, Except.ok.injEq, Prod.mk.injEq] at h
        rw [← h.2]
        simp
  · intro hcells hep
    have hlen : (expandRows [] (splitStringIntoParts p0 '/')).length = 64 := by
      rw [expandRows_cellCount, hcells]
    rw [extractFENDetails_eq fen legalMoves _ hp hlen]
    rcases hep with hdash | ⟨file, rank, hf, hr, ht⟩
    · simp only [hdash, detectEnPassant_dash, bind_ok]
      exact ⟨_, _, rfl⟩
    · simp only [ht, detectEnPassant_square _ _ _ _ _ hlen hf
        (show 2 ≤ rank ∧ rank ≤ 7 by omega), bind_ok]
      exact ⟨_, _, rfl⟩

/-- Witness of C9: with a half-move clock of 100 the flag is true, with 99 it is
false. -/
theorem drawOfferable_iff_witness :
    (∃ out, extractFENDetails "8/8/8/8/8/8/8/8 w - - 100 1".toList [] = .ok (out, true)) ∧
    (∃ out, extractFENDetails "8/8/8/8/8/8/8/8 w - - 99 1".toList [] = .ok (out, false)) := by
  have at100 := drawOfferable_iff "8/8/8/8/8/8/8/8 w - - 100 1".toList []
    "8/8/8/8/8/8/8/8".toList "w".toList "-".toList "-".toList "100".toList "1".toList 100 1
    rfl rfl rfl
  have at99 := drawOfferable_iff "8/8/8/8/8/8/8/8 w - - 99 1".toList []
    "8/8/8/8/8/8/8/8".toList "w".toList "-".toList "-".toList "99".toList "1".toList 99 1
    rfl rfl rfl
  constructor
  · obtain ⟨out, draw, h⟩ := at100.2 (by decide) (Or.inl rfl)
    have hd : draw = true := (at100.1 out draw h).2 (by decide)
    subst hd
    exact ⟨out, h⟩
  · obtain ⟨out, draw, h⟩ := at99.2 (by decide) (Or.inl rfl)
    have hd : draw = false := by
      cases draw
      · rfl
      · exact absurd ((at99.1 out true h).1 rfl) (by decide)
    subst hd
    exact ⟨out, h⟩

/-- C10, the code at the failing input: for a response that echoes a position with a
half-move clock of 100, `extractFENDetails` on the extracted position string reports
`drawOfferable` true, and the `drawOfferable` field of the result of `extractResponse` is
false: the value is computed into a local variable and not stored in the result, so the
field is true for no response at all. -/
theorem extractResponse_drawOfferable_unset :
    ((extractResponse false ["Fen: 8/8/8/8/8/8/8/8 w - - 100 1".toList]).map
        (fun r => (r.1.fen, r.1.drawOfferable))
      = .ok ("8/8/8/8/8/8/8/8 w - - 100 1".toList, false)) ∧
    extractFENDetails "8/8/8/8/8/8/8/8 w - - 100 1".toList [] = .ok ([], true) ∧
    ∀ (whitesTurn : Bool) (response : List CppString),
      (extractResponse whitesTurn response).map (fun r => r.1.drawOfferable) ≠ .ok true := by
  refine ⟨rfl, rfl, ?_⟩
  intro whitesTurn response h
  cases hr : extractResponse whitesTurn response with
  | error e => simp [hr, Except.map] at h
  | ok val =>
    obtain ⟨result, flag⟩ := val
    have hd := extractResponse_drawOfferable _ _ _ _ hr
    simp [hr, Except.map, hd] at h

/-! ## Facts about the board field -/

theorem expandRow_eq (board : List CppString) (row : CppString) :
    expandRow board row = board ++ row.flatMap expandChar := by
  induction row generalizing board with
  | nil => simp [expandRow]
  | cons c row ih =>
    by_cases hc : isdigit c = true
    · simp [expandRow, hc, ih, expandChar]
    · simp [expandRow, hc, ih, expandChar]

theorem expandRows_eq (board : List CppString) (rows : List CppString) :
    expandRows board rows = board ++ rows.flatMap (fun row => row.flatMap expandChar) := by
  induction rows generalizing board with
  | nil => simp [expandRows]
  | cons row rows ih => simp [expandRows, ih, expandRow_eq]

/-- The rows of a board field, put together again, are the field without its
separators. -/
theorem split_slash_flatten (field : CppString) :
    (splitStringIntoParts field '/').flatMap (fun row => row.flatMap expandChar)
      = expandField field := by
  induction field with
  | nil => simp [splitStringIntoParts, expandField]
  | cons c cs ih =>
    by_cases hc : c = '/'
    · subst hc
      simpa [splitStringIntoParts, expandField] using ih
    · have hrest : expandField (c :: cs) = expandChar c ++ expandField cs := by
        simp [expandField, hc]
      rw [hrest, ← ih]
      simp only [splitStringIntoParts, hc, if_false]
      cases splitStringIntoParts cs '/' with
      | nil => simp
      | cons part parts => simp

theorem expandRows_split (field : CppString) :
    expandRows [] (splitStringIntoParts field '/') = expandField field := by
  rw [expandRows_eq, List.nil_append, split_slash_flatten]

/-- In a concatenation of rows of eight cells, the cell `f` of row `r` is at index
`r * 8 + f`. -/
theorem getD_flatten_rows (rows : List (List CppString)) (h : ∀ row ∈ rows, row.length = 8)
    (r f : Nat) (hf : f < 8) :
    (rows.flatMap id).getD (r * 8 + f) [] = (rows.getD r []).getD f [] := by
  induction rows generalizing r with
  | nil => simp
  | cons row rows ih =>
    have hrow : row.length = 8 := h row (by simp)
    have hrows : ∀ row ∈ rows, row.length = 8 := fun x hx => h x (by simp [hx])
    cases r with
    | zero =>
      simp only [List.flatMap_cons, id, Nat.zero_mul, Nat.zero_add, List.getD_eq_getElem?_getD,
        List.getElem?_cons_zero, Option.getD_some]
      rw [List.getElem?_append_left (by omega)]
    | succ r =>
      have hidx : (r + 1) * 8 + f = (r * 8 + f) + row.length := by omega
      have := ih hrows r
      simp only [List.getD_eq_getElem?_getD] at this ⊢
      simp only [List.flatMap_cons, id, List.getElem?_cons_succ]
      rw [hidx, List.getElem?_append_right (by omega), Nat.add_sub_cancel, this]

/-- The parts of a returned position, for an input that splits into six fields. -/
theorem parseFEN_ok_six (fen : CppString) (board : List CppString)
    (p0 p1 p2 p3 p4 p5 : CppString) (p : Position)
    (hsplit : splitStringIntoParts fen ' ' = [p0, p1, p2, p3, p4, p5])
    (hp : parseFEN fen board = .ok p) :
    stoi p4 = .ok p.halfMoveClock ∧ stoi p5 = .ok p.fullMoveNumber ∧
    p.board = expandRows board (splitStringIntoParts p0 '/') ∧
    p.whitesTurn = decide (p1 = ['w']) ∧
    p.castlingRights = getCastlingAvailability p2 ∧
    p.enPassantTarget = p3 := by
  obtain ⟨q0, q1, q2, q3, q4, q5, hparts, h⟩ := parseFEN_ok fen board p hp
  simp only [hsplit, List.length_cons, List.length_nil, ne_eq, not_true_eq_false, if_false,
    List.cons.injEq, and_true] at hparts
  obtain ⟨rfl, rfl, rfl, rfl, rfl, rfl⟩ := hparts
  exact h

theorem contains_singleton (s : CppString) (c : Char) : contains s [c] = decide (c ∈ s) := by
  unfold contains
  induction s with
  | nil => simp [find]
  | cons x xs ih =>
    by_cases hx : c = x
    · subst hx
      simp [find, List.isPrefixOf]
    · simp [find, List.isPrefixOf, hx, ih]

/-- C12: for an input of six fields on which `parseFEN` returns (empty container on entry),
the board is the in-order concatenation, over the characters of field 1 other than `/`, of
`d` cells `.` for a digit `d` and of the one-character string itself for any other
character; and when the field has 8 rows that each describe 8 cells, the cell at index
`r * 8 + f` is cell `f` of row `r`, the square on file `f` of rank `8 - r`. -/
theorem parseFEN_board_expansion (fen : CppString) (p0 p1 p2 p3 p4 p5 : CppString)
    (p : Position)
    (hsplit : splitStringIntoParts fen ' ' = [p0, p1, p2, p3, p4, p5])
    (hp : parseFEN fen [] = .ok p) :
    p.board = expandField p0 ∧
    ((∀ row ∈ splitStringIntoParts p0 '/', (row.flatMap expandChar).length = 8) →
      ∀ r f, f < 8 →
        p.board.getD (r * 8 + f) []
          = (((splitStringIntoParts p0 '/').getD r []).flatMap expandChar).getD f []) := by
  obtain ⟨_, _, hboard, _⟩ := parseFEN_ok_six fen [] p0 p1 p2 p3 p4 p5 p hsplit hp
  refine ⟨by rw [hboard, expandRows_split], ?_⟩
  intro hrows r f hf
  rw [hboard, expandRows_eq, List.nil_append]
  have hmap : (splitStringIntoParts p0 '/').flatMap (fun row => row.flatMap expandChar)
      = ((splitStringIntoParts p0 '/').map (fun row => row.flatMap expandChar)).flatMap id := by
    simp [List.flatMap_def]
  rw [hmap, getD_flatten_rows _ (by simpa using hrows) r f hf]
  by_cases hr : r < (splitStringIntoParts p0 '/').length
  · simp [List.getD_eq_getElem?_getD, List.getElem?_map, List.getElem?_eq_getElem hr]
  · simp [List.getD_eq_getElem?_getD, List.getElem?_eq_none (Nat.le_of_not_lt hr)]

/-- Witness of C12: in `8/8/8/3Pp3/8/8/8/8 w - e6 0 1` the cell at index `3 * 8 + 3` is
the `P` of row 3 (rank 5), file 3 (`d`). -/
theorem parseFEN_board_expansion_witness :
    (List.replicate 27 ['.'] ++ [['P'], ['p']] ++ List.replicate 35 ['.']
      = expandField "8/8/8/3Pp3/8/8/8/8".toList) ∧
    (List.replicate 27 ['.'] ++ [['P'], ['p']] ++ List.replicate 35 ['.']).getD (3 * 8 + 3) []
      = ['P'] :=
  have h := parseFEN_board_expansion "8/8/8/3Pp3/8/8/8/8 w - e6 0 1".toList
    "8/8/8/3Pp3/8/8/8/8".toList "w".toList "-".toList "e6".toList "0".toList "1".toList
    { board := List.replicate 27 ['.'] ++ [['P'], ['p']] ++ List.replicate 35 ['.']
      whitesTurn := true
      castlingRights := [false, false, false, false]
      enPassantTarget := "e6".toList
      halfMoveClock := 0
      fullMoveNumber := 1 }
    rfl rfl
  ⟨h.1, (h.2 (by decide) 3 3 (by decide)).trans rfl⟩

/-- The board `parseFEN` returns is what the container held on entry followed by the
cells decoded from the input. -/
theorem parseFEN_board_append (fen : CppString) (board : List CppString) :
    (parseFEN fen board).map (fun p => p.board)
      = (parseFEN fen []).map (fun p => board ++ p.board) := by
  unfold parseFEN
  simp only []
  split
  · rename_i p0 p1 p2 p3 p4 p5 _
    cases h4 : stoi p4 with
    | error e => rfl
    | ok v4 =>
      cases h5 : stoi p5 with
      | error e => rfl
      | ok v5 =>
        simp only [Except.map, Except.ok.injEq]
        rw [expandRows_eq, expandRows_eq, List.nil_append]
  · rfl

/-- C13, the code at the failing input: with a board container that holds one cell on
entry, `parseFEN` and `UChessAI::ParseFEN` return 65 cells for `8/8/8/8/8/8/8/8 w - - 0 1`,
the old cell first; in general the returned board is the old content followed by the
decoded cells, so it depends on what the container held. The castling flags do not depend
on the content of the castling container. -/
theorem parseFEN_keeps_old_board :
    (parseFEN "8/8/8/8/8/8/8/8 w - - 0 1".toList [['K']]).map (fun p => p.board)
      = .ok (['K'] :: List.replicate 64 ['.']) ∧
    (ParseFEN "8/8/8/8/8/8/8/8 w - - 0 1".toList [['K']] []).map (fun p => p.board)
      = .ok (['K'] :: List.replicate 64 ['.']) ∧
    (parseFEN "8/8/8/8/8/8/8/8 w - - 0 1".toList []).map (fun p => p.board)
      = .ok (List.replicate 64 ['.']) ∧
    (∀ (fen : CppString) (board : List CppString),
      (parseFEN fen board).map (fun p => p.board)
        = (parseFEN fen []).map (fun p => board ++ p.board)) ∧
    (∀ (FEN : CppString) (Board : List CppString) (CastlingRights CastlingRights' : List Bool),
      ParseFEN FEN Board CastlingRights = ParseFEN FEN Board CastlingRights') :=
  ⟨rfl, rfl, rfl, parseFEN_board_append, fun _ _ _ _ => rfl⟩

/-- C14: for an input of six fields on which `parseFEN` returns, the castling flags are
exactly four, in the order white king side, white queen side, black king side, black queen
side, and each is true if and only if its letter (`K`, `Q`, `k`, `q`) occurs in field 3. -/
theorem parseFEN_castling_flags (fen : CppString) (board : List CppString)
    (p0 p1 p2 p3 p4 p5 : CppString) (p : Position)
    (hsplit : splitStringIntoParts fen ' ' = [p0, p1, p2, p3, p4, p5])
    (hp : parseFEN fen board = .ok p) :
    p.castlingRights
      = [decide ('K' ∈ p2), decide ('Q' ∈ p2), decide ('k' ∈ p2), decide ('q' ∈ p2)] := by
  obtain ⟨_, _, _, _, hrights, _⟩ := parseFEN_ok_six fen board p0 p1 p2 p3 p4 p5 p hsplit hp
  rw [hrights]
  simp only [getCastlingAvailability, contains_singleton]

/-- Witness of C14: the field `Kq` sets the first and the last flag only. -/
theorem parseFEN_castling_flags_witness :
    [true, false, false, true]
      = [decide ('K' ∈ "Kq".toList), decide ('Q' ∈ "Kq".toList), decide ('k' ∈ "Kq".toList),
          decide ('q' ∈ "Kq".toList)] :=
  parseFEN_castling_flags "8/8/8/8/8/8/8/8 b Kq - 0 1".toList []
    "8/8/8/8/8/8/8/8".toList "b".toList "Kq".toList "-".toList "0".toList "1".toList
    { board := List.replicate 64 ['.']
      whitesTurn := false
      castlingRights := [true, false, false, true]
      enPassantTarget := ['-']
      halfMoveClock := 0
      fullMoveNumber := 1 }
    rfl rfl

/-! ## Facts about `stoi` -/

theorem takeWhile_isdigit_nil (l : CppString) (h : ∀ c ∈ l, isdigit c = false) :
    l.takeWhile isdigit = [] := by
  cases l with
  | nil => rfl
  | cons c cs => simp [List.takeWhile, h c (by simp)]

/-- A string without any decimal digit is rejected by `stoi`. -/
theorem stoi_no_digit (s : CppString) (h : ∀ c ∈ s, isdigit c = false) :
    stoi s = .error .invalidArgument := by
  have hbody : ∀ c ∈ s.dropWhile isspace, isdigit c = false :=
    fun c hc => h c ((List.dropWhile_sublist isspace).subset hc)
  have key : ∀ body : CppString, (∀ c ∈ body, isdigit c = false) →
      List.takeWhile isdigit
        (match body with
          | '-' :: rest => (true, rest)
          | '+' :: rest => (false, rest)
          | _ => (false, body) : Bool × CppString).2 = [] := by
    intro body hb
    split
    · exact takeWhile_isdigit_nil _ (fun c hc => hb c (by simp [hc]))
    · exact takeWhile_isdigit_nil _ (fun c hc => hb c (by simp [hc]))
    · exact takeWhile_isdigit_nil _ hb
  unfold stoi
  exact if_pos (key _ hbody)

/-- The clocks of `parseFEN` for an input of six fields: an error of `stoi` on field 5, or
else on field 6, is the result. -/
theorem parseFEN_six_error (fen : CppString) (board : List CppString)
    (p0 p1 p2 p3 p4 p5 : CppString)
    (hsplit : splitStringIntoParts fen ' ' = [p0, p1, p2, p3, p4, p5])
    (h : (∃ e, stoi p4 = .error e) ∨ (∃ e, stoi p5 = .error e)) :
    ∃ e, parseFEN fen board = .error e := by
  unfold parseFEN
  simp only [hsplit, List.length_cons, List.length_nil, ne_eq, not_true_eq_false, if_false]
  cases h4 : stoi p4 with
  | error e => exact ⟨e, rfl⟩
  | ok v4 =>
    cases h5 : stoi p5 with
    | error e => exact ⟨e, rfl⟩
    | ok v5 =>
      rcases h with ⟨e, he⟩ | ⟨e, he⟩
      · rw [h4] at he; cases he
      · rw [h5] at he; cases he

/-- C15, as stated, fails: the field `12abc` is not an integer numeral, and `parseFEN`
returns with a half-move clock of 12. -/
theorem parseFEN_accepts_leading_numeral :
    splitStringIntoParts "8/8/8/8/8/8/8/8 w - - 12abc 1".toList ' '
      = ["8/8/8/8/8/8/8/8".toList, "w".toList, "-".toList, "-".toList, "12abc".toList,
          "1".toList] ∧
    (parseFEN "8/8/8/8/8/8/8/8 w - - 12abc 1".toList []).map
        (fun p => (p.halfMoveClock, p.fullMoveNumber)) = .ok (12, 1) :=
  ⟨rfl, rfl⟩

/-- C15, amended: for an input of six fields whose field 5 or field 6 is rejected by
`std::stoi`, in particular a field without any decimal digit, `parseFEN` fails with an
error: it returns no position, neither one with clocks nor the standard initial one. -/
theorem parseFEN_clock_rejected (fen : CppString) (board : List CppString)
    (p0 p1 p2 p3 p4 p5 : CppString)
    (hsplit : splitStringIntoParts fen ' ' = [p0, p1, p2, p3, p4, p5]) :
    ((∃ e, stoi p4 = .error e) ∨ (∃ e, stoi p5 = .error e) →
      ∃ e, parseFEN fen board = .error e) ∧
    ((∀ c ∈ p4, isdigit c = false) ∨ (∀ c ∈ p5, isdigit c = false) →
      ∃ e, parseFEN fen board = .error e) := by
  refine ⟨parseFEN_six_error fen board p0 p1 p2 p3 p4 p5 hsplit, ?_⟩
  intro h
  apply parseFEN_six_error fen board p0 p1 p2 p3 p4 p5 hsplit
  rcases h with h | h
  · exact Or.inl ⟨_, stoi_no_digit p4 h⟩
  · exact Or.inr ⟨_, stoi_no_digit p5 h⟩

/-- Witness of C15, amended: a half-move field `x` and a full-move field `-`. -/
theorem parseFEN_clock_rejected_witness :
    (∃ e, parseFEN "8/8/8/8/8/8/8/8 w - - x 1".toList [] = .error e) ∧
    (∃ e, parseFEN "8/8/8/8/8/8/8/8 w - - 0 -".toList [] = .error e) :=
  ⟨(parseFEN_clock_rejected "8/8/8/8/8/8/8/8 w - - x 1".toList []
      "8/8/8/8/8/8/8/8".toList "w".toList "-".toList "-".toList "x".toList "1".toList rfl).2
      (Or.inl (by decide)),
   (parseFEN_clock_rejected "8/8/8/8/8/8/8/8 w - - 0 -".toList []
      "8/8/8/8/8/8/8/8".toList "w".toList "-".toList "-".toList "0".toList "-".toList rfl).1
      (Or.inr ⟨_, rfl⟩)⟩

/-! ## Facts about the line scanner -/

/-- A text that occurs in a line only has characters of the line. -/
theorem mem_of_contains (line needle : CppString) (h : contains line needle = true)
    (c : Char) (hc : c ∈ needle) : c ∈ line := by
  unfold contains at h
  induction line with
  | nil =>
    by_cases hn : needle = []
    · subst hn; simp at hc
    · simp [find, hn] at h
  | cons x xs ih =>
    by_cases hp : needle.isPrefixOf (x :: xs) = true
    · exact (List.isPrefixOf_iff_prefix.1 hp).subset hc
    · simp only [find, hp, Bool.false_eq_true, if_false, Option.isSome_map'] at h
      exact List.mem_cons_of_mem _ (ih h)

/-- A text occurs in every line that has it between two other texts. -/
theorem contains_middle (before needle after : CppString) :
    contains (before ++ needle ++ after) needle = true := by
  unfold contains
  induction before with
  | nil =>
    rw [List.nil_append]
    cases hline : needle ++ after with
    | nil =>
      have : needle = [] := (List.append_eq_nil.1 hline).1
      simp [find, this]
    | cons x xs =>
      have hp : needle.isPrefixOf (x :: xs) = true := by
        rw [← hline]; exact List.isPrefixOf_iff_prefix.2 (List.prefix_append _ _)
      simp [find, hp]
  | cons b bs ih =>
    simp only [List.cons_append, find]
    split
    · rfl
    · simpa using ih

theorem not_contains_of_not_mem (line needle : CppString) (c : Char) (hc : c ∈ needle)
    (h : c ∉ line) : contains line needle = false := by
  cases hcon : contains line needle with
  | false => rfl
  | true => exact absurd (mem_of_contains line needle hcon c hc) h

theorem substr_zero (line : CppString) (count : Nat) :
    substr line 0 count = .ok (line.take count) := by
  simp [substr]

theorem toupper_promotion (c : Char) (h : isPromotionLetter c = true) :
    _toupper c = c.toUpper := by
  simp only [isPromotionLetter, Bool.or_eq_true, decide_eq_true_eq] at h
  rcases h with ((h | h) | h) | h <;> subst h <;> rfl

theorem checkForPromotionPiece_iff (line : CppString) :
    checkForPromotionPiece line = true ↔ ∃ c, line.get? 4 = some c ∧ isPromotionLetter c = true := by
  unfold checkForPromotionPiece
  by_cases hlen : line.length ≥ 5
  · have h4 : 4 < line.length := by omega
    simp only [hlen, if_true, List.any_cons, List.any_nil, Bool.or_false, List.getD_eq_getElem?_getD,
      List.getElem?_eq_getElem h4, Option.getD_some, List.get?_eq_getElem?, Option.some.injEq,
      exists_eq_left', isPromotionLetter, Bool.or_eq_true, beq_iff_eq, decide_eq_true_eq]
    constructor
    · rintro (h | h | h | h) <;> simp [← h]
    · rintro (((h | h) | h) | h) <;> simp [h]
  · have h4 : line.length ≤ 4 := by omega
    simp [hlen, List.get?_eq_getElem?, List.getElem?_eq_none h4]

/-- The function `checkForLegalMoves` always returns, with the list unchanged or one entry
longer. -/
theorem checkForLegalMoves_eq (whitesTurn : Bool) (line : CppString)
    (legalMoves : List CppString) :
    checkForLegalMoves whitesTurn line legalMoves = .ok
      (if contains line ": 1".toList = true ∧ contains line "Node".toList = false then
        if checkForPromotionPiece line = true then
          legalMoves ++ [line.take 4 ++ "->".toList
            ++ [if whitesTurn then _toupper (line.getD 4 (Char.ofNat 0))
                else line.getD 4 (Char.ofNat 0)]]
        else if line.take 4 ≠ "Key:".toList ∧ line.take 4 ≠ "Fen:".toList then
          legalMoves ++ [line.take 4]
        else legalMoves
      else legalMoves) := by
  unfold checkForLegalMoves
  rw [substr_zero]
  cases h1 : contains line ": 1".toList
  · simp
  · cases h2 : contains line "Node".toList
    · cases hpromo : checkForPromotionPiece line
      · by_cases hk : line.take 4 ≠ "Key:".toList ∧ line.take 4 ≠ "Fen:".toList
        · simp only [Bool.not_false, Bool.and_self, if_true, bind_ok, Bool.false_eq_true,
            if_false, and_self]
          rw [if_pos hk, if_pos hk]
        · simp only [Bool.not_false, Bool.and_self, if_true, bind_ok, Bool.false_eq_true,
            if_false, and_self]
          rw [if_neg hk, if_neg hk]
      · have hlen : 4 < line.length := by
          unfold checkForPromotionPiece at hpromo
          by_cases h5 : line.length ≥ 5
          · omega
          · simp [h5] at hpromo
        have hchar : charAt line 4 = .ok (line.getD 4 (Char.ofNat 0)) := by
          simp [charAt, hlen]
        simp only [Bool.not_false, Bool.and_self, if_true, bind_ok, hchar, and_self]
    · simp

/-- The characters of a coordinate move. -/
theorem coordinateMove_chars (m : CppString) (h : isCoordinateMove m = true) :
    ∃ f1 r1 f2 r2, m = [f1, r1, f2, r2] ∧ isFileChar f1 = true ∧ isRankChar r1 = true ∧
      isFileChar f2 = true ∧ isRankChar r2 = true := by
  unfold isCoordinateMove at h
  split at h
  · rename_i f1 r1 f2 r2
    simp only [Bool.and_eq_true] at h
    exact ⟨f1, r1, f2, r2, rfl, h.1.1.1, h.1.1.2, h.1.2, h.2⟩
  · simp at h

/-- C16: for a line made of a four-character coordinate move and `: 1`,
`checkForLegalMoves` appends exactly the move as the last entry of the legal-move list and
leaves the earlier entries as they are. -/
theorem checkForLegalMoves_plain_move (whitesTurn : Bool) (m : CppString)
    (legalMoves : List CppString) (hm : isCoordinateMove m = true) :
    checkForLegalMoves whitesTurn (m ++ ": 1".toList) legalMoves = .ok (legalMoves ++ [m]) := by
  obtain ⟨f1, r1, f2, r2, rfl, hf1, hr1, hf2, hr2⟩ := coordinateMove_chars m hm
  have h1 : contains ([f1, r1, f2, r2] ++ ": 1".toList) ": 1".toList = true := by
    have := contains_middle [f1, r1, f2, r2] ": 1".toList []
    simpa using this
  have hN : 'N' ∉ [f1, r1, f2, r2] ++ ": 1".toList := by
    intro h
    have hlist : ": 1".toList = [':', ' ', '1'] := rfl
    simp only [hlist, List.cons_append, List.nil_append, List.mem_cons, List.mem_singleton,
      List.mem_nil_iff, or_false] at h
    rcases h with h | h | h | h | h | h | h
    · subst h; exact absurd hf1 (by decide)
    · subst h; exact absurd hr1 (by decide)
    · subst h; exact absurd hf2 (by decide)
    · subst h; exact absurd hr2 (by decide)
    · exact absurd h (by decide)
    · exact absurd h (by decide)
    · exact absurd h (by decide)
  have h2 : contains ([f1, r1, f2, r2] ++ ": 1".toList) "Node".toList = false :=
    not_contains_of_not_mem _ _ 'N' (by decide) hN
  have h3 : checkForPromotionPiece ([f1, r1, f2, r2] ++ ": 1".toList) = false := by
    cases hp : checkForPromotionPiece ([f1, r1, f2, r2] ++ ": 1".toList) with
    | false => rfl
    | true =>
      obtain ⟨c, hc, hl⟩ := (checkForPromotionPiece_iff _).1 hp
      have hcolon : c = ':' := by
        have : ([f1, r1, f2, r2] ++ ": 1".toList).get? 4 = some ':' := rfl
        rw [this] at hc
        exact (Option.some.inj hc).symm
      subst hcolon
      exact absurd hl (by decide)
  have hkey : ([f1, r1, f2, r2] : CppString) ≠ "Key:".toList := by
    intro h
    have : f1 = 'K' := by
      have := congrArg List.head? h
      simpa using this
    subst this
    exact absurd hf1 (by decide)
  have hfen : ([f1, r1, f2, r2] : CppString) ≠ "Fen:".toList := by
    intro h
    have : f1 = 'F' := by
      have := congrArg List.head? h
      simpa using this
    subst this
    exact absurd hf1 (by decide)
  rw [checkForLegalMoves_eq, if_pos ⟨h1, h2⟩, h3]
  have htake : List.take 4 ([f1, r1, f2, r2] ++ ": 1".toList) = [f1, r1, f2, r2] := rfl
  simp only [Bool.false_eq_true, if_false, htake]
  rw [if_pos ⟨hkey, hfen⟩]

/-- Witness of C16: the line `e2e4: 1`. -/
theorem checkForLegalMoves_plain_move_witness :
    checkForLegalMoves false "e2e4: 1".toList ["d2d4".toList]
      = .ok ["d2d4".toList, "e2e4".toList] :=
  checkForLegalMoves_plain_move false "e2e4".toList ["d2d4".toList] (by decide)

/-- C17, as stated, fails: the line `e2e4: 12` has a leaf count of 12, and
`checkForLegalMoves` records `e2e4` from it, because the test is for the text `: 1`
anywhere in the line. -/
theorem checkForLegalMoves_count_twelve :
    checkForLegalMoves false "e2e4: 12".toList [] = .ok ["e2e4".toList] :=
  rfl

/-- C17, amended: `checkForLegalMoves` leaves the legal-move list unchanged for every line
that does not contain the text `: 1` (such as a move line whose count does not begin with
1) and for every line that contains `Node` (such as a `Nodes searched` line); so a move is
recorded only from a line that contains `: 1` and not `Node`. -/
theorem checkForLegalMoves_unchanged (whitesTurn : Bool) (line : CppString)
    (legalMoves : List CppString)
    (h : contains line ": 1".toList = false ∨ contains line "Node".toList = true) :
    checkForLegalMoves whitesTurn line legalMoves = .ok legalMoves := by
  rw [checkForLegalMoves_eq, if_neg]
  rintro ⟨h1, h2⟩
  rcases h with h | h
  · rw [h1] at h; cases h
  · rw [h2] at h; cases h

/-- Witness of C17, amended: the lines `e2e4: 20` and `Nodes searched: 1`. -/
theorem checkForLegalMoves_unchanged_witness :
    checkForLegalMoves false "e2e4: 20".toList ["d2d4".toList] = .ok ["d2d4".toList] ∧
    checkForLegalMoves false "Nodes searched: 1".toList ["d2d4".toList]
      = .ok ["d2d4".toList] :=
  ⟨checkForLegalMoves_unchanged false "e2e4: 20".toList ["d2d4".toList] (Or.inl (by decide)),
   checkForLegalMoves_unchanged false "Nodes searched: 1".toList ["d2d4".toList]
    (Or.inr (by decide))⟩

/-- C18: for a line that contains `: 1`, does not contain `Node`, and whose fifth
character is one of `q`, `r`, `b`, `n`, `checkForLegalMoves` appends exactly one entry: the
first four characters of the line, then `->`, then that letter, in upper case if the
shared turn flag is set and unchanged otherwise. -/
theorem checkForLegalMoves_promotion (whitesTurn : Bool) (line : CppString)
    (legalMoves : List CppString) (letter : Char)
    (h1 : contains line ": 1".toList = true) (h2 : contains line "Node".toList = false)
    (h5 : line.get? 4 = some letter) (hl : isPromotionLetter letter = true) :
    checkForLegalMoves whitesTurn line legalMoves
      = .ok (legalMoves ++ [line.take 4 ++ "->".toList
          ++ [if whitesTurn then letter.toUpper else letter]]) := by
  have hpromo : checkForPromotionPiece line = true :=
    (checkForPromotionPiece_iff line).2 ⟨letter, h5, hl⟩
  have hget : line.getD 4 (Char.ofNat 0) = letter := by
    rw [List.get?_eq_getElem?] at h5
    simp [List.getD_eq_getElem?_getD, h5]
  rw [checkForLegalMoves_eq, if_pos ⟨h1, h2⟩, if_pos hpromo, hget, toupper_promotion letter hl]

/-- Witness of C18: `e7e8q: 1` gives `e7e8->Q` with the flag set and `e7e8->q` without. -/
theorem checkForLegalMoves_promotion_witness :
    checkForLegalMoves true "e7e8q: 1".toList [] = .ok ["e7e8->Q".toList] ∧
    checkForLegalMoves false "e7e8q: 1".toList [] = .ok ["e7e8->q".toList] :=
  ⟨checkForLegalMoves_promotion true "e7e8q: 1".toList [] 'q' (by decide) (by decide) rfl
      (by decide),
   checkForLegalMoves_promotion false "e7e8q: 1".toList [] 'q' (by decide) (by decide) rfl
      (by decide)⟩

/-- C20, as stated, fails: the first four characters of `Fen:q: 1` are `Fen:`, and
`checkForLegalMoves` appends `Fen:->q`, because the test for a promotion letter comes
before the test for the two labels. -/
theorem checkForLegalMoves_label_promotion :
    checkForLegalMoves false "Fen:q: 1".toList [] = .ok ["Fen:->q".toList] :=
  rfl

/-- C20, amended: for every line whose first four characters are `Key:` or `Fen:` and
whose fifth character is not one of `q`, `r`, `b`, `n` (so for every line that begins with
`Key: ` or `Fen: `), `checkForLegalMoves` leaves the legal-move list unchanged. -/
theorem checkForLegalMoves_label (whitesTurn : Bool) (line : CppString)
    (legalMoves : List CppString)
    (hlabel : line.take 4 = "Key:".toList ∨ line.take 4 = "Fen:".toList)
    (h5 : ∀ c, line.get? 4 = some c → isPromotionLetter c = false) :
    checkForLegalMoves whitesTurn line legalMoves = .ok legalMoves := by
  have hpromo : ¬ checkForPromotionPiece line = true := by
    intro hp
    obtain ⟨c, hc, hl⟩ := (checkForPromotionPiece_iff line).1 hp
    rw [h5 c hc] at hl
    cases hl
  have hk : ¬ (line.take 4 ≠ "Key:".toList ∧ line.take 4 ≠ "Fen:".toList) := by
    rintro ⟨hkey, hfen⟩
    rcases hlabel with h | h
    · exact hkey h
    · exact hfen h
  rw [checkForLegalMoves_eq]
  by_cases hcond : contains line ": 1".toList = true ∧ contains line "Node".toList = false
  · rw [if_pos hcond, if_neg hpromo, if_neg hk]
  · rw [if_neg hcond]

/-- Witness of C20, amended: an echoed position that begins with `1` (so that the line
contains `: 1`) and a key line. -/
theorem checkForLegalMoves_label_witness :
    checkForLegalMoves false "Fen: 1k6/8/8/8/8/8/8/K7 w - - 0 1".toList ["a1a2".toList]
      = .ok ["a1a2".toList] ∧
    checkForLegalMoves false "Key: 1F8F01D4562F59FB".toList ["a1a2".toList]
      = .ok ["a1a2".toList] :=
  ⟨checkForLegalMoves_label false "Fen: 1k6/8/8/8/8/8/8/K7 w - - 0 1".toList ["a1a2".toList]
      (Or.inr rfl) (by intro c hc; cases hc; decide),
   checkForLegalMoves_label false "Key: 1F8F01D4562F59FB".toList ["a1a2".toList]
      (Or.inl rfl) (by intro c hc; cases hc; decide)⟩

/-! ## Facts about promotion lines and the turn flag -/

/-- A text that occurs in a line is a contiguous part of it. -/
theorem infix_of_contains (line needle : CppString) (h : contains line needle = true) :
    needle <:+: line := by
  unfold contains at h
  induction line with
  | nil =>
    by_cases hn : needle = []
    · subst hn; exact List.nil_infix
    · simp [find, hn] at h
  | cons x xs ih =>
    by_cases hp : needle.isPrefixOf (x :: xs) = true
    · exact (List.isPrefixOf_iff_prefix.1 hp).isInfix
    · simp only [find, hp, Bool.false_eq_true, if_false, Option.isSome_map'] at h
      exact (ih h).trans (List.suffix_cons x xs).isInfix

/-- Splitting undoes joining, for parts that are not empty and do not have the
separator. -/
theorem split_joinWith (separator : Char) (parts : List CppString)
    (h : ∀ part ∈ parts, separator ∉ part ∧ part ≠ []) :
    splitStringIntoParts (joinWith separator parts) separator = parts := by
  induction parts with
  | nil => rfl
  | cons part parts ih =>
    have hpart := h part (by simp)
    have hparts : ∀ q ∈ parts, separator ∉ q ∧ q ≠ [] := fun q hq => h q (by simp [hq])
    cases parts with
    | nil => exact split_last_part part separator hpart.1 hpart.2
    | cons next rest =>
      rw [joinWith, split_part_delimiter part _ separator hpart.1, ih hparts]

theorem pieceLetter_cases (c : Char) (h : isPieceLetter c = true) :
    isdigit c = false ∧ c ≠ '.' ∧ c ≠ ' ' ∧ c ≠ '/' := by
  have hmem : c ∈ "pnbrqkPNBRQK".toList := by
    simpa [isPieceLetter] using h
  have hlist : "pnbrqkPNBRQK".toList
      = ['p', 'n', 'b', 'r', 'q', 'k', 'P', 'N', 'B', 'R', 'Q', 'K'] := rfl
  rw [hlist] at hmem
  simp only [List.mem_cons, List.mem_singleton, List.mem_nil_iff, or_false] at hmem
  rcases hmem with h | h | h | h | h | h | h | h | h | h | h | h <;> subst h <;> decide

theorem runDigit_expand (run : Nat) (h1 : 1 ≤ run) (h9 : run ≤ 9) :
    expandChar (Char.ofNat (48 + run)) = List.replicate run ['.'] ∧
    Char.ofNat (48 + run) ≠ ' ' ∧ Char.ofNat (48 + run) ≠ '/' := by
  interval_cases run <;> exact ⟨rfl, by decide, by decide⟩

/-- Decoding an encoded rank gives the pending empty cells and the cells of the rank. -/
theorem encodeRank_expand (cells : List CppString) (run : Nat)
    (hcells : ∀ cell ∈ cells, cell = ['.'] ∨ ∃ c, isPieceLetter c = true ∧ cell = [c])
    (hlen : run + cells.length ≤ 9) :
    (encodeRank cells run).flatMap expandChar = List.replicate run ['.'] ++ cells := by
  induction cells generalizing run with
  | nil =>
    by_cases h0 : run = 0
    · subst h0; rfl
    · have := (runDigit_expand run (by omega) (by simpa using hlen)).1
      simp [encodeRank, h0, this]
  | cons cell cells ih =>
    have hrest : ∀ x ∈ cells, x = ['.'] ∨ ∃ c, isPieceLetter c = true ∧ x = [c] :=
      fun x hx => hcells x (by simp [hx])
    have hlen' : run + cells.length + 1 ≤ 9 := by simpa [Nat.add_assoc] using hlen
    rcases hcells cell (by simp) with hdot | ⟨c, hc, hcell⟩
    · subst hdot
      rw [encodeRank, if_pos rfl, ih (run + 1) hrest (by omega), List.replicate_succ']
      simp
    · subst hcell
      obtain ⟨hnd, hne, -, -⟩ := pieceLetter_cases c hc
      have hne' : ([c] : CppString) ≠ ['.'] := by simpa using hne
      have hchar : expandChar c = [[c]] := by simp [expandChar, hnd]
      rw [encodeRank, if_neg hne', List.flatMap_append, List.flatMap_append,
        ih 0 hrest (by omega)]
      by_cases h0 : run = 0
      · subst h0
        simp [hchar]
      · have := (runDigit_expand run (by omega) (by omega)).1
        simp [h0, this, hchar]

/-- An encoded rank has neither a space nor a row separator. -/
theorem encodeRank_chars (cells : List CppString) (run : Nat)
    (hcells : ∀ cell ∈ cells, cell = ['.'] ∨ ∃ c, isPieceLetter c = true ∧ cell = [c])
    (hlen : run + cells.length ≤ 9) :
    ∀ c ∈ encodeRank cells run, c ≠ ' ' ∧ c ≠ '/' := by
  induction cells generalizing run with
  | nil =>
    intro c hc
    by_cases h0 : run = 0
    · simp [encodeRank, h0] at hc
    · have := (runDigit_expand run (by omega) (by simpa using hlen)).2
      simp only [encodeRank, h0, if_false, List.mem_singleton] at hc
      subst hc
      exact this
  | cons cell cells ih =>
    have hrest : ∀ x ∈ cells, x = ['.'] ∨ ∃ c, isPieceLetter c = true ∧ x = [c] :=
      fun x hx => hcells x (by simp [hx])
    have hlen' : run + cells.length + 1 ≤ 9 := by simpa [Nat.add_assoc] using hlen
    intro c hc
    rcases hcells cell (by simp) with hdot | ⟨d, hd, hcell⟩
    · subst hdot
      rw [encodeRank, if_pos rfl] at hc
      exact ih (run + 1) hrest (by omega) c hc
    · subst hcell
      obtain ⟨-, hne, hsp, hsl⟩ := pieceLetter_cases d hd
      have hne' : ([d] : CppString) ≠ ['.'] := by simpa using hne
      rw [encodeRank, if_neg hne'] at hc
      simp only [List.mem_append, List.mem_singleton] at hc
      rcases hc with (hc | hc) | hc
      · by_cases h0 : run = 0
        · simp [h0] at hc
        · have := (runDigit_expand run (by omega) (by omega)).2
          simp only [h0, if_false, List.mem_singleton] at hc
          subst hc
          exact this
      · subst hc
        exact ⟨hsp, hsl⟩
      · exact ih 0 hrest (by omega) c hc

theorem encodeRank_ne_nil (cells : List CppString) (run : Nat)
    (hcells : ∀ cell ∈ cells, cell = ['.'] ∨ ∃ c, isPieceLetter c = true ∧ cell = [c])
    (h : 0 < run + cells.length) : encodeRank cells run ≠ [] := by
  induction cells generalizing run with
  | nil =>
    have h0 : run ≠ 0 := by simpa [Nat.pos_iff_ne_zero] using h
    simp [encodeRank, h0]
  | cons cell cells ih =>
    have hrest : ∀ x ∈ cells, x = ['.'] ∨ ∃ c, isPieceLetter c = true ∧ x = [c] :=
      fun x hx => hcells x (by simp [hx])
    rcases hcells cell (by simp) with hdot | ⟨d, hd, hcell⟩
    · subst hdot
      rw [encodeRank, if_pos rfl]
      exact ih (run + 1) hrest (by omega)
    · subst hcell
      obtain ⟨-, hne, -, -⟩ := pieceLetter_cases d hd
      have hne' : ([d] : CppString) ≠ ['.'] := by simpa using hne
      rw [encodeRank, if_neg hne']
      simp

/-- The ranks of a board, put together again, are its first cells. -/
theorem ranksOf_flatten (count : Nat) (board : List CppString) :
    (ranksOf count board).flatMap id = board.take (8 * count) := by
  induction count generalizing board with
  | zero => simp [ranksOf]
  | succ n ih =>
    rw [ranksOf, List.flatMap_cons, ih, id, Nat.mul_succ, Nat.add_comm (8 * n) 8,
      List.take_add]

theorem ranksOf_mem (count : Nat) (board : List CppString) (h : 8 * count ≤ board.length) :
    ∀ rank ∈ ranksOf count board, rank.length = 8 ∧ ∀ cell ∈ rank, cell ∈ board := by
  induction count generalizing board with
  | zero => simp [ranksOf]
  | succ n ih =>
    intro rank hrank
    rw [ranksOf, List.mem_cons] at hrank
    rcases hrank with hrank | hrank
    · subst hrank
      exact ⟨by rw [List.length_take]; omega, fun cell hc => List.mem_of_mem_take hc⟩
    · have hlen : 8 * n ≤ (board.drop 8).length := by rw [List.length_drop]; omega
      obtain ⟨h8, hsub⟩ := ih (board.drop 8) hlen rank hrank
      exact ⟨h8, fun cell hc => List.mem_of_mem_drop (hsub cell hc)⟩

theorem mem_joinWith (separator : Char) (parts : List CppString) (c : Char)
    (h : c ∈ joinWith separator parts) : c = separator ∨ ∃ part ∈ parts, c ∈ part := by
  induction parts with
  | nil => simp [joinWith] at h
  | cons part parts ih =>
    cases parts with
    | nil => exact Or.inr ⟨part, by simp, h⟩
    | cons next rest =>
      rw [joinWith, List.mem_append, List.mem_cons] at h
      rcases h with h | h | h
      · exact Or.inr ⟨part, by simp, h⟩
      · exact Or.inl h
      · rcases ih h with h | ⟨q, hq, hc⟩
        · exact Or.inl h
        · exact Or.inr ⟨q, List.mem_cons_of_mem _ hq, hc⟩

theorem joinWith_ne_nil (separator : Char) (part : CppString) (parts : List CppString)
    (h : part ≠ []) : joinWith separator (part :: parts) ≠ [] := by
  cases parts with
  | nil => exact h
  | cons next rest =>
    rw [joinWith]
    simp [h]

/-- The board field of the notation decodes to the board. -/
theorem expandRows_boardField (board : List CppString) (hlen : board.length = 64)
    (hcells : ∀ cell ∈ board, cell = ['.'] ∨ ∃ c, isPieceLetter c = true ∧ cell = [c]) :
    expandRows []
        (splitStringIntoParts
          (joinWith '/' ((ranksOf 8 board).map (fun rank => encodeRank rank 0))) '/')
      = board ∧
    ' ' ∉ joinWith '/' ((ranksOf 8 board).map (fun rank => encodeRank rank 0)) ∧
    joinWith '/' ((ranksOf 8 board).map (fun rank => encodeRank rank 0)) ≠ [] := by
  have hranks := ranksOf_mem 8 board (by omega)
  have hrankcells : ∀ rank ∈ ranksOf 8 board,
      ∀ cell ∈ rank, cell = ['.'] ∨ ∃ c, isPieceLetter c = true ∧ cell = [c] :=
    fun rank hr cell hc => hcells cell ((hranks rank hr).2 cell hc)
  have hparts : ∀ part ∈ (ranksOf 8 board).map (fun rank => encodeRank rank 0),
      '/' ∉ part ∧ part ≠ [] := by
    intro part hpart
    obtain ⟨rank, hr, rfl⟩ := List.mem_map.1 hpart
    have h8 := (hranks rank hr).1
    refine ⟨fun hmem => ?_, encodeRank_ne_nil rank 0 (hrankcells rank hr) (by omega)⟩
    exact (encodeRank_chars rank 0 (hrankcells rank hr) (by omega) '/' hmem).2 rfl
  refine ⟨?_, ?_, ?_⟩
  · rw [split_joinWith '/' _ hparts, expandRows_eq, List.nil_append, List.flatMap_map]
    have hdecode : ∀ rank ∈ ranksOf 8 board,
        (encodeRank rank 0).flatMap expandChar = id rank := by
      intro rank hr
      have h8 := (hranks rank hr).1
      rw [encodeRank_expand rank 0 (hrankcells rank hr) (by omega)]
      rfl
    rw [List.flatMap_congr hdecode, ranksOf_flatten, List.take_of_length_le (by omega)]
  · intro hmem
    rcases mem_joinWith '/' _ ' ' hmem with h | ⟨part, hpart, hc⟩
    · exact absurd h (by decide)
    · obtain ⟨rank, hr, rfl⟩ := List.mem_map.1 hpart
      have h8 := (hranks rank hr).1
      exact (encodeRank_chars rank 0 (hrankcells rank hr) (by omega) ' ' hc).1 rfl
  · have hfirst : board.take 8 ∈ ranksOf 8 board := by simp [ranksOf]
    have h8 := (hranks _ hfirst).1
    exact joinWith_ne_nil '/' _ _
      (encodeRank_ne_nil (board.take 8) 0 (hrankcells _ hfirst) (by omega))

/-! ## Facts about decimal numerals -/

theorem digitChar_digit (k : Nat) (h : k < 10) :
    isdigit (Nat.digitChar k) = true ∧ (Nat.digitChar k).toNat - 48 = k := by
  interval_cases k <;> exact ⟨rfl, rfl⟩

theorem digitsValue_append (l : List Char) (d : Char) :
    digitsValue (l ++ [d]) = 10 * digitsValue l + (d.toNat - 48) := by
  simp [digitsValue, List.foldl_append]

/-- The digits `Nat.toDigits` writes in front of `ds`: at least one, all decimal, with the
value of the number. -/
theorem toDigitsCore_spec (fuel n : Nat) (ds : List Char) (h : n < fuel) :
    ∃ l, Nat.toDigitsCore 10 fuel n ds = l ++ ds ∧ l ≠ [] ∧
      (∀ c ∈ l, isdigit c = true) ∧ digitsValue l = n := by
  induction fuel generalizing n ds with
  | zero => omega
  | succ fuel ih =>
    have hd := digitChar_digit (n % 10) (Nat.mod_lt n (by decide))
    rw [Nat.toDigitsCore]
    by_cases hq : n / 10 = 0
    · rw [if_pos hq]
      refine ⟨[Nat.digitChar (n % 10)], rfl, by simp, ?_, ?_⟩
      · intro c hc
        rw [List.mem_singleton.1 hc]
        exact hd.1
      · have : digitsValue [Nat.digitChar (n % 10)] = (Nat.digitChar (n % 10)).toNat - 48 := by
          simp [digitsValue]
        rw [this, hd.2]
        omega
    · rw [if_neg hq]
      obtain ⟨l, hl, -, hdigits, hvalue⟩ :=
        ih (n / 10) (Nat.digitChar (n % 10) :: ds) (by omega)
      refine ⟨l ++ [Nat.digitChar (n % 10)], by rw [hl]; simp, by simp, ?_, ?_⟩
      · intro c hc
        rcases List.mem_append.1 hc with hc | hc
        · exact hdigits c hc
        · rw [List.mem_singleton.1 hc]
          exact hd.1
      · rw [digitsValue_append, hvalue, hd.2]
        omega

theorem isdigit_not_space (c : Char) (h : isdigit c = true) :
    isspace c = false ∧ c ≠ '-' ∧ c ≠ '+' ∧ c ≠ ' ' := by
  have h' : 48 ≤ c.toNat ∧ c.toNat ≤ 57 := by simpa [isdigit] using h
  refine ⟨?_, ?_, ?_, ?_⟩
  · have h1 : ¬ c.toNat = 32 := by omega
    have h2 : ¬ (9 ≤ c.toNat ∧ c.toNat ≤ 13) := by omega
    simp only [isspace, h1, decide_False, Bool.false_or, Bool.and_eq_false_iff,
      decide_eq_false_iff_not]
    omega
  · rintro rfl; revert h'; decide
  · rintro rfl; revert h'; decide
  · rintro rfl; revert h'; decide

/-- Reading back the decimal numeral of a non-negative `int`. -/
theorem stoi_to_string (v : Int) (h0 : 0 ≤ v) (hmax : v ≤ 2147483647) :
    stoi (to_string v) = .ok v ∧ ' ' ∉ to_string v ∧ to_string v ≠ [] := by
  obtain ⟨l, hl, hne, hdigits, hvalue⟩ :=
    toDigitsCore_spec (v.natAbs + 1) v.natAbs [] (by omega)
  have hts : to_string v = l := by
    unfold to_string
    rw [if_neg (by omega), Nat.toDigits, hl, List.append_nil]
  rw [hts]
  refine ⟨?_, fun hmem => (isdigit_not_space ' ' (hdigits ' ' hmem)).2.2.2 rfl, hne⟩
  obtain ⟨c, cs, rfl⟩ := List.exists_cons_of_ne_nil hne
  obtain ⟨hsp, hminus, hplus, -⟩ := isdigit_not_space c (hdigits c (by simp))
  have hdrop : (c :: cs).dropWhile isspace = c :: cs := by
    simp [List.dropWhile, hsp]
  have htake : (c :: cs).takeWhile isdigit = c :: cs :=
    List.takeWhile_eq_self_iff.2 hdigits
  unfold stoi
  rw [hdrop]
  have hmatch : (match (c :: cs : CppString) with
      | '-' :: rest => (true, rest)
      | '+' :: rest => (false, rest)
      | _ => (false, c :: cs) : Bool × CppString) = (false, c :: cs) := by
    split
    · rename_i heq; exact absurd (List.cons.inj heq).1 hminus
    · rename_i heq; exact absurd (List.cons.inj heq).1 hplus
    · rfl
  simp only [hmatch, htake, Bool.false_eq_true, if_false, hvalue]
  have hv : ((v.natAbs : Nat) : Int) = v := by omega
  rw [hv, if_neg (by simp), if_neg (by omega)]

theorem castlingField_decode (a b c d : Bool) :
    getCastlingAvailability (castlingField [a, b, c, d]) = [a, b, c, d] ∧
    ' ' ∉ castlingField [a, b, c, d] ∧ castlingField [a, b, c, d] ≠ [] := by
  cases a <;> cases b <;> cases c <;> cases d <;> exact ⟨rfl, by decide, by decide⟩

theorem squareName_chars (file rank : Nat) (hf : file < 8) (h1 : 1 ≤ rank) (h8 : rank ≤ 8) :
    ' ' ∉ squareName file rank ∧ squareName file rank ≠ [] := by
  refine ⟨?_, by simp [squareName]⟩
  interval_cases file <;> interval_cases rank <;> decide

theorem cells_of_isCell (board : List CppString) (h : board.all isCell = true) :
    ∀ cell ∈ board, cell = ['.'] ∨ ∃ c, isPieceLetter c = true ∧ cell = [c] := by
  intro cell hcell
  have hc := List.all_eq_true.1 h cell hcell
  unfold isCell at hc
  split at hc
  · rename_i c
    simp only [Bool.or_eq_true, decide_eq_true_eq] at hc
    rcases hc with hc | hc
    · exact Or.inl (by rw [hc])
    · exact Or.inr ⟨c, hc, rfl⟩
  · cases hc

/-- C11: for every well-formed position `p` (64 cells that are a piece letter or empty,
side to move, four castling flags, en-passant target `-` or a square, non-negative
half-move clock, positive full-move number), `parseFEN` applied to the standard six-field
notation of `p` with an empty board container returns exactly `p`. -/
theorem parseFEN_serialize (p : Position) (h : WellFormed p) :
    parseFEN (serialize p) [] = .ok p := by
  obtain ⟨hboard, hbsp, hbne⟩ := expandRows_boardField p.board h.cells h.pieces
  obtain ⟨a, b, c, d, hrights⟩ : ∃ a b c d, p.castlingRights = [a, b, c, d] := by
    have hlen := h.rights
    rcases hr : p.castlingRights with _ | ⟨a, _ | ⟨b, _ | ⟨c, _ | ⟨d, _ | ⟨e, t⟩⟩⟩⟩⟩ <;>
      simp [hr] at hlen
    exact ⟨a, b, c, d, rfl⟩
  obtain ⟨hcastle, hcsp, hcne⟩ := castlingField_decode a b c d
  have hside : ' ' ∉ (if p.whitesTurn then ['w'] else ['b'] : CppString) ∧
      (if p.whitesTurn then ['w'] else ['b'] : CppString) ≠ [] ∧
      decide ((if p.whitesTurn then ['w'] else ['b'] : CppString) = ['w']) = p.whitesTurn := by
    cases p.whitesTurn <;> decide
  have hep : ' ' ∉ p.enPassantTarget ∧ p.enPassantTarget ≠ [] := by
    rcases h.enPassant with hdash | ⟨file, rank, hf, h1, h8, ht⟩
    · rw [hdash]; decide
    · rw [ht]; exact squareName_chars file rank hf h1 h8
  obtain ⟨h4, h4sp, h4ne⟩ := stoi_to_string p.halfMoveClock h.halfMove.1 h.halfMove.2
  obtain ⟨h5, h5sp, h5ne⟩ := stoi_to_string p.fullMoveNumber (Int.le_of_lt h.fullMove.1)
    h.fullMove.2
  have hsplit : splitStringIntoParts (serialize p) ' '
      = [ joinWith '/' ((ranksOf 8 p.board).map (fun rank => encodeRank rank 0)),
          if p.whitesTurn then ['w'] else ['b'],
          castlingField p.castlingRights,
          p.enPassantTarget,
          to_string p.halfMoveClock,
          to_string p.fullMoveNumber ] := by
    apply split_joinWith
    intro part hpart
    simp only [List.mem_cons, List.mem_singleton, List.mem_nil_iff, or_false] at hpart
    rcases hpart with rfl | rfl | rfl | rfl | rfl | rfl
    · exact ⟨hbsp, hbne⟩
    · exact ⟨hside.1, hside.2.1⟩
    · rw [hrights]; exact ⟨hcsp, hcne⟩
    · exact hep
    · exact ⟨h4sp, h4ne⟩
    · exact ⟨h5sp, h5ne⟩
  rw [parseFEN_six (serialize p) [] _ _ _ _ _ _ _ _ hsplit h4 h5, hboard, hside.2.2, hrights,
    hcastle, ← hrights]

/-- Witness of C11: the position after `1. e4`, whose notation is
`rnbqkbnr/pppppppp/8/8/4P3/8/PPPP1PPP/RNBQKBNR b KQkq e3 0 1`. -/
theorem parseFEN_serialize_witness :
    serialize positionAfterE4
      = "rnbqkbnr/pppppppp/8/8/4P3/8/PPPP1PPP/RNBQKBNR b KQkq e3 0 1".toList ∧
    parseFEN "rnbqkbnr/pppppppp/8/8/4P3/8/PPPP1PPP/RNBQKBNR b KQkq e3 0 1".toList []
      = .ok positionAfterE4 :=
  have hwritten : serialize positionAfterE4
      = "rnbqkbnr/pppppppp/8/8/4P3/8/PPPP1PPP/RNBQKBNR b KQkq e3 0 1".toList := by decide
  ⟨hwritten,
   hwritten ▸ parseFEN_serialize positionAfterE4
    { cells := by decide
      pieces := cells_of_isCell positionAfterE4.board (by decide)
      rights := by decide
      enPassant := Or.inr ⟨4, 3, by decide, by decide, by decide, rfl⟩
      halfMove := by decide
      fullMove := by decide }⟩

/-! ## Facts about the position string of a response -/

theorem checkForFen_eq (line fen : CppString) (whitesTurn : Bool) :
    checkForFen line fen whitesTurn = .ok
      (if contains line "Fen: ".toList = true then
        (line.drop 5, !(contains (line.drop 5) ['w']))
      else (fen, whitesTurn)) := by
  unfold checkForFen
  cases hc : contains line "Fen: ".toList
  · simp
  · have hlen : 5 ≤ line.length := by
      have := (infix_of_contains line "Fen: ".toList hc).length_le
      simpa using this
    have hsub : substr line 5 line.length = .ok (line.drop 5) := by
      unfold substr
      rw [if_neg (by omega), List.take_of_length_le (by rw [List.length_drop]; omega)]
    simp only [if_true, hsub, bind_ok]

theorem lastFenFrom_eq (lines : List CppString) (current : CppString) :
    lastFenFrom lines current
      = match (lines.filter (fun line => contains line "Fen: ".toList)).getLast? with
        | some line => line.drop 5
        | none => current := by
  induction lines generalizing current with
  | nil => rfl
  | cons line lines ih =>
    rw [lastFenFrom, ih]
    by_cases hc : contains line "Fen: ".toList = true
    · rw [List.filter_cons, if_pos hc, if_pos hc]
      cases hrest : lines.filter (fun line => contains line "Fen: ".toList) with
      | nil => rfl
      | cons next rest =>
        obtain ⟨last, hlast⟩ : ∃ last, (next :: rest).getLast? = some last :=
          ⟨_, List.getLast?_eq_getLast _ (by simp)⟩
        rw [List.getLast?_cons_cons, hlast]
    · rw [List.filter_cons, if_neg hc, if_neg hc]

/-- The position string after the scanning loop. -/
theorem scanLines_fen (response : List CppString) (result : StockfishResponse)
    (whitesTurn : Bool) (scanned : StockfishResponse) (whitesTurn' : Bool)
    (h : scanLines response result whitesTurn = .ok (scanned, whitesTurn')) :
    scanned.fen = lastFenFrom response result.fen := by
  induction response generalizing result whitesTurn with
  | nil =>
    simp only [scanLines, Except.ok.injEq, Prod.mk.injEq] at h
    rw [← h.1]; rfl
  | cons line rest ih =>
    unfold scanLines at h
    cases hb : checkForBestMove line result.bestMove with
    | error e => simp [hb] at h
    | ok bestMove =>
      rw [hb, checkForLegalMoves_eq, checkForFen_eq] at h
      simp only [bind_ok] at h
      rw [lastFenFrom]
      by_cases hc : contains line "Fen: ".toList = true
      · rw [if_pos hc] at h
        exact (ih _ _ h).trans (by rw [hc]; rfl)
      · rw [if_neg hc] at h
        have hc' : contains line "Fen: ".toList = false := by simpa using hc
        exact (ih _ _ h).trans (by rw [hc']; rfl)

/-- The position string `extractResponse` returns. -/
theorem extractResponse_fen (whitesTurn : Bool) (response : List CppString)
    (result : StockfishResponse) (whitesTurn' : Bool)
    (h : extractResponse whitesTurn response = .ok (result, whitesTurn')) :
    result.fen = stripCarriageReturn (lastFenText response) := by
  unfold extractResponse at h
  cases hs : scanLines response {} whitesTurn with
  | error e => simp [hs] at h
  | ok val =>
    obtain ⟨scanned, flag⟩ := val
    have hfen : scanned.fen = lastFenText response := by
      rw [scanLines_fen _ _ _ _ _ hs, lastFenFrom_eq]; rfl
    simp only [hs, bind_ok] at h
    cases hx : extractFENDetails scanned.fen scanned.legalMoves with
    | error e => simp [hx] at h
    | ok augmented =>
      obtain ⟨moves, draw⟩ := augmented
      simp only [hx, bind_ok, Except.ok.injEq, Prod.mk.injEq] at h
      rw [← h.1, ← hfen]
      unfold stripCarriageReturn
      by_cases hcr : scanned.fen.getLast? = some (Char.ofNat 13)
      · have hne : scanned.fen ≠ [] := by
          intro hnil; rw [hnil] at hcr; cases hcr
        have hcond : (!scanned.fen.isEmpty && scanned.fen.getLast? == some '\r') = true := by
          have h1 : scanned.fen.isEmpty = false := by
            cases hf : scanned.fen with
            | nil => exact absurd hf hne
            | cons c cs => rfl
          rw [h1, hcr]; rfl
        rw [if_pos hcond, if_pos hcr]
      · have hcond : (!scanned.fen.isEmpty && scanned.fen.getLast? == some '\r') = false := by
          have : (scanned.fen.getLast? == some '\r') = false := by
            cases hb : scanned.fen.getLast? == some '\r'
            · rfl
            · exact absurd (by simpa using hb) hcr
          rw [this, Bool.and_false]
        rw [if_neg (by rw [hcond]; decide), if_neg hcr]

theorem lastFenText_labelled (before after : List CppString) (f : CppString)
    (hafter : ∀ line ∈ after, contains line "Fen: ".toList = false) :
    lastFenText (before ++ ["Fen: ".toList ++ f] ++ after) = f := by
  have hlabel : contains ("Fen: ".toList ++ f) "Fen: ".toList = true := by
    have := contains_middle [] "Fen: ".toList f
    simpa using this
  have hnone : after.filter (fun line => contains line "Fen: ".toList) = [] :=
    List.filter_eq_nil_iff.2 (fun line hl => by rw [hafter line hl]; decide)
  unfold lastFenText
  rw [List.filter_append, List.filter_append, hnone, List.append_nil, List.filter_cons,
    if_pos hlabel, List.filter_nil, List.getLast?_append, List.getLast?_singleton]
  rfl

/-- C21, as stated, fails: in `info Fen: 8/8/8/8/8/8/8/8 w - - 0 1` the text that follows
the label is the position, and `extractResponse` returns the line from its sixth character
on, which begins with the label itself. -/
theorem extractResponse_fen_offset :
    (extractResponse false ["info Fen: 8/8/8/8/8/8/8/8 w - - 0 1".toList]).map
        (fun r => r.1.fen) = .ok "Fen: 8/8/8/8/8/8/8/8 w - - 0 1".toList :=
  rfl

/-- C21, amended: whenever `extractResponse` returns, the position string is the text from
the sixth character on of the last line that contains the label `Fen: ` (empty when there
is no such line), with one trailing carriage return removed if present; when that line
begins with the label, this is the text that follows the label. -/
theorem extractResponse_position_string (whitesTurn : Bool) (response : List CppString)
    (result : StockfishResponse) (whitesTurn' : Bool)
    (h : extractResponse whitesTurn response = .ok (result, whitesTurn')) :
    result.fen = stripCarriageReturn (lastFenText response) ∧
    ∀ before after f, response = before ++ ["Fen: ".toList ++ f] ++ after →
      (∀ line ∈ after, contains line "Fen: ".toList = false) →
      result.fen = stripCarriageReturn f := by
  have hfen := extractResponse_fen whitesTurn response result whitesTurn' h
  refine ⟨hfen, ?_⟩
  intro before after f hresponse hafter
  rw [hfen, hresponse, lastFenText_labelled before after f hafter]

/-- Witness of C21, amended: the echoed position ends with a carriage return, which is
removed; the move line before it does not matter. -/
theorem extractResponse_position_string_witness :
    "7k/5Q2/6K1/8/8/8/8/8 b - - 0 1".toList
      = stripCarriageReturn (lastFenText
          ["info depth 1".toList, "Fen: 7k/5Q2/6K1/8/8/8/8/8 b - - 0 1\r".toList]) ∧
    "7k/5Q2/6K1/8/8/8/8/8 b - - 0 1".toList
      = stripCarriageReturn "7k/5Q2/6K1/8/8/8/8/8 b - - 0 1\r".toList :=
  have h := extractResponse_position_string false
    ["info depth 1".toList, "Fen: 7k/5Q2/6K1/8/8/8/8/8 b - - 0 1\r".toList]
    { bestMove := []
      legalMoves := []
      board := []
      fen := "7k/5Q2/6K1/8/8/8/8/8 b - - 0 1".toList
      isCheckmate := true
      drawOfferable := false }
    true rfl
  ⟨h.1, h.2 ["info depth 1".toList] [] "7k/5Q2/6K1/8/8/8/8/8 b - - 0 1\r".toList rfl
    (by intro line hl; cases hl)⟩

/-- A line without any of the six texts leaves the state of the scanning loop as it
is. -/
theorem scanLines_silent (response : List CppString) (result : StockfishResponse)
    (whitesTurn : Bool)
    (h : ∀ line ∈ response,
      contains line "bestmove".toList = false ∧ contains line ": 1".toList = false ∧
      contains line "Fen: ".toList = false ∧ contains line " +---+".toList = false ∧
      contains line " | ".toList = false ∧ contains line "   a".toList = false) :
    scanLines response result whitesTurn = .ok (result, whitesTurn) := by
  induction response with
  | nil => rfl
  | cons line rest ih =>
    obtain ⟨hbest, hone, hfen, hrow, hcell, hfoot⟩ := h line (by simp)
    have hrest := ih (fun l hl => h l (by simp [hl]))
    have hmoves : checkForLegalMoves whitesTurn line result.legalMoves
        = .ok result.legalMoves := by
      rw [checkForLegalMoves_eq, if_neg]
      rintro ⟨h1, -⟩
      rw [hone] at h1
      cases h1
    rw [scanLines]
    simp only [checkForBestMove, hbest, Bool.false_eq_true, if_false, bind_ok, hmoves,
      checkForBoardPart, hrow, hcell, hfoot, Bool.or_self, checkForFen, hfen]
    exact hrest

/-- C22: for every response, the empty one included, in which no line contains `bestmove`,
`: 1`, `Fen: `, ` +---+`, ` | ` or `   a`, `extractResponse` returns without error a
result whose best move, board, legal-move list (also after the castling and en-passant
passes on the fallback initial position) and position string are empty. The shared turn
flag stays as it is, and the checkmate flag of this result is set. -/
theorem extractResponse_silent (whitesTurn : Bool) (response : List CppString)
    (h : ∀ line ∈ response,
      contains line "bestmove".toList = false ∧ contains line ": 1".toList = false ∧
      contains line "Fen: ".toList = false ∧ contains line " +---+".toList = false ∧
      contains line " | ".toList = false ∧ contains line "   a".toList = false) :
    extractResponse whitesTurn response
      = .ok ({ bestMove := []
               legalMoves := []
               board := []
               fen := []
               isCheckmate := true
               drawOfferable := false }, whitesTurn) := by
  unfold extractResponse
  rw [scanLines_silent response {} whitesTurn h]
  rfl

/-- Witness of C22: the empty response and a response of two status lines. -/
theorem extractResponse_silent_witness :
    (extractResponse false []).map (fun r => r.1)
      = .ok { bestMove := [], legalMoves := [], board := [], fen := [],
              isCheckmate := true, drawOfferable := false } ∧
    (extractResponse false ["uciok".toList, "readyok".toList]).map (fun r => r.1)
      = .ok { bestMove := [], legalMoves := [], board := [], fen := [],
              isCheckmate := true, drawOfferable := false } :=
  ⟨congrArg (Except.map (fun r => r.1))
      (extractResponse_silent false [] (by intro line hl; cases hl)),
   congrArg (Except.map (fun r => r.1))
      (extractResponse_silent false ["uciok".toList, "readyok".toList] (by decide))⟩

/-! ## Facts about the castling pass -/

theorem castlingStep_new (legalMoves board : List CppString) (right white kingSide : Bool)
    (x : CppString) (hx : x ∈ castlingStep legalMoves board right white kingSide)
    (hnew : x ∉ legalMoves) :
    x = combinedCastlingMove white kingSide ∧ right = true ∧
      plainKingMove white kingSide ∈ legalMoves ∧
      ∀ file ∈ filesBetween kingSide, cellAt board file (homeRank white) = ['.'] := by
  rw [mem_castlingStep] at hx
  split at hx
  · rename_i hcond
    rcases hx with hx | hx
    · exact absurd hx.1 hnew
    · exact ⟨hx, hcond⟩
  · exact absurd hx hnew

theorem castlingStep_of_not (legalMoves board : List CppString) (right white kingSide : Bool)
    (h : ¬ (right = true ∧ plainKingMove white kingSide ∈ legalMoves ∧
      ∀ file ∈ filesBetween kingSide, cellAt board file (homeRank white) = ['.'])) :
    castlingStep legalMoves board right white kingSide = legalMoves := by
  unfold castlingStep
  rw [if_neg h]

theorem combinedCastlingMove_inj (white white' kingSide kingSide' : Bool)
    (h : combinedCastlingMove white kingSide = combinedCastlingMove white' kingSide') :
    white = white' ∧ kingSide = kingSide' := by
  revert h
  cases white <;> cases white' <;> cases kingSide <;> cases kingSide' <;> decide

theorem plainKingMove_ne (white kingSide : Bool) :
    plainKingMove white kingSide ≠ plainKingMove white (!kingSide) := by
  cases white <;> cases kingSide <;> decide

/-- A castling step does not change how often a move other than its plain and its combined
move occurs. -/
theorem castlingStep_count (legalMoves board : List CppString) (right white kingSide : Bool)
    (x : CppString) (h1 : x ≠ plainKingMove white kingSide)
    (h2 : x ≠ combinedCastlingMove white kingSide) :
    (castlingStep legalMoves board right white kingSide).count x = legalMoves.count x := by
  unfold castlingStep
  split
  · rw [List.count_append, removeStringFromVector, List.count_filter (by simpa using h1)]
    simp [List.count_cons, Ne.symm h2]
  · rfl

/-- The plain king move of the queen side is in the list after the king-side step exactly
when it was in the list before. -/
theorem queenSide_plain_after_kingSide (legalMoves board : List CppString)
    (right white : Bool) :
    plainKingMove white false ∈ castlingStep legalMoves board right white true ↔
      plainKingMove white false ∈ legalMoves := by
  constructor
  · intro h
    rcases castlingStep_subset _ _ _ _ _ _ h with h | h
    · exact h
    · exact absurd h (plain_ne_combined _ _ _)
  · intro h
    exact castlingStep_keeps _ _ _ _ _ _ h (by cases white <;> decide)

theorem castlingStep_of (legalMoves board : List CppString) (right white kingSide : Bool)
    (h : right = true ∧ plainKingMove white kingSide ∈ legalMoves ∧
      ∀ file ∈ filesBetween kingSide, cellAt board file (homeRank white) = ['.']) :
    castlingStep legalMoves board right white kingSide
      = removeStringFromVector legalMoves (plainKingMove white kingSide)
          ++ [combinedCastlingMove white kingSide] := by
  unfold castlingStep
  rw [if_pos h]

/-- The castling pass by the conditions of the two wings: the list as it is when neither
holds, one replacement when one holds, and both replacements, king side first, when both
hold. -/
theorem castlingResult_cases (legalMoves : List CppString) (p : Position) :
    (¬ CastlingConditions legalMoves p true → ¬ CastlingConditions legalMoves p false →
      castlingResult legalMoves p = legalMoves) ∧
    (CastlingConditions legalMoves p true → ¬ CastlingConditions legalMoves p false →
      castlingResult legalMoves p
        = removeStringFromVector legalMoves (plainKingMove p.whitesTurn true)
            ++ [combinedCastlingMove p.whitesTurn true]) ∧
    (¬ CastlingConditions legalMoves p true → CastlingConditions legalMoves p false →
      castlingResult legalMoves p
        = removeStringFromVector legalMoves (plainKingMove p.whitesTurn false)
            ++ [combinedCastlingMove p.whitesTurn false]) ∧
    (CastlingConditions legalMoves p true → CastlingConditions legalMoves p false →
      castlingResult legalMoves p
        = removeStringFromVector
            (removeStringFromVector legalMoves (plainKingMove p.whitesTurn true))
            (plainKingMove p.whitesTurn false)
          ++ [combinedCastlingMove p.whitesTurn true, combinedCastlingMove p.whitesTurn false]) := by
  have hq : ∀ (hfail : ¬ CastlingConditions legalMoves p false),
      ¬ (p.castlingRights.getD (castlingRightIndex p.whitesTurn false) false = true ∧
        plainKingMove p.whitesTurn false ∈ castlingStep legalMoves p.board
          (p.castlingRights.getD (castlingRightIndex p.whitesTurn true) false) p.whitesTurn true ∧
        ∀ file ∈ filesBetween false, cellAt p.board file (homeRank p.whitesTurn) = ['.']) :=
    fun hfail h => hfail ⟨h.1, (queenSide_plain_after_kingSide _ _ _ _).1 h.2.1, h.2.2⟩
  refine ⟨?_, ?_, ?_, ?_⟩
  · intro hk hqf
    unfold castlingResult
    simp only []
    rw [castlingStep_of_not _ _ _ _ _ (hq hqf)]
    exact castlingStep_of_not _ _ _ _ _ hk
  · intro hk hqf
    unfold castlingResult
    simp only []
    rw [castlingStep_of_not _ _ _ _ _ (hq hqf)]
    exact castlingStep_of _ _ _ _ _ hk
  · intro hk hqt
    unfold castlingResult
    simp only []
    rw [castlingStep_of_not legalMoves p.board _ p.whitesTurn true hk]
    exact castlingStep_of _ _ _ _ _ hqt
  · intro hk hqt
    unfold castlingResult
    simp only []
    rw [castlingStep_of _ _ _ _ _
      (⟨hqt.1, (queenSide_plain_after_kingSide _ _ _ _).2 hqt.2.1, hqt.2.2⟩ :
        p.castlingRights.getD (castlingRightIndex p.whitesTurn false) false = true ∧
        plainKingMove p.whitesTurn false ∈ castlingStep legalMoves p.board
          (p.castlingRights.getD (castlingRightIndex p.whitesTurn true) false) p.whitesTurn true ∧
        ∀ file ∈ filesBetween false, cellAt p.board file (homeRank p.whitesTurn) = ['.']),
      castlingStep_of legalMoves p.board _ p.whitesTurn true hk]
    have hne : combinedCastlingMove p.whitesTurn true ≠ plainKingMove p.whitesTurn false := by
      cases p.whitesTurn <;> decide
    simp [removeStringFromVector, List.filter_append, hne]

/-- C23, as stated, fails: in `8/8/8/8/8/8/8/RN2K2R w KQ - 0 1` the queen-side conditions
fail (a knight stands on b1), and the rest of the list is not left unchanged: the pass
turns `e1g1`, `a2a3`, `e1c1` into `a2a3`, `e1c1`, `e1g1|h1f1`, since the king-side step
replaces its plain king move. -/
theorem castling_pass_other_wing_changes_list :
    parseFEN "8/8/8/8/8/8/8/RN2K2R w KQ - 0 1".toList [] = .ok knightOnB1Position ∧
    ¬ CastlingConditions ["e1g1".toList, "a2a3".toList, "e1c1".toList]
        knightOnB1Position false ∧
    detectPossibleCastlingMoves "8/8/8/8/8/8/8/RN2K2R w KQ - 0 1".toList
        ["e1g1".toList, "a2a3".toList, "e1c1".toList] knightOnB1Position.board true
        [true, true, false, false]
      = .ok ["a2a3".toList, "e1c1".toList, "e1g1|h1f1".toList] ∧
    extractFENDetails "8/8/8/8/8/8/8/RN2K2R w KQ - 0 1".toList
        ["e1g1".toList, "a2a3".toList, "e1c1".toList]
      = .ok (["a2a3".toList, "e1c1".toList, "e1g1|h1f1".toList], false) :=
  ⟨rfl, fun h => absurd (h.2.2 1 (by decide)) (by decide), rfl, rfl⟩

/-- C23, amended: on a position of 64 cells the castling pass returns, and (1) a combined
castling move that was not in the list is in the result only if it belongs to the side to
move, the right of its wing is held, the plain king move of the wing was in the input list
and the squares strictly between king and rook are `.` on the board; (2) when one of these
fails for a wing, the plain king move of that wing occurs as often as before and its
combined move is not added, and the result is the input list as it is when the conditions
fail for the other wing too, and otherwise the input list without the plain king move of
the other wing, in order, followed by the combined move of the other wing. -/
theorem castling_pass_conditions (fen : CppString) (legalMoves : List CppString)
    (p : Position) (hp : parseFEN fen [] = .ok p) (hlen : p.board.length = 64) :
    ∃ out, detectPossibleCastlingMoves fen legalMoves p.board p.whitesTurn p.castlingRights
        = .ok out ∧
      (∀ white kingSide, combinedCastlingMove white kingSide ∈ out →
        combinedCastlingMove white kingSide ∉ legalMoves →
        white = p.whitesTurn ∧ CastlingConditions legalMoves p kingSide) ∧
      (∀ kingSide, ¬ CastlingConditions legalMoves p kingSide →
        out.count (plainKingMove p.whitesTurn kingSide)
            = legalMoves.count (plainKingMove p.whitesTurn kingSide) ∧
        (combinedCastlingMove p.whitesTurn kingSide ∈ out →
          combinedCastlingMove p.whitesTurn kingSide ∈ legalMoves) ∧
        (¬ CastlingConditions legalMoves p (!kingSide) → out = legalMoves) ∧
        (CastlingConditions legalMoves p (!kingSide) →
          out = legalMoves.filter (fun entry => entry ≠ plainKingMove p.whitesTurn (!kingSide))
            ++ [combinedCastlingMove p.whitesTurn (!kingSide)])) := by
  refine ⟨_, detectPossibleCastlingMoves_eq fen legalMoves p hlen
    (parseFEN_castlingRights _ _ _ hp), ?_, ?_⟩
  · intro white kingSide hx hnew
    unfold castlingResult at hx
    simp only [] at hx
    by_cases h1 : combinedCastlingMove white kingSide ∈ castlingStep legalMoves p.board
        (p.castlingRights.getD (castlingRightIndex p.whitesTurn true) false) p.whitesTurn true
    · obtain ⟨heq, hcond⟩ := castlingStep_new _ _ _ _ _ _ h1 hnew
      obtain ⟨rfl, rfl⟩ := combinedCastlingMove_inj _ _ _ _ heq
      exact ⟨rfl, hcond⟩
    · obtain ⟨heq, hr, hplain, hempty⟩ := castlingStep_new _ _ _ _ _ _ hx h1
      obtain ⟨rfl, rfl⟩ := combinedCastlingMove_inj _ _ _ _ heq
      exact ⟨rfl, hr, (queenSide_plain_after_kingSide _ _ _ _).1 hplain, hempty⟩
  · intro kingSide hfail
    obtain ⟨hnone, hking, hqueen, -⟩ := castlingResult_cases legalMoves p
    refine ⟨?_, ?_, ?_, ?_⟩
    · unfold castlingResult
      simp only []
      cases kingSide
      · have hfail' : ¬ (p.castlingRights.getD (castlingRightIndex p.whitesTurn false) false = true ∧
            plainKingMove p.whitesTurn false ∈ castlingStep legalMoves p.board
              (p.castlingRights.getD (castlingRightIndex p.whitesTurn true) false) p.whitesTurn true ∧
            ∀ file ∈ filesBetween false, cellAt p.board file (homeRank p.whitesTurn) = ['.']) :=
          fun h => hfail ⟨h.1, (queenSide_plain_after_kingSide _ _ _ _).1 h.2.1, h.2.2⟩
        rw [castlingStep_of_not _ _ _ _ _ hfail']
        exact castlingStep_count _ _ _ _ _ _ (plainKingMove_ne p.whitesTurn false)
          (plain_ne_combined _ _ _)
      · rw [castlingStep_of_not legalMoves p.board _ p.whitesTurn true hfail]
        exact castlingStep_count _ _ _ _ _ _ (plainKingMove_ne p.whitesTurn true)
          (plain_ne_combined _ _ _)
    · intro h
      unfold castlingResult at h
      simp only [] at h
      cases kingSide
      · have hfail' : ¬ (p.castlingRights.getD (castlingRightIndex p.whitesTurn false) false = true ∧
            plainKingMove p.whitesTurn false ∈ castlingStep legalMoves p.board
              (p.castlingRights.getD (castlingRightIndex p.whitesTurn true) false) p.whitesTurn true ∧
            ∀ file ∈ filesBetween false, cellAt p.board file (homeRank p.whitesTurn) = ['.']) :=
          fun h => hfail ⟨h.1, (queenSide_plain_after_kingSide _ _ _ _).1 h.2.1, h.2.2⟩
        rw [castlingStep_of_not _ _ _ _ _ hfail'] at h
        rcases castlingStep_subset _ _ _ _ _ _ h with h | h
        · exact h
        · exact absurd (combinedCastlingMove_inj _ _ _ _ h).2 (by decide)
      · rw [castlingStep_of_not legalMoves p.board _ p.whitesTurn true hfail] at h
        rcases castlingStep_subset _ _ _ _ _ _ h with h | h
        · exact h
        · exact absurd (combinedCastlingMove_inj _ _ _ _ h).2 (by decide)
    · intro hother
      cases kingSide
      · exact hnone hother hfail
      · exact hnone hfail hother
    · intro hother
      cases kingSide
      · exact hking hother hfail
      · exact hqueen hfail hother

/-- Witness of C23: in `8/8/8/8/8/8/8/RN2K2R w KQ - 0 1` with both plain king moves listed
the queen-side conditions fail (b1 is occupied), so `e1c1` stays once in the list and
`e1c1|a1d1` is not added; the king-side conditions hold, and the result is the list without
`e1g1` followed by `e1g1|h1f1`. -/
theorem castling_pass_conditions_witness :
    ∃ out, detectPossibleCastlingMoves "8/8/8/8/8/8/8/RN2K2R w KQ - 0 1".toList
        ["e1g1".toList, "a2a3".toList, "e1c1".toList] knightOnB1Position.board true
        [true, true, false, false]
        = .ok out ∧
      out.count "e1c1".toList = 1 ∧ "e1c1|a1d1".toList ∉ out ∧
      out = ["a2a3".toList, "e1c1".toList, "e1g1|h1f1".toList] := by
  obtain ⟨out, hout, -, h2⟩ := castling_pass_conditions
    "8/8/8/8/8/8/8/RN2K2R w KQ - 0 1".toList ["e1g1".toList, "a2a3".toList, "e1c1".toList]
    knightOnB1Position rfl (by decide)
  have hfail : ¬ CastlingConditions ["e1g1".toList, "a2a3".toList, "e1c1".toList]
      knightOnB1Position false := by
    intro h
    exact absurd (h.2.2 1 (by decide)) (by decide)
  have hking : CastlingConditions ["e1g1".toList, "a2a3".toList, "e1c1".toList]
      knightOnB1Position true := ⟨by decide, by decide, by decide⟩
  obtain ⟨hcount, hcombined, -, hother⟩ := h2 false hfail
  exact ⟨out, hout, hcount.trans (by decide), fun h => absurd (hcombined h) (by decide),
    (hother hking).trans (by decide)⟩

/-- C24, the code at the failing input: for White the king's row is 7 and
`isSquareUnderAttack` builds the square name from `row + 1`, so it looks for destinations on
rank 8. With `h2g1` in the negative set (destination g1, between king and rook, and empty
on the board) the castling move is synthesized all the same, and with `a8g8` (destination
g8) it is refused; for Black (row 0) the test looks at rank 1. -/
theorem attack_test_names_other_rank :
    cellAt whiteCastlingBoard 6 1 = whiteCastlingBoard.getD (7 * 8 + 6) [] ∧
    isSquareUnderAttack ["h2g1".toList] 7 6 = .ok false ∧
    isSquareUnderAttack ["a8g8".toList] 7 6 = .ok true ∧
    isSquareUnderAttack ["h2g1".toList] 0 6 = .ok true ∧
    addCastlingOptionIfPossible ["e1g1".toList] ["h2g1".toList] whiteCastlingBoard
        true true true "e1g1|h1f1".toList = .ok ["e1g1|h1f1".toList] ∧
    addCastlingOptionIfPossible ["e1g1".toList] ["a8g8".toList] whiteCastlingBoard
        true true true "e1g1|h1f1".toList = .ok ["e1g1".toList] :=
  ⟨rfl, rfl, rfl, rfl, rfl, rfl⟩

/-- C25, the code at the failing input: in `4k3/8/8/3PpP2/8/8/8/4K3 w - e6 0 1` white pawns
stand on d5 and f5, both diagonally behind the empty target e6. The en-passant pass
replaces `d5e6` by `d5e6-e5` and leaves `f5e6` as it is: the second origin is only looked
at when the first holds no pawn. -/
theorem enPassant_second_origin_skipped :
    (parseFEN "4k3/8/8/3PpP2/8/8/8/4K3 w - e6 0 1".toList []).map
        (fun p => (cellAt p.board 3 5, cellAt p.board 5 5, cellAt p.board 4 6))
      = .ok (['P'], ['P'], ['.']) ∧
    extractFENDetails "4k3/8/8/3PpP2/8/8/8/4K3 w - e6 0 1".toList
        ["d5d6".toList, "d5e6".toList, "f5e6".toList, "f5f6".toList]
      = .ok (["d5d6".toList, "f5e6".toList, "f5f6".toList, "d5e6-e5".toList], false) :=
  ⟨rfl, rfl⟩

/-- The en-passant pass for a target square that is not empty on the board. -/
theorem detectEnPassant_occupied (legalMoves board : List CppString) (file rank : Nat)
    (whitesTurn : Bool) (hlen : board.length = 64) (hf : file < 8)
    (h1 : 1 ≤ rank) (h8 : rank ≤ 8) (hcell : cellAt board file rank ≠ ['.']) :
    detectEnPassant legalMoves board (squareName file rank) whitesTurn = .ok legalMoves := by
  have hsub : substr (squareName file rank) 1 1 = .ok [Char.ofNat (48 + rank)] := by
    simp [substr, squareName]
  have htarget : at_ board ((8 - (rank : Int)) * 8 + (file : Int))
      = .ok (cellAt board file rank) :=
    at_cell board _ ((8 - rank) * 8 + file) (by push_cast [Nat.cast_sub (by omega : rank ≤ 8)]; ring)
      (by omega)
  have hlen2 : (squareName file rank).length = 2 := rfl
  have hget : (squareName file rank).getD 0 (Char.ofNat 0) = Char.ofNat (97 + file) := rfl
  unfold detectEnPassant
  simp only [squareName_ne_dash file rank, ne_eq, not_false_eq_true, decide_True,
    Bool.true_and, if_true, hlen2, hget, hsub, bind_ok, stoi_rank rank (by omega),
    findColumn_file file hf, htarget]
  rw [if_pos hcell]

/-- C26: on a board of 64 cells, when the en-passant target is `-` or names a square that
is not empty on the board, `detectEnPassant` leaves the legal-move list unchanged. -/
theorem detectEnPassant_unchanged (legalMoves board : List CppString)
    (enPassantTarget : CppString) (whitesTurn : Bool) (hlen : board.length = 64)
    (h : enPassantTarget = ['-'] ∨
      ∃ file rank, file < 8 ∧ 1 ≤ rank ∧ rank ≤ 8 ∧ enPassantTarget = squareName file rank ∧
        cellAt board file rank ≠ ['.']) :
    detectEnPassant legalMoves board enPassantTarget whitesTurn = .ok legalMoves := by
  rcases h with hdash | ⟨file, rank, hf, h1, h8, ht, hcell⟩
  · rw [hdash]
    exact detectEnPassant_dash legalMoves board whitesTurn
  · rw [ht]
    exact detectEnPassant_occupied legalMoves board file rank whitesTurn hlen hf h1 h8 hcell

/-- Witness of C26: the target `-`, and the target `e8` on which the black king stands. -/
theorem detectEnPassant_unchanged_witness :
    detectEnPassant ["e1e2".toList] initialBoard ['-'] true = .ok ["e1e2".toList] ∧
    detectEnPassant ["e1e2".toList] initialBoard "e8".toList true = .ok ["e1e2".toList] :=
  ⟨detectEnPassant_unchanged ["e1e2".toList] initialBoard ['-'] true (by decide) (Or.inl rfl),
   detectEnPassant_unchanged ["e1e2".toList] initialBoard "e8".toList true (by decide)
    (Or.inr ⟨4, 8, by decide, by decide, by decide, rfl, by decide⟩)⟩

/-! ## Facts about replacement -/

/-- Whatever the negative set and the board, a castling step that returns has left the
list as it was or has removed the first four characters of the castling move and appended
the castling move. -/
theorem addCastlingOption_cases (legalMoves negativeLegalMoves board : List CppString)
    (whitesTurn castlingAllowed firstCastlingCheck : Bool) (castlingMove : CppString)
    (out : List CppString)
    (h : addCastlingOptionIfPossible legalMoves negativeLegalMoves board whitesTurn
      castlingAllowed firstCastlingCheck castlingMove = .ok out) :
    out = legalMoves ∨
      out = removeStringFromVector legalMoves (castlingMove.take 4) ++ [castlingMove] := by
  unfold addCastlingOptionIfPossible at h
  simp only [] at h
  split at h
  · cases hk : isSquareUnderAttack negativeLegalMoves (if whitesTurn then 7 else 0) 4 with
    | error e => simp [hk] at h
    | ok attacked =>
      simp only [hk, bind_ok] at h
      cases attacked
      · simp only [Bool.false_eq_true, if_false] at h
        cases hc : castlingPathClear negativeLegalMoves board (if whitesTurn then 7 else 0)
            (List.range' (if firstCastlingCheck then 5 else 1)
              ((if firstCastlingCheck then 7 else 4) - (if firstCastlingCheck then 5 else 1))) with
        | error e => simp [hc] at h
        | ok clear =>
          simp only [hc, bind_ok] at h
          cases clear
          · simp only [Bool.false_eq_true, if_false, Except.ok.injEq] at h
            exact Or.inl h.symm
          · simp only [if_true, Except.ok.injEq] at h
            exact Or.inr h.symm
      · simp only [if_true, Except.ok.injEq] at h
        exact Or.inl h.symm
  · simp only [Except.ok.injEq] at h
    exact Or.inl h.symm

theorem replacedBy_of_eq (input : List CppString) (m s : CppString) (hne : s ≠ m) :
    ReplacedBy input m s (removeStringFromVector input m ++ [s]) := by
  refine ⟨?_, ?_, ?_⟩
  · intro h
    rcases (mem_remove_append _ _ _ _).1 h with h | h
    · exact h.2 rfl
    · exact hne h.symm
  · simp
  · rw [List.dropLast_concat]
    rfl

theorem combined_take_four (white kingSide : Bool) :
    (combinedCastlingMove white kingSide).take 4 = plainKingMove white kingSide := by
  cases white <;> cases kingSide <;> rfl

/-! ## Facts about the engine session -/

/-- Dropping the fraction of half a non-negative integer. -/
theorem truncateToInt_half (s : Int) (h0 : 0 ≤ s) :
    truncateToInt ((s : ℚ) / 2) = s / 2 := by
  have hq : (0 : ℚ) ≤ (s : ℚ) / 2 := by
    have : (0 : ℚ) ≤ (s : ℚ) := by exact_mod_cast h0
    positivity
  have hnum : 0 ≤ ((s : ℚ) / 2).num := Rat.num_nonneg.2 hq
  unfold truncateToInt
  rw [Int.tdiv_eq_ediv hnum (by positivity), ← Rat.floor_def]
  have := Rat.floor_intCast_div_natCast s 2
  simpa using this

/-- The depth for a skill level in the range in which the single-precision product is
exact. -/
theorem searchDepth_eq (roundToFloat : ℚ → ℚ) (hround : RoundsExactly roundToFloat)
    (s : Int) (h0 : 0 ≤ s) (hmax : s ≤ 2 ^ 24) :
    searchDepth roundToFloat s = max 1 (s / 2) := by
  have habs : s.natAbs ≤ 2 ^ 24 := by omega
  have hconv : roundToFloat (s : ℚ) = (s : ℚ) := by
    have := hround s 0 habs (by decide)
    simpa using this
  have hprod : roundToFloat ((1 / 2 : ℚ) * (s : ℚ)) = (s : ℚ) / 2 := by
    have := hround s 1 habs (by decide)
    have heq : (1 / 2 : ℚ) * (s : ℚ) = (s : ℚ) / 2 ^ 1 := by ring
    rw [heq, this]
    norm_num
  unfold searchDepth
  simp only [hconv, hprod, truncateToInt_half s h0]
  by_cases h : s / 2 < 1
  · rw [if_pos h, max_eq_left (by omega)]
  · rw [if_neg h, max_eq_right (by omega)]

/-- The operations of `getStockfishResults` on the pipes and the lines it returns. -/
theorem getStockfishResults_eq (session : Session) (command : CppString) :
    (getStockfishResults session command).2.log
      = session.log ++
        [ .wrote (command ++ ['\n']), .read (session.pending.headD []),
          .wrote ("uci\n".toList ++ ['\n']), .read ((session.pending.drop 1).headD []),
          .wrote ("isready\n".toList ++ ['\n']), .read ((session.pending.drop 2).headD []),
          .wrote ("d\n".toList ++ ['\n']), .read ((session.pending.drop 3).headD []) ] ∧
    (getStockfishResults session command).1
      = session.pending.headD [] ++ (session.pending.drop 1).headD []
          ++ (session.pending.drop 2).headD [] ++ (session.pending.drop 3).headD [] ∧
    (getStockfishResults session command).2.pending = session.pending.drop 4 := by
  obtain ⟨lockTaken, pipes, children, log, pending⟩ := session
  rcases pending with _ | ⟨a, _ | ⟨b, _ | ⟨c, _ | ⟨d, rest⟩⟩⟩⟩ <;>
    simp [getStockfishResults, sendStockfishCommand, readStockfishOutput]

/-- C28: for every skill level `s` with `0 ≤ s ≤ 2 ^ 24`, where the conversion of `s` to
single precision and the product `0.5f * s` are exact, the depth that `requestStockfish`
computes is `max 1 (s / 2)` (the quotient rounded down), and this is the number at the end
of the `go depth` command it writes first after the start-up. -/
theorem requestStockfish_depth (host : Host) (roundToFloat : ℚ → ℚ)
    (hround : RoundsExactly roundToFloat) (session : Session) (s : Int) (fen : CppString)
    (h0 : 0 ≤ s) (hmax : s ≤ 2 ^ 24) :
    searchDepth roundToFloat s = max 1 (s / 2) ∧
    ((requestStockfish host roundToFloat session s fen).2.log.drop
        (startStockfish host session s).log.length).head?
      = some (.wrote ("position fen ".toList ++ fen ++ "\n".toList ++ "go perft 1".toList
          ++ "\n".toList ++ "go depth ".toList ++ to_string (max 1 (s / 2)) ++ ['\n'])) := by
  have hdepth := searchDepth_eq roundToFloat hround s h0 hmax
  refine ⟨hdepth, ?_⟩
  unfold requestStockfish
  simp only []
  rw [(getStockfishResults_eq _ _).1, List.drop_left, hdepth]
  rfl

/-- Witness of C28: skill levels 20, 1 and 0, with the identity as rounding. -/
theorem requestStockfish_depth_witness :
    searchDepth id 20 = 10 ∧ searchDepth id 1 = 1 ∧ searchDepth id 0 = 1 :=
  ⟨(requestStockfish_depth ⟨true, true, true⟩ id (fun _ _ _ _ => rfl) ⟨false, 0, 0, [], []⟩ 20
      [] (by decide) (by decide)).1.trans (by decide),
   (requestStockfish_depth ⟨true, true, true⟩ id (fun _ _ _ _ => rfl) ⟨false, 0, 0, [], []⟩ 1
      [] (by decide) (by decide)).1.trans (by decide),
   (requestStockfish_depth ⟨true, true, true⟩ id (fun _ _ _ _ => rfl) ⟨false, 0, 0, [], []⟩ 0
      [] (by decide) (by decide)).1.trans (by decide)⟩

/-- C29: for every skill level and position string, what `requestStockfish` does on the
pipes after the start-up is, in this order: it writes `position fen `, the position,
`go perft 1` and `go depth ` with the computed depth, separated by newlines, and reads;
writes `uci` and reads; writes `isready` and reads; writes `d` and reads. Every write ends
with a newline (the last three with two, one from the command text and one added by
`sendStockfishCommand`), and the lines returned are those of the four reads in the same
order. -/
theorem requestStockfish_order (host : Host) (roundToFloat : ℚ → ℚ) (session : Session)
    (skillLevel : Int) (fen : CppString) :
    (requestStockfish host roundToFloat session skillLevel fen).2.log
      = (startStockfish host session skillLevel).log ++
        [ .wrote ("position fen ".toList ++ fen ++ "\n".toList ++ "go perft 1".toList
            ++ "\n".toList ++ "go depth ".toList
            ++ to_string (searchDepth roundToFloat skillLevel) ++ "\n".toList),
          .read ((startStockfish host session skillLevel).pending.headD []),
          .wrote "uci\n\n".toList,
          .read (((startStockfish host session skillLevel).pending.drop 1).headD []),
          .wrote "isready\n\n".toList,
          .read (((startStockfish host session skillLevel).pending.drop 2).headD []),
          .wrote "d\n\n".toList,
          .read (((startStockfish host session skillLevel).pending.drop 3).headD []) ] ∧
    (requestStockfish host roundToFloat session skillLevel fen).1
      = (startStockfish host session skillLevel).pending.headD []
        ++ ((startStockfish host session skillLevel).pending.drop 1).headD []
        ++ ((startStockfish host session skillLevel).pending.drop 2).headD []
        ++ ((startStockfish host session skillLevel).pending.drop 3).headD [] := by
  unfold requestStockfish
  simp only []
  exact ⟨(getStockfishResults_eq _ _).1, (getStockfishResults_eq _ _).2.1⟩

/-- The start is without effect when the engine is reported as running. -/
theorem startStockfish_running (host : Host) (session : Session) (skillLevel : Int)
    (h : (isStockfishAlreadyRunning host session).1 = true) :
    startStockfish host session skillLevel = session := by
  unfold startStockfish
  unfold isStockfishAlreadyRunning at h ⊢
  by_cases h1 : (!host.lockFileOpens) = true
  · simp [h1]
  · by_cases h2 : session.lockTaken = true
    · simp [h1, h2]
    · simp [h1, h2] at h

/-- After a start that obtained the lock, the lock is taken. -/
theorem startStockfish_lockTaken (host : Host) (session : Session) (skillLevel : Int)
    (h : (isStockfishAlreadyRunning host session).1 = false) :
    (startStockfish host session skillLevel).lockTaken = true := by
  unfold isStockfishAlreadyRunning at h
  unfold startStockfish isStockfishAlreadyRunning
  by_cases h1 : (!host.lockFileOpens) = true
  · simp [h1] at h
  · by_cases h2 : session.lockTaken = true
    · simp [h1, h2] at h
    · cases hp : host.pipesCreated <;> cases hc : host.childSpawned <;>
        simp [h1, h2, sendStockfishCommand]

/-- C30: on the explicit session state, `startStockfish` is without effect whenever
`isStockfishAlreadyRunning` reports true: the state stays as it is, so no pipe is created,
no child spawned and no configuration command written. After a start that obtained the
lock, every later start reports true, whatever the host answers, and leaves the state as
it is, so its skill level is not written to the engine. -/
theorem startStockfish_noop (host : Host) (session : Session) (skillLevel : Int) :
    ((isStockfishAlreadyRunning host session).1 = true →
      startStockfish host session skillLevel = session) ∧
    ((isStockfishAlreadyRunning host session).1 = false →
      ∀ (later : Host) (laterSkillLevel : Int),
        (isStockfishAlreadyRunning later (startStockfish host session skillLevel)).1 = true ∧
        startStockfish later (startStockfish host session skillLevel) laterSkillLevel
          = startStockfish host session skillLevel) := by
  refine ⟨startStockfish_running host session skillLevel, ?_⟩
  intro h later laterSkillLevel
  have hlock := startStockfish_lockTaken host session skillLevel h
  have hrunning :
      (isStockfishAlreadyRunning later (startStockfish host session skillLevel)).1 = true := by
    unfold isStockfishAlreadyRunning
    cases later.lockFileOpens <;> simp [hlock]
  exact ⟨hrunning, startStockfish_running _ _ _ hrunning⟩

/-- Witness of C30: a first start at skill level 5 writes the two configuration commands;
a second start at skill level 20 changes nothing. -/
theorem startStockfish_noop_witness :
    (startStockfish ⟨true, true, true⟩ ⟨false, 0, 0, [], []⟩ 5).log
      = [ .wrote "setoption name Threads value 2\n\n".toList,
          .wrote "setoption name Skill Level value 5\n\n".toList ] ∧
    startStockfish ⟨true, true, true⟩
        (startStockfish ⟨true, true, true⟩ ⟨false, 0, 0, [], []⟩ 5) 20
      = startStockfish ⟨true, true, true⟩ ⟨false, 0, 0, [], []⟩ 5 :=
  ⟨by decide,
   ((startStockfish_noop ⟨true, true, true⟩ ⟨false, 0, 0, [], []⟩ 5).2 rfl
      ⟨true, true, true⟩ 20).2⟩

/-! ## Facts about field names -/

theorem convertIndex_eq (n : Nat) (h : n < 64) :
    ConvertIndexToFieldName (n : Int) = .ok (squareName (n % 8) (8 - n / 8)) := by
  interval_cases n <;> rfl

theorem convertIndex_decode (n : Nat) (h : n < 64) :
    indexOfFieldName (squareName (n % 8) (8 - n / 8)) = n := by
  interval_cases n <;> rfl

theorem cellAt_index (board : List CppString) (n : Nat) (h : n < 64) :
    cellAt board (n % 8) (8 - n / 8) = board.getD n [] := by
  interval_cases n <;> rfl

/-- C33: for every board index `i` with `0 ≤ i ≤ 63`, `ConvertIndexToFieldName i` returns
the file letter number `i mod 8` of `a` to `h` followed by the rank `8 - i div 8`; this is
the name of the square whose cell stands at index `i` of the board that `parseFEN` fills
(rank 8 first, file `a` first); and no other index of `0 .. 63` has the same name. -/
theorem ConvertIndexToFieldName_standard (i : Int) (h0 : 0 ≤ i) (h63 : i ≤ 63) :
    ConvertIndexToFieldName i = .ok (squareName (i.toNat % 8) (8 - i.toNat / 8)) ∧
    i.toNat % 8 < 8 ∧ 1 ≤ 8 - i.toNat / 8 ∧ 8 - i.toNat / 8 ≤ 8 ∧
    (∀ board : List CppString,
      cellAt board (i.toNat % 8) (8 - i.toNat / 8) = board.getD i.toNat []) ∧
    (∀ j : Int, 0 ≤ j → j ≤ 63 → ConvertIndexToFieldName j = ConvertIndexToFieldName i →
      j = i) := by
  obtain ⟨n, rfl⟩ := Int.eq_ofNat_of_zero_le h0
  have hn : n < 64 := by omega
  rw [Int.toNat_ofNat]
  refine ⟨convertIndex_eq n hn, by omega, by omega, by omega,
    fun board => cellAt_index board n hn, ?_⟩
  intro j hj0 hj63 hj
  obtain ⟨m, rfl⟩ := Int.eq_ofNat_of_zero_le hj0
  have hm : m < 64 := by omega
  rw [convertIndex_eq n hn, convertIndex_eq m hm] at hj
  have hname := congrArg indexOfFieldName (Except.ok.inj hj)
  rw [convertIndex_decode n hn, convertIndex_decode m hm] at hname
  rw [hname]

/-- Witness of C33: index 0 is `a8`, index 63 is `h1`, index 36 is `e4`; in the initial
position the cell at index 60 holds the white king, which stands on `e1`. -/
theorem ConvertIndexToFieldName_standard_witness :
    ConvertIndexToFieldName 0 = .ok "a8".toList ∧
    ConvertIndexToFieldName 63 = .ok "h1".toList ∧
    ConvertIndexToFieldName 36 = .ok "e4".toList ∧
    ConvertIndexToFieldName 60 = .ok "e1".toList ∧
    (parseFEN defaultFEN []).map (fun p => p.board.getD 60 []) = .ok ['K'] :=
  ⟨(ConvertIndexToFieldName_standard 0 (by decide) (by decide)).1,
   (ConvertIndexToFieldName_standard 63 (by decide) (by decide)).1,
   (ConvertIndexToFieldName_standard 36 (by decide) (by decide)).1,
   (ConvertIndexToFieldName_standard 60 (by decide) (by decide)).1,
   rfl⟩

/-! ## Facts about the last claims on the scanner -/

/-- C35, the code at the failing inputs: on the line `bestmove` (eight characters) the
read of `line[13]` lies outside the line, and `substr(9, 4)` on it throws
`std::out_of_range`; on `bestmove e2e` (twelve characters) the read of `line[13]` lies
outside the line as well. `checkForBestMove` does not return on either line, and
`extractResponse` does not return on a response that holds one of them. A line of
thirteen characters is the shortest on which it returns. -/
theorem checkForBestMove_short_line :
    contains "bestmove".toList "bestmove".toList = true ∧
    charAt "bestmove".toList 13 = .error .undefinedBehaviour ∧
    substr "bestmove".toList 9 4 = .error .outOfRange ∧
    checkForBestMove "bestmove".toList [] = .error .undefinedBehaviour ∧
    checkForBestMove "bestmove e2e".toList [] = .error .undefinedBehaviour ∧
    extractResponse false ["bestmove".toList] = .error .undefinedBehaviour ∧
    checkForBestMove "bestmove e2e4".toList [] = .ok "e2e4".toList :=
  ⟨rfl, rfl, rfl, rfl, rfl, rfl, rfl⟩

/-- C34, the code at the failing input: the response echoes the position
`r7/r6K/8/5Pp1/6nn/8/8/1k6 w - g6 0 1` and lists no move. The result of `extractResponse`
has `isCheckmate` true and the legal-move list `f5g6-g5`: the en-passant pass appends the
annotated capture for the pawn on f5 without looking whether the plain capture was in the
list. The castling pass alone leaves an empty list empty. -/
theorem checkmate_with_appended_move :
    (extractResponse false ["bestmove (none)".toList, "Fen: ".toList ++ fenMatedWithTarget]).map
        (fun r => (r.1.isCheckmate, r.1.legalMoves))
      = .ok (true, ["f5g6-g5".toList]) ∧
    (parseFEN fenMatedWithTarget []).bind
        (fun p => detectPossibleCastlingMoves fenMatedWithTarget [] p.board p.whitesTurn
          p.castlingRights) = .ok [] ∧
    extractFENDetails fenMatedWithTarget [] = .ok (["f5g6-g5".toList], false) :=
  ⟨rfl, rfl, rfl⟩

/-- C32, the code at the failing input: for the position after `1. e4` with Black to move,
`buildNegativeLegalMoves` looks for the first `b` of the position string, which is the
bishop on c8 at position 2, and overwrites it by `w`: the engine is asked about
`rnwqkbnr/... b KQkq e3 0 1`, with the board field changed and Black still to move. For
the initial position with White to move the side field is flipped and nothing else. -/
theorem negative_fen_overwrites_bishop (engine : Int → CppString → List CppString)
    (flag : Bool) :
    find ['b'] fenAfterE4 = some 2 ∧
    setAt fenAfterE4 2 'w'
      = .ok "rnwqkbnr/pppppppp/8/8/4P3/8/PPPP1PPP/RNBQKBNR b KQkq e3 0 1".toList ∧
    buildNegativeLegalMoves engine flag fenAfterE4 false
      = (extractResponse flag
          (engine 1 "rnwqkbnr/pppppppp/8/8/4P3/8/PPPP1PPP/RNBQKBNR b KQkq e3 0 1".toList)).bind
          (fun r => .ok (r.1.legalMoves, r.2)) ∧
    buildNegativeLegalMoves engine flag defaultFEN true
      = (extractResponse flag
          (engine 1 "rnbqkbnr/pppppppp/8/8/8/8/PPPPPPPP/RNBQKBNR b KQkq - 0 1".toList)).bind
          (fun r => .ok (r.1.legalMoves, r.2)) :=
  ⟨rfl, rfl, rfl, rfl⟩

/-! ## Facts about the letters of a position string -/

theorem encodeRank_mem (cells : List CppString) (run : Nat)
    (hcells : ∀ cell ∈ cells, cell = ['.'] ∨ ∃ c, isPieceLetter c = true ∧ cell = [c])
    (hlen : run + cells.length ≤ 9) :
    ∀ c ∈ encodeRank cells run, isdigit c = true ∨ isPieceLetter c = true := by
  have hdigit : ∀ k, 1 ≤ k → k ≤ 9 → isdigit (Char.ofNat (48 + k)) = true := by
    intro k h1 h9
    interval_cases k <;> rfl
  induction cells generalizing run with
  | nil =>
    intro c hc
    by_cases h0 : run = 0
    · simp [encodeRank, h0] at hc
    · simp only [encodeRank, h0, if_false, List.mem_singleton] at hc
      subst hc
      exact Or.inl (hdigit run (by omega) (by simpa using hlen))
  | cons cell cells ih =>
    have hrest : ∀ x ∈ cells, x = ['.'] ∨ ∃ c, isPieceLetter c = true ∧ x = [c] :=
      fun x hx => hcells x (by simp [hx])
    have hlen' : run + cells.length + 1 ≤ 9 := by simpa [Nat.add_assoc] using hlen
    intro c hc
    rcases hcells cell (by simp) with hdot | ⟨d, hd, hcell⟩
    · subst hdot
      rw [encodeRank, if_pos rfl] at hc
      exact ih (run + 1) hrest (by omega) c hc
    · subst hcell
      obtain ⟨-, hne, -, -⟩ := pieceLetter_cases d hd
      have hne' : ([d] : CppString) ≠ ['.'] := by simpa using hne
      rw [encodeRank, if_neg hne'] at hc
      simp only [List.mem_append, List.mem_singleton] at hc
      rcases hc with (hc | hc) | hc
      · by_cases h0 : run = 0
        · simp [h0] at hc
        · simp only [h0, if_false, List.mem_singleton] at hc
          subst hc
          exact Or.inl (hdigit run (by omega) (by omega))
      · subst hc
        exact Or.inr hd
      · exact ih 0 hrest (by omega) c hc

theorem boardField_mem (board : List CppString) (hlen : board.length = 64)
    (hcells : ∀ cell ∈ board, cell = ['.'] ∨ ∃ c, isPieceLetter c = true ∧ cell = [c]) :
    ∀ c ∈ joinWith '/' ((ranksOf 8 board).map (fun rank => encodeRank rank 0)),
      c = '/' ∨ isdigit c = true ∨ isPieceLetter c = true := by
  intro c hc
  rcases mem_joinWith _ _ _ hc with h | ⟨part, hpart, hmem⟩
  · exact Or.inl h
  · obtain ⟨rank, hrank, rfl⟩ := List.mem_map.1 hpart
    obtain ⟨hlen8, hsub⟩ := ranksOf_mem 8 board (by omega) rank hrank
    exact Or.inr (encodeRank_mem rank 0 (fun cell hcell => hcells cell (hsub cell hcell))
      (by omega) c hmem)

theorem to_string_digits (v : Int) (h0 : 0 ≤ v) : ∀ c ∈ to_string v, isdigit c = true := by
  obtain ⟨l, hl, -, hdigits, -⟩ := toDigitsCore_spec (v.natAbs + 1) v.natAbs [] (by omega)
  have hts : to_string v = l := by
    unfold to_string
    rw [if_neg (by omega), Nat.toDigits, hl, List.append_nil]
  rw [hts]
  exact hdigits

theorem count_joinWith_six (c separator : Char) (hne : separator ≠ c)
    (a b d e f g : CppString) :
    (joinWith separator [a, b, d, e, f, g]).count c
      = a.count c + b.count c + d.count c + e.count c + f.count c + g.count c := by
  have hsep : (separator == c) = false := by simpa using hne
  simp only [joinWith, List.count_append, List.count_cons, hsep]
  simp
  omega

theorem split_serialize (p : Position) (h : WellFormed p) :
    splitStringIntoParts (serialize p) ' '
      = [ joinWith '/' ((ranksOf 8 p.board).map (fun rank => encodeRank rank 0)),
          if p.whitesTurn then ['w'] else ['b'],
          castlingField p.castlingRights,
          p.enPassantTarget,
          to_string p.halfMoveClock,
          to_string p.fullMoveNumber ] := by
  obtain ⟨-, hbsp, hbne⟩ := expandRows_boardField p.board h.cells h.pieces
  obtain ⟨a, b, c, d, hrights⟩ : ∃ a b c d, p.castlingRights = [a, b, c, d] := by
    have hlen := h.rights
    rcases hr : p.castlingRights with _ | ⟨a, _ | ⟨b, _ | ⟨c, _ | ⟨d, _ | ⟨e, t⟩⟩⟩⟩⟩ <;>
      simp [hr] at hlen
    exact ⟨a, b, c, d, rfl⟩
  obtain ⟨-, hcsp, hcne⟩ := castlingField_decode a b c d
  have hside : ' ' ∉ (if p.whitesTurn then ['w'] else ['b'] : CppString) ∧
      (if p.whitesTurn then ['w'] else ['b'] : CppString) ≠ [] := by
    cases p.whitesTurn <;> decide
  have hep : ' ' ∉ p.enPassantTarget ∧ p.enPassantTarget ≠ [] := by
    rcases h.enPassant with hdash | ⟨file, rank, hf, h1, h8, ht⟩
    · rw [hdash]; decide
    · rw [ht]; exact squareName_chars file rank hf h1 h8
  obtain ⟨-, h4sp, h4ne⟩ := stoi_to_string p.halfMoveClock h.halfMove.1 h.halfMove.2
  obtain ⟨-, h5sp, h5ne⟩ := stoi_to_string p.fullMoveNumber (Int.le_of_lt h.fullMove.1)
    h.fullMove.2
  apply split_joinWith
  intro part hpart
  simp only [List.mem_cons, List.mem_singleton, List.mem_nil_iff, or_false] at hpart
  rcases hpart with rfl | rfl | rfl | rfl | rfl | rfl
  · exact ⟨hbsp, hbne⟩
  · exact hside
  · rw [hrights]; exact ⟨hcsp, hcne⟩
  · exact hep
  · exact ⟨h4sp, h4ne⟩
  · exact ⟨h5sp, h5ne⟩

theorem serialize_count_w (p : Position) (h : WellFormed p) :
    (serialize p).count 'w' = if p.whitesTurn then 1 else 0 := by
  have hboard : (joinWith '/' ((ranksOf 8 p.board).map (fun rank => encodeRank rank 0))).count
      'w' = 0 := by
    rw [List.count_eq_zero]
    intro hmem
    rcases boardField_mem p.board h.cells h.pieces 'w' hmem with h1 | h1 | h1
    · exact absurd h1 (by decide)
    · exact absurd h1 (by decide)
    · exact absurd h1 (by decide)
  have hcastle : (castlingField p.castlingRights).count 'w' = 0 := by
    have hlen := h.rights
    rcases hr : p.castlingRights with _ | ⟨a, _ | ⟨b, _ | ⟨c, _ | ⟨d, _ | ⟨e, t⟩⟩⟩⟩⟩ <;>
      simp [hr] at hlen
    cases a <;> cases b <;> cases c <;> cases d <;> decide
  have hep : p.enPassantTarget.count 'w' = 0 := by
    rcases h.enPassant with hdash | ⟨file, rank, hf, h1, h8, ht⟩
    · rw [hdash]; decide
    · rw [ht]
      interval_cases file <;> interval_cases rank <;> decide
  have hhalf : (to_string p.halfMoveClock).count 'w' = 0 := by
    rw [List.count_eq_zero]
    intro hmem
    exact absurd (to_string_digits _ h.halfMove.1 'w' hmem) (by decide)
  have hfull : (to_string p.fullMoveNumber).count 'w' = 0 := by
    rw [List.count_eq_zero]
    intro hmem
    exact absurd (to_string_digits _ (Int.le_of_lt h.fullMove.1) 'w' hmem) (by decide)
  unfold serialize
  rw [count_joinWith_six 'w' ' ' (by decide), hboard, hcastle, hep, hhalf, hfull]
  cases p.whitesTurn <;> rfl

/-- C31: for every well-formed position `p` and the line made of the label `Fen: ` and the
six-field notation of `p`, `checkForFen` returns the notation as position string and sets
the shared turn flag to true if and only if the side-to-move field (the second field) is
`b`; the letter `w` occurs in the notation once when White is to move and not at all when
Black is. -/
theorem checkForFen_turn_flag (p : Position) (h : WellFormed p) (fen : CppString)
    (whitesTurn : Bool) :
    (splitStringIntoParts (serialize p) ' ').length = 6 ∧
    (serialize p).count 'w' = (if p.whitesTurn then 1 else 0) ∧
    ∃ flag, checkForFen ("Fen: ".toList ++ serialize p) fen whitesTurn
        = .ok (serialize p, flag) ∧
      (flag = true ↔ (splitStringIntoParts (serialize p) ' ').getD 1 [] = ['b']) := by
  have hsplit := split_serialize p h
  have hcount := serialize_count_w p h
  refine ⟨by rw [hsplit]; rfl, hcount, !p.whitesTurn, ?_, ?_⟩
  · have hlabel : contains ("Fen: ".toList ++ serialize p) "Fen: ".toList = true := by
      have := contains_middle [] "Fen: ".toList (serialize p)
      rwa [List.nil_append] at this
    have hdrop : ("Fen: ".toList ++ serialize p).drop 5 = serialize p := rfl
    have hw : contains (serialize p) ['w'] = p.whitesTurn := by
      rw [contains_singleton]
      cases hturn : p.whitesTurn
      · rw [hturn] at hcount
        have : 'w' ∉ serialize p := List.count_eq_zero.1 hcount
        simpa using this
      · rw [hturn] at hcount
        have : 'w' ∈ serialize p := List.count_pos_iff.1 (by rw [hcount]; decide)
        simpa using this
    rw [checkForFen_eq, if_pos hlabel, hdrop, hw]
  · rw [hsplit]
    cases p.whitesTurn <;> simp

/-- Witness of C31: the position after `1. e4` (Black to move) sets the flag, the initial
position (White to move) clears it. -/
theorem checkForFen_turn_flag_witness :
    (∃ flag, checkForFen ("Fen: ".toList ++ serialize positionAfterE4) [] false
        = .ok (serialize positionAfterE4, flag) ∧
      (flag = true ↔
        (splitStringIntoParts (serialize positionAfterE4) ' ').getD 1 [] = ['b'])) ∧
    checkForFen "Fen: rnbqkbnr/pppppppp/8/8/4P3/8/PPPP1PPP/RNBQKBNR b KQkq e3 0 1".toList
        [] false
      = .ok ("rnbqkbnr/pppppppp/8/8/4P3/8/PPPP1PPP/RNBQKBNR b KQkq e3 0 1".toList, true) ∧
    checkForFen ("Fen: ".toList ++ defaultFEN) [] true = .ok (defaultFEN, false) :=
  ⟨(checkForFen_turn_flag positionAfterE4
      { cells := by decide
        pieces := cells_of_isCell positionAfterE4.board (by decide)
        rights := by decide
        enPassant := Or.inr ⟨4, 3, by decide, by decide, by decide, rfl⟩
        halfMove := by decide
        fullMove := by decide } [] false).2.2,
   rfl, rfl⟩

/-! ## Facts about the board accesses of the passes -/

theorem at_range {α : Type} (vec : List α) (i : Int) :
    (∃ x, at_ vec i = .ok x) ↔ 0 ≤ i ∧ i < vec.length := by
  unfold at_
  by_cases hneg : i < 0
  · rw [if_pos hneg]
    constructor
    · rintro ⟨x, hx⟩
      cases hx
    · intro h
      omega
  · rw [if_neg hneg]
    cases hget : vec.get? i.toNat with
    | none =>
      have hlen : vec.length ≤ i.toNat := List.get?_eq_none.1 hget
      constructor
      · rintro ⟨x, hx⟩
        cases hx
      · intro h
        omega
    | some x =>
      have hlen : i.toNat < vec.length := (List.get?_eq_some.1 hget).1
      constructor
      · intro _
        omega
      · intro _
        exact ⟨x, rfl⟩

/-- C36: for every position string of six fields whose board field describes 64 cells,
whose clocks are integers and whose en-passant field is `-` or a square with file `a` to
`h` on rank 3 or 6, and for every legal-move list: the board that the passes read has 64
cells, a read of the board at an index outside `0 .. 63` is a fault of the model, and
`extractFENDetails` returns without a fault; so every board access of the castling and
en-passant passes uses an index in `0 .. 63`. -/
theorem extractFENDetails_board_accesses (fen : CppString) (legalMoves : List CppString)
    (p0 p1 p2 p3 p4 p5 : CppString) (half full : Int)
    (hsplit : splitStringIntoParts fen ' ' = [p0, p1, p2, p3, p4, p5])
    (hcells : cellCount p0 = 64) (h4 : stoi p4 = .ok half) (h5 : stoi p5 = .ok full)
    (hep : EnPassantFieldOk p3) :
    (∃ p, parseFEN fen [] = .ok p ∧ p.board.length = 64 ∧
      ∀ i : Int, (∃ cell, at_ p.board i = .ok cell) ↔ 0 ≤ i ∧ i ≤ 63) ∧
    ∃ out draw, extractFENDetails fen legalMoves = .ok (out, draw) := by
  have hp := parseFEN_six fen [] p0 p1 p2 p3 p4 p5 half full hsplit h4 h5
  have hlen : (expandRows [] (splitStringIntoParts p0 '/')).length = 64 := by
    rw [expandRows_cellCount, hcells]
  constructor
  · refine ⟨_, hp, hlen, ?_⟩
    intro i
    rw [at_range]
    simp only [hlen]
    omega
  · rw [extractFENDetails_eq fen legalMoves _ hp hlen]
    rcases hep with hdash | ⟨file, rank, hf, hr, ht⟩
    · simp only [hdash, detectEnPassant_dash, bind_ok]
      exact ⟨_, _, rfl⟩
    · simp only [ht, detectEnPassant_square _ _ _ _ _ hlen hf
        (show 2 ≤ rank ∧ rank ≤ 7 by omega), bind_ok]
      exact ⟨_, _, rfl⟩

/-- Witness of C36: the position after `1. e4` with the target `e3` on the king's file,
and a target on the edge file `a`; with a board field of 40 cells the read of the target
square `e3` lies outside the board. -/
theorem extractFENDetails_board_accesses_witness :
    (∃ out draw, extractFENDetails fenAfterE4 ["e7e5".toList] = .ok (out, draw)) ∧
    extractFENDetails "8/8/8/Pp6/8/8/8/8 w - a6 0 1".toList [] = .ok ([], false) ∧
    extractFENDetails "8/8/8/8/8 w - e3 0 1".toList [] = .error .undefinedBehaviour :=
  ⟨(extractFENDetails_board_accesses fenAfterE4 ["e7e5".toList]
      "rnbqkbnr/pppppppp/8/8/4P3/8/PPPP1PPP/RNBQKBNR".toList "b".toList "KQkq".toList
      "e3".toList "0".toList "1".toList 0 1 rfl (by decide) rfl rfl
      (Or.inr ⟨4, 3, by decide, Or.inl rfl, rfl⟩)).2,
   rfl, rfl⟩

/-! ## Facts about replacement in the passes -/

/-- Inversion of the en-passant pass on a 64-cell board for a target square: when it
returns, the list is as it was, or the plain capture from a neighbour square on the board
has been removed and the annotated capture appended. -/
theorem detectEnPassant_cases (legalMoves board : List CppString) (file rank : Nat)
    (whitesTurn : Bool) (out : List CppString) (hlen : board.length = 64) (hf : file < 8)
    (h1 : 1 ≤ rank) (h8 : rank ≤ 8)
    (h : detectEnPassant legalMoves board (squareName file rank) whitesTurn = .ok out) :
    out = legalMoves ∨
      ∃ origin originRank, origin < 8 ∧ 1 ≤ originRank ∧ originRank ≤ 8 ∧
        out = removeStringFromVector legalMoves
            (squareName origin originRank ++ squareName file rank)
          ++ [squareName origin originRank ++ squareName file rank ++ ['-']
              ++ squareName file originRank] := by
  have hsub : substr (squareName file rank) 1 1 = .ok [Char.ofNat (48 + rank)] := by
    simp [substr, squareName]
  have htarget : at_ board ((8 - (rank : Int)) * 8 + (file : Int))
      = .ok (cellAt board file rank) :=
    at_cell board _ ((8 - rank) * 8 + file) (by push_cast [Nat.cast_sub (by omega : rank ≤ 8)]; ring)
      (by omega)
  have hlen2 : (squareName file rank).length = 2 := rfl
  have hget : (squareName file rank).getD 0 (Char.ofNat 0) = Char.ofNat (97 + file) := rfl
  have htake : (squareName file rank).take 1 = [Char.ofNat (97 + file)] := rfl
  unfold detectEnPassant at h
  simp only [squareName_ne_dash file rank, ne_eq, not_false_eq_true, decide_True,
    Bool.true_and, if_true, hlen2, hget, htake, hsub, bind_ok, stoi_rank rank (by omega),
    findColumn_file file hf, htarget] at h
  generalize (8 - (rank : Int) + if whitesTurn = true then 1 else -1) = adj at h
  generalize (if whitesTurn = true then ['P'] else ['p'] : CppString) = pawn at h
  have hside : ∀ (column : Int) (cell : CppString) (letter : Char), 0 ≤ column → column ≤ 7 →
      at_ board (adj * 8 + column) = .ok cell →
      charAt COLUMN_LETTERS column.toNat = .ok letter →
      ∃ origin originRank, origin < 8 ∧ 1 ≤ originRank ∧ originRank ≤ 8 ∧
        removeStringFromVector legalMoves
            (letter :: to_string (8 - adj) ++ squareName file rank)
          ++ [letter :: to_string (8 - adj)
              ++ (squareName file rank ++ ['-'] ++ [Char.ofNat (97 + file)]
                ++ to_string (8 - adj))]
        = removeStringFromVector legalMoves
            (squareName origin originRank ++ squareName file rank)
          ++ [squareName origin originRank ++ squareName file rank ++ ['-']
              ++ squareName file originRank] := by
    intro column cell letter hc0 hc7 hcellok hletter
    have hrange := (at_range board _).1 ⟨cell, hcellok⟩
    rw [hlen] at hrange
    obtain ⟨c, rfl⟩ := Int.eq_ofNat_of_zero_le hc0
    have hc : c < 8 := by omega
    rw [Int.toNat_ofNat, charAt_column c hc] at hletter
    have hl : letter = Char.ofNat (97 + c) := (Except.ok.inj hletter).symm
    obtain ⟨r, hr⟩ : ∃ r : Nat, 8 - adj = (r : Int) := ⟨(8 - adj).toNat, by omega⟩
    have hr1 : 1 ≤ r ∧ r ≤ 8 := by omega
    refine ⟨c, r, hc, hr1.1, hr1.2, ?_⟩
    rw [hr, to_string_rank r (by omega), hl]
    simp [squareName]
  by_cases hcell : ¬ cellAt board file rank = ['.']
  · rw [if_pos hcell] at h
    exact Or.inl (Except.ok.inj h).symm
  · rw [if_neg hcell] at h
    by_cases h0 : (file : Int) > 0
    · rw [if_pos h0] at h
      cases hl : at_ board (adj * 8 + ((file : Int) - 1)) with
      | error e =>
        rw [hl] at h
        simp only [bind_error] at h
        cases h
      | ok cellLeft =>
        rw [hl] at h
        simp only [bind_ok, pure_eq_ok, decide_eq_true_eq] at h
        by_cases hpl : cellLeft = pawn
        · rw [if_pos hpl] at h
          cases hcl : charAt COLUMN_LETTERS ((file : Int) - 1).toNat with
          | error e =>
            rw [hcl] at h
            simp only [bind_error] at h
            cases h
          | ok letter =>
            rw [hcl] at h
            simp only [bind_ok, Except.ok.injEq] at h
            right
            rw [← h]
            exact hside ((file : Int) - 1) cellLeft letter (by omega) (by omega) hl hcl
        · rw [if_neg hpl] at h
          by_cases h7 : (file : Int) < 7
          · rw [if_pos h7] at h
            cases hr : at_ board (adj * 8 + ((file : Int) + 1)) with
            | error e =>
              rw [hr] at h
              simp only [bind_error] at h
              cases h
            | ok cellRight =>
              rw [hr] at h
              simp only [bind_ok, pure_eq_ok, decide_eq_true_eq] at h
              by_cases hpr : cellRight = pawn
              · rw [if_pos hpr] at h
                cases hcr : charAt COLUMN_LETTERS ((file : Int) + 1).toNat with
                | error e =>
                  rw [hcr] at h
                  simp only [bind_error] at h
                  cases h
                | ok letter =>
                  rw [hcr] at h
                  simp only [bind_ok, Except.ok.injEq] at h
                  right
                  rw [← h]
                  exact hside ((file : Int) + 1) cellRight letter (by omega) (by omega) hr hcr
              · rw [if_neg hpr] at h
                exact Or.inl (Except.ok.inj h).symm
          · rw [if_neg h7] at h
            try simp only [bind_ok, pure_eq_ok, Bool.false_eq_true, if_false] at h
            exact Or.inl (Except.ok.inj h).symm
    · rw [if_neg h0] at h
      simp only [bind_ok, pure_eq_ok, Bool.false_eq_true, if_false] at h
      by_cases h7 : (file : Int) < 7
      · rw [if_pos h7] at h
        cases hr : at_ board (adj * 8 + ((file : Int) + 1)) with
        | error e =>
          rw [hr] at h
          simp only [bind_error] at h
          cases h
        | ok cellRight =>
          rw [hr] at h
          simp only [bind_ok, pure_eq_ok, decide_eq_true_eq] at h
          by_cases hpr : cellRight = pawn
          · rw [if_pos hpr] at h
            cases hcr : charAt COLUMN_LETTERS ((file : Int) + 1).toNat with
            | error e =>
              rw [hcr] at h
              simp only [bind_error] at h
              cases h
            | ok letter =>
              rw [hcr] at h
              simp only [bind_ok, Except.ok.injEq] at h
              right
              rw [← h]
              exact hside ((file : Int) + 1) cellRight letter (by omega) (by omega) hr hcr
          · rw [if_neg hpr] at h
            exact Or.inl (Except.ok.inj h).symm
      · rw [if_neg h7] at h
        try simp only [bind_ok, pure_eq_ok, Bool.false_eq_true, if_false] at h
        exact Or.inl (Except.ok.inj h).symm

/-- C27, as stated, fails: in `r3k2r/8/8/8/8/8/8/R3K2R w KQkq - 0 1` the castling pass
synthesizes `e1g1|h1f1` for `e1g1` and `e1c1|a1d1` for `e1c1`. The resulting list is
`e1g1|h1f1`, `e1c1|a1d1`: the move synthesized for `e1g1` is not its last entry, and the
other entry of the input list, `e1c1`, is not in it; for `e1c1` the entries before the
last are not those of the input list other than `e1c1`. -/
theorem castling_pass_two_replacements :
    detectPossibleCastlingMoves "r3k2r/8/8/8/8/8/8/R3K2R w KQkq - 0 1".toList
        ["e1g1".toList, "e1c1".toList]
        ([['r'], ['.'], ['.'], ['.'], ['k'], ['.'], ['.'], ['r']] ++ List.replicate 48 ['.']
          ++ [['R'], ['.'], ['.'], ['.'], ['K'], ['.'], ['.'], ['R']])
        true [true, true, true, true]
      = .ok ["e1g1|h1f1".toList, "e1c1|a1d1".toList] ∧
    extractFENDetails "r3k2r/8/8/8/8/8/8/R3K2R w KQkq - 0 1".toList
        ["e1g1".toList, "e1c1".toList]
      = .ok (["e1g1|h1f1".toList, "e1c1|a1d1".toList], false) ∧
    ¬ ReplacedBy ["e1g1".toList, "e1c1".toList] "e1g1".toList "e1g1|h1f1".toList
        ["e1g1|h1f1".toList, "e1c1|a1d1".toList] ∧
    ¬ ReplacedBy ["e1g1".toList, "e1c1".toList] "e1c1".toList "e1c1|a1d1".toList
        ["e1g1|h1f1".toList, "e1c1|a1d1".toList] :=
  ⟨rfl, rfl, fun h => absurd h.2.1 (by decide), fun h => absurd h.2.2 (by decide)⟩

/-- C27, amended: replacement is remove-then-append at every synthesis step. (1) Whenever
one castling step (one wing) changes the list, it has synthesized the combined move `s`
for the plain king move `m`: the list after the step has no occurrence of `m`, has `s` as
its last entry, and before it the entries of the list before the step other than `m`, each
as often as before and in the same order. (2) The same holds for the en-passant pass on a
board of 64 cells for every target square, with the annotated capture for the plain
capture from a square of the board. (3) The castling pass is the king-side step followed
by the queen-side step: it leaves the list as it is when neither wing is synthesized, it
is one such replacement when one wing is, and when both are the result is the input list
without either plain king move, in order, followed by the king-side and then the
queen-side combined move. -/
theorem replacement_is_remove_then_append (legalMoves : List CppString) :
    (∀ (negativeLegalMoves board : List CppString)
        (whitesTurn castlingAllowed firstCastlingCheck white kingSide : Bool)
        (out : List CppString),
      addCastlingOptionIfPossible legalMoves negativeLegalMoves board whitesTurn
          castlingAllowed firstCastlingCheck (combinedCastlingMove white kingSide) = .ok out →
      out = legalMoves ∨
        ReplacedBy legalMoves (plainKingMove white kingSide)
          (combinedCastlingMove white kingSide) out) ∧
    (∀ (board : List CppString) (file rank : Nat) (whitesTurn : Bool) (out : List CppString),
      board.length = 64 → file < 8 → 1 ≤ rank → rank ≤ 8 →
      detectEnPassant legalMoves board (squareName file rank) whitesTurn = .ok out →
      out = legalMoves ∨
        ∃ origin originRank, origin < 8 ∧ 1 ≤ originRank ∧ originRank ≤ 8 ∧
          ReplacedBy legalMoves (squareName origin originRank ++ squareName file rank)
            (squareName origin originRank ++ squareName file rank ++ ['-']
              ++ squareName file originRank) out) ∧
    (∀ (fen : CppString) (p : Position), p.board.length = 64 →
      (∃ r0 r1 r2 r3, p.castlingRights = [r0, r1, r2, r3]) →
      ∃ out, detectPossibleCastlingMoves fen legalMoves p.board p.whitesTurn p.castlingRights
          = .ok out ∧
        (¬ CastlingConditions legalMoves p true → ¬ CastlingConditions legalMoves p false →
          out = legalMoves) ∧
        (CastlingConditions legalMoves p true → ¬ CastlingConditions legalMoves p false →
          ReplacedBy legalMoves (plainKingMove p.whitesTurn true)
            (combinedCastlingMove p.whitesTurn true) out) ∧
        (¬ CastlingConditions legalMoves p true → CastlingConditions legalMoves p false →
          ReplacedBy legalMoves (plainKingMove p.whitesTurn false)
            (combinedCastlingMove p.whitesTurn false) out) ∧
        (CastlingConditions legalMoves p true → CastlingConditions legalMoves p false →
          out = (legalMoves.filter (fun entry => entry ≠ plainKingMove p.whitesTurn true)).filter
                (fun entry => entry ≠ plainKingMove p.whitesTurn false)
              ++ [combinedCastlingMove p.whitesTurn true,
                  combinedCastlingMove p.whitesTurn false])) := by
  refine ⟨?_, ?_, ?_⟩
  · intro negativeLegalMoves board whitesTurn castlingAllowed firstCastlingCheck white kingSide
      out h
    rcases addCastlingOption_cases _ _ _ _ _ _ _ _ h with h | h
    · exact Or.inl h
    · right
      rw [h, combined_take_four]
      exact replacedBy_of_eq _ _ _ (Ne.symm (plain_ne_combined _ _ _))
  · intro board file rank whitesTurn out hlen hf h1 h8 h
    rcases detectEnPassant_cases legalMoves board file rank whitesTurn out hlen hf h1 h8 h
      with h | ⟨origin, originRank, ho, hr1, hr8, h⟩
    · exact Or.inl h
    · right
      refine ⟨origin, originRank, ho, hr1, hr8, ?_⟩
      rw [h]
      refine replacedBy_of_eq _ _ _ ?_
      intro heq
      have := congrArg List.length heq
      simp [squareName] at this
  · intro fen p hlen hrights
    obtain ⟨hnone, hking, hqueen, hboth⟩ := castlingResult_cases legalMoves p
    refine ⟨_, detectPossibleCastlingMoves_eq fen legalMoves p hlen hrights, hnone, ?_, ?_,
      hboth⟩
    · intro hk hq
      rw [hking hk hq]
      exact replacedBy_of_eq _ _ _ (Ne.symm (plain_ne_combined _ _ _))
    · intro hk hq
      rw [hqueen hk hq]
      exact replacedBy_of_eq _ _ _ (Ne.symm (plain_ne_combined _ _ _))

/-- Witness of C27: a castling step on a list with the plain king move twice and another
move in between; the en-passant pass for White with the target `e8` and a pawn on d7; and
the castling pass with both wings synthesized. -/
theorem replacement_is_remove_then_append_witness :
    ReplacedBy ["e1g1".toList, "e1d1".toList, "e1g1".toList, "a1b1".toList]
      "e1g1".toList "e1g1|h1f1".toList
      ["e1d1".toList, "a1b1".toList, "e1g1|h1f1".toList] ∧
    (∃ origin originRank, origin < 8 ∧ 1 ≤ originRank ∧ originRank ≤ 8 ∧
      ReplacedBy ["d7e8".toList, "d7d8".toList]
        (squareName origin originRank ++ squareName 4 8)
        (squareName origin originRank ++ squareName 4 8 ++ ['-'] ++ squareName 4 originRank)
        ["d7d8".toList, "d7e8-e7".toList]) ∧
    (∃ out, detectPossibleCastlingMoves [] ["e1g1".toList, "a2a3".toList, "e1c1".toList]
        whiteCastlingBoard true [true, true, false, false] = .ok out ∧
      out = ["a2a3".toList, "e1g1|h1f1".toList, "e1c1|a1d1".toList]) := by
  refine ⟨?_, ?_, ?_⟩
  · exact ((replacement_is_remove_then_append
        ["e1g1".toList, "e1d1".toList, "e1g1".toList, "a1b1".toList]).1
      [] whiteCastlingBoard true true true true true
      ["e1d1".toList, "a1b1".toList, "e1g1|h1f1".toList] rfl).resolve_left (by decide)
  · exact ((replacement_is_remove_then_append ["d7e8".toList, "d7d8".toList]).2.1
      (List.replicate 11 ['.'] ++ [['P']] ++ List.replicate 52 ['.']) 4 8 true
      ["d7d8".toList, "d7e8-e7".toList] (by decide) (by decide) (by decide) (by decide)
      rfl).resolve_left (by decide)
  · obtain ⟨out, hout, -, -, -, hboth⟩ :=
      (replacement_is_remove_then_append ["e1g1".toList, "a2a3".toList, "e1c1".toList]).2.2 []
        ⟨whiteCastlingBoard, true, [true, true, false, false], ['-'], 0, 1⟩ (by decide)
        ⟨true, true, false, false, rfl⟩
    exact ⟨out, hout, (hboth ⟨by decide, by decide, by decide⟩
      ⟨by decide, by decide, by decide⟩).trans (by decide)⟩

end LivingRoom
